import Mathlib

/-!
Language recognizer of alizer (`go/pkg/apis/recognizer/language_recognizer.go`).

A shallow embedding of `Analyze` and of the helpers it calls, followed by
theorems about the paths it collects and the weights it reports.

Conventions of the embedding.

* Go `int` counters (occurrence counts, accumulated weights, the denominator)
  are natural numbers: they only ever grow by the number of collected paths.
* Go `float64` values are rationals, and every `float64` operation is the exact
  operation followed by `f64`, rounding to the nearest binary64 value with 53
  significant bits, ties to even.  The exponent range is not bounded: operands
  here are quotients and small multiples of counters, far from overflow and
  underflow.
* Go maps are association lists with distinct keys.  The order in which `range`
  visits a map is not specified by the language; it is a parameter of the
  embedding (`rangeOrder`), a list of choices that picks the next entry.
* The language knowledge base (`langfile`) and the enrichers (`enricher`) are
  other packages: they are parameters.
* The file system is a tree that does not change during the walk: `os.Stat` is
  a function of the path, a directory is the listing of its entries in the
  order `filepath.Walk` reads them, and every entry is read without error, so
  the walk itself returns no error.  There are no symbolic links: `os.Stat` and
  the `os.Lstat` of `filepath.Walk` show the same node.  Paths are Unix paths.
  The compiler of ignore files (`go-gitignore`) is a parameter; a compiled
  ignore file is a predicate on paths.
* `strings.EqualFold` folds the letters `A` to `Z` only; letters outside ASCII
  are compared exactly.
-/

namespace Alizer

/-! ## Data model -/

/-- Descriptor of the knowledge base, `langfile.LanguageItem`, with the fields
`Analyze` reads. -/
structure LanguageItem where
  Name : String
  Aliases : List String
  Kind : String
  Group : String
  Component : Bool
deriving DecidableEq

/-- The two lookups of `langfile.LanguageFile` used by `Analyze`; `none` stands
for a non-nil error of `GetLanguageByName`. -/
structure LanguageFile where
  GetLanguagesByExtension : String → List LanguageItem
  GetLanguageByName : String → Option LanguageItem

/-- Result record `model.Language`; `Weight` is the value of a `float64`. -/
structure Language where
  Name : String
  Aliases : List String
  Weight : ℚ
  Frameworks : List String
  Tools : List String
  CanBeComponent : Bool
deriving DecidableEq

/-- Entry of `languagesDetected`. -/
structure languageItem where
  item : LanguageItem
  weight : Nat
deriving DecidableEq

/-- Modelled from the spec: the enrichers of package `enricher` are not part of
this file.  Per the spec (4.5) a hook "may append entries to
frameworks/tools in place"; it is given the collected paths. -/
structure Enricher where
  frameworks : List String → List String
  tools : List String → List String

/-- Modelled from the spec: `DoEnrichLanguage` appends to `Frameworks` and
`Tools` and leaves the other fields alone. -/
def DoEnrichLanguage (e : Enricher) (l : Language) (paths : List String) : Language :=
  { l with Frameworks := l.Frameworks ++ e.frameworks paths,
           Tools := l.Tools ++ e.tools paths }

/-! ## Go maps -/

/-- Lookup `m[k]` with the second result of the comma-ok form. -/
def mapLookup {β : Type} : List (String × β) → String → Option β
  | [], _ => none
  | (k', v) :: rest, k => if k' = k then some v else mapLookup rest k

/-- Assignment `m[k] = v`. -/
def mapSet {β : Type} : List (String × β) → String → β → List (String × β)
  | [], k, v => [(k, v)]
  | (k', v') :: rest, k, v =>
    if k' = k then (k, v) :: rest else (k', v') :: mapSet rest k v

/-- Order of a `range` over a map: each choice `c` picks the entry at index
`c % length` among those not visited yet; when the choices run out the rest is
visited in stored order.  Every visiting order arises from some choices
(`rangeOrder_complete`). -/
def rangeOrder {α : Type} : List Nat → List α → List α
  | _, [] => []
  | [], x :: xs => x :: xs
  | c :: cs, x :: xs =>
    (x :: xs).get ⟨c % (xs.length + 1), Nat.mod_lt _ (Nat.succ_pos _)⟩ ::
      rangeOrder cs ((x :: xs).eraseIdx (c % (xs.length + 1)))

/-- Lookup `extensionsGrouped[extension]`, zero when absent. -/
def countOf (m : List (String × Nat)) (k : String) : Nat :=
  (mapLookup m k).getD 0

/-- Lookup `languagesDetected[name].weight`, zero when absent. -/
def weightOf (m : List (String × languageItem)) (k : String) : Nat :=
  match mapLookup m k with
  | some v => v.weight
  | none => 0

/-! ## Extension tally -/

/-- Scan of `filepath.Ext` from the end of the path (Unix separator): the
characters still to scan, last first, and the suffix already passed. -/
def extScan : List Char → List Char → List Char
  | [], _ => []
  | c :: rest, acc =>
    if c = '/' then [] else if c = '.' then '.' :: acc else extScan rest (c :: acc)

/-- Standard library `filepath.Ext`: the suffix beginning at the final dot of
the final element of the path, empty if there is none. -/
def Ext (path : String) : String :=
  String.mk (extScan path.data.reverse [])

/-- Body of the loop of `extractExtensions`. -/
def extractStep (extensions : List (String × Nat)) (path : String) : List (String × Nat) :=
  let extension := Ext path
  if extension.length = 0 then extensions
  else mapSet extensions extension (countOf extensions extension + 1)

/-- The function `extractExtensions`. -/
def extractExtensions (paths : List String) : List (String × Nat) :=
  paths.foldl extractStep []

/-! ## The extension loop of `Analyze` -/

/-- State of the extension loop: `languagesDetected`,
`extensionHasProgrammingLanguage`, `totalProgrammingOccurrences`. -/
structure LoopState where
  languagesDetected : List (String × languageItem)
  extensionHasProgrammingLanguage : Bool
  totalProgrammingOccurrences : Nat
deriving DecidableEq

/-- Body of the inner loop (lines 48-66) for one candidate `language` of an
extension with `count` occurrences. -/
def candidateStep (languagesFile : LanguageFile) (count : Nat)
    (st : List (String × languageItem) × Bool) (language : LanguageItem) :
    List (String × languageItem) × Bool :=
  if language.Kind = "programming" then
    match (if language.Group.length = 0 then some language
           else languagesFile.GetLanguageByName language.Group) with
    | none => st
    | some languageFileItem =>
      (mapSet st.1 languageFileItem.Name
        ⟨languageFileItem, weightOf st.1 languageFileItem.Name + count⟩, true)
  else st

/-- Body of the outer loop (lines 43-71) for one extension. -/
def extensionStep (languagesFile : LanguageFile) (extensionsGrouped : List (String × Nat))
    (st : LoopState) (extension : String) : LoopState :=
  let languages := languagesFile.GetLanguagesByExtension extension
  if languages.length = 0 then st
  else
    let r := languages.foldl (candidateStep languagesFile (countOf extensionsGrouped extension))
      (st.languagesDetected, st.extensionHasProgrammingLanguage)
    if r.2 then
      ⟨r.1, false, st.totalProgrammingOccurrences + countOf extensionsGrouped extension⟩
    else ⟨r.1, r.2, st.totalProgrammingOccurrences⟩

/-- The extension loop, visiting the keys of `extensionsGrouped` in the order
given by `order`. -/
def extensionLoop (languagesFile : LanguageFile) (extensionsGrouped : List (String × Nat))
    (order : List Nat) : LoopState :=
  ((rangeOrder order extensionsGrouped).map Prod.fst).foldl
    (extensionStep languagesFile extensionsGrouped) ⟨[], false, 0⟩

/-! ## binary64 arithmetic -/

/-- Nearest integer, ties to the even one. -/
def roundEven (x : ℚ) : ℤ :=
  if x - ⌊x⌋ < 1 / 2 then ⌊x⌋
  else if 1 / 2 < x - ⌊x⌋ then ⌊x⌋ + 1
  else if ⌊x⌋ % 2 = 0 then ⌊x⌋ else ⌊x⌋ + 1

/-- Halving count behind `ilog2`; the first argument bounds the recursion. -/
def ilog2Aux : Nat → Nat → Nat
  | 0, _ => 0
  | fuel + 1, n => if n ≤ 1 then 0 else ilog2Aux fuel (n / 2) + 1

/-- Position of the leading bit of a positive natural number. -/
def ilog2 (n : Nat) : Nat := ilog2Aux n n

/-- Binary exponent of a nonzero rational: the `e` with `2 ^ e ≤ |q| < 2 ^ (e + 1)`,
from the leading bits of numerator and denominator. -/
def binade (q : ℚ) : ℤ :=
  if q.den * 2 ^ ilog2 q.num.natAbs ≤ q.num.natAbs * 2 ^ ilog2 q.den then
    (ilog2 q.num.natAbs : ℤ) - (ilog2 q.den : ℤ)
  else (ilog2 q.num.natAbs : ℤ) - (ilog2 q.den : ℤ) - 1

/-- Unit in the last place of the binary64 values with the binade of `q`. -/
def ulp (q : ℚ) : ℚ := (2 : ℚ) ^ (binade q - 52)

/-- Rounding of an exact result to binary64 (53 significant bits, nearest, ties
to even). -/
def f64 (q : ℚ) : ℚ :=
  if q = 0 then 0 else (roundEven (q / ulp q) : ℚ) * ulp q

/-- Conversion `int(x)` of a `float64`: truncation toward zero. -/
def goInt (x : ℚ) : ℤ := if 0 ≤ x then ⌊x⌋ else ⌈x⌉

/-! ## Weights (lines 75-81) -/

/-- Line 75: `float64(item.weight) / float64(totalProgrammingOccurrences)`.
With a zero denominator Go yields an infinity or NaN where this quotient is 0;
line 75 runs once per entry of `languagesDetected`, and a detected language
makes the denominator positive (`total_pos_of_detected`), so that value is
never used. -/
def rawWeight (weight total : Nat) : ℚ :=
  f64 (f64 (weight : ℚ) / f64 (total : ℚ))

/-- Inner conversion of line 76: `int(tmpWeight*10000)`. -/
def truncUnits (weight total : Nat) : ℤ :=
  goInt (f64 (rawWeight weight total * 10000))

/-- Line 76: `float64(int(tmpWeight*10000)) / 10000`. -/
def tmpWeight (weight total : Nat) : ℚ :=
  f64 (f64 (truncUnits weight total : ℚ) / 10000)

/-- The constant `0.02` of line 77 as a `float64`. -/
def threshold : ℚ := f64 (2 / 100)

/-- Line 81: `tmpWeight * 100`. -/
def percentage (weight total : Nat) : ℚ :=
  f64 (tmpWeight weight total * 100)

/-! ## Result assembly (lines 73-97) -/

/-- Body of the loop over `languagesDetected` for one entry: the language
appended to `languagesFound`, if any. -/
def languageOf (GetEnricherByLanguage : String → Option Enricher) (paths : List String)
    (totalProgrammingOccurrences : Nat) (entry : String × languageItem) : Option Language :=
  if threshold < tmpWeight entry.2.weight totalProgrammingOccurrences then
    let tmpLanguage : Language :=
      { Name := entry.1
        Aliases := entry.2.item.Aliases
        Weight := percentage entry.2.weight totalProgrammingOccurrences
        Frameworks := []
        Tools := []
        CanBeComponent := entry.2.item.Component }
    match GetEnricherByLanguage entry.1 with
    | some langEnricher => some (DoEnrichLanguage langEnricher tmpLanguage paths)
    | none => some tmpLanguage
  else none

/-- Insertion step of the stable sort: `a` comes from before every element of
the sorted list and goes before the first one that is not heavier. -/
def insertByWeight (a : Language) : List Language → List Language
  | [] => [a]
  | b :: rest => if a.Weight < b.Weight then b :: insertByWeight a rest else a :: b :: rest

/-- Semantics of `sort.SliceStable` with `less i j := Weight i > Weight j`. -/
def sortByWeight : List Language → List Language
  | [] => []
  | a :: rest => insertByWeight a (sortByWeight rest)

/-- The slice `languagesFound` before sorting, the entries of
`languagesDetected` visited in the order given by `order`. -/
def languagesFound (GetEnricherByLanguage : String → Option Enricher) (paths : List String)
    (st : LoopState) (order : List Nat) : List Language :=
  (rangeOrder order st.languagesDetected).filterMap
    (languageOf GetEnricherByLanguage paths st.totalProgrammingOccurrences)

/-- Lines 40-97 of `Analyze`, from the paths collected by `GetFilePathsFromRoot`:
`extOrder` and `langOrder` are the visiting orders of the two `range` loops. -/
def analyzePaths (languagesFile : LanguageFile) (GetEnricherByLanguage : String → Option Enricher)
    (paths : List String) (extOrder langOrder : List Nat) : List Language :=
  let extensionsGrouped := extractExtensions paths
  let st := extensionLoop languagesFile extensionsGrouped extOrder
  sortByWeight (languagesFound GetEnricherByLanguage paths st langOrder)


/-! ## Vocabulary of the statements -/

/-- The canonical descriptor a candidate contributes to, if any: a
programming-kind candidate without group is its own canonical descriptor, one
with a group contributes to the descriptor `GetLanguageByName` finds. -/
def resolve (languagesFile : LanguageFile) (language : LanguageItem) : Option LanguageItem :=
  if language.Kind = "programming" then
    if language.Group.length = 0 then some language
    else languagesFile.GetLanguageByName language.Group
  else none

/-- Names of the canonical descriptors the candidates of an extension
contribute to, one per contributing candidate. -/
def resolvedNames (languagesFile : LanguageFile) (extension : String) : List String :=
  ((languagesFile.GetLanguagesByExtension extension).filterMap (resolve languagesFile)).map
    LanguageItem.Name

/-- Sum of the accumulated weights of a map of detected languages. -/
def sumWeights (d : List (String × languageItem)) : Nat :=
  (d.map (fun entry => entry.2.weight)).sum

/-- Keys of a map, in stored order. -/
def keys {β : Type} (m : List (String × β)) : List String := m.map Prod.fst

/-- Name and weight of a reported language. -/
def nameWeight (l : Language) : String × ℚ := (l.Name, l.Weight)

/-- Name and weight reported for an entry of `languagesDetected`, if line 77
keeps it. -/
def reported (total : Nat) (entry : String × languageItem) : Option (String × ℚ) :=
  if threshold < tmpWeight entry.2.weight total then
    some (entry.1, percentage entry.2.weight total)
  else none

/-- Whether an extension has at least one candidate of kind programming. -/
def hasProgrammingCandidate (languagesFile : LanguageFile) (extension : String) : Bool :=
  (languagesFile.GetLanguagesByExtension extension).any
    (fun language => decide (language.Kind = "programming"))

/-! ## Sample inputs -/

/-- Registry without enrichers. -/
def noEnricher : String → Option Enricher := fun _ => none

/-- Descriptor of a programming language without group. -/
def programmingItem (name : String) : LanguageItem :=
  { Name := name, Aliases := [], Kind := "programming", Group := "", Component := true }

/-- Descriptor of a programming dialect of `group`. -/
def dialectItem (name group : String) : LanguageItem :=
  { Name := name, Aliases := [], Kind := "programming", Group := group, Component := false }

/-- A small knowledge base in the shape of the linguist table: plain languages
(`.go`, `.py`, `.js`), a dialect (`.ts`, TypeScript in the group of JavaScript),
a prose kind (`.md`), an extension shared by two languages (`.h`), an extension
shared by a language and one of its dialects (`.asm`), and a dialect whose
group is not in the table (`.vy`). -/
def sampleKB : LanguageFile where
  GetLanguagesByExtension := fun extension =>
    if extension = ".go" then [programmingItem "Go"]
    else if extension = ".py" then [programmingItem "Python"]
    else if extension = ".js" then [programmingItem "JavaScript"]
    else if extension = ".ts" then [dialectItem "TypeScript" "JavaScript"]
    else if extension = ".md" then
      [{ Name := "Markdown", Aliases := ["md"], Kind := "prose", Group := "", Component := false }]
    else if extension = ".h" then [programmingItem "C", programmingItem "C++"]
    else if extension = ".asm" then
      [programmingItem "Assembly", dialectItem "Motorola 68K Assembly" "Assembly"]
    else if extension = ".vy" then [dialectItem "Vyper" "Pythonic"]
    else []
  GetLanguageByName := fun name =>
    if name = "Go" then some (programmingItem "Go")
    else if name = "Python" then some (programmingItem "Python")
    else if name = "JavaScript" then some (programmingItem "JavaScript")
    else if name = "C" then some (programmingItem "C")
    else if name = "C++" then some (programmingItem "C++")
    else if name = "Assembly" then some (programmingItem "Assembly")
    else none

/-- The paths `dir/f.ext`, `dir/ff.ext`, ... of `n` distinct files. -/
def sampleFiles (n : Nat) (dir ext : String) : List String :=
  (List.range n).map (fun i => dir ++ String.mk (List.replicate (i + 1) 'f') ++ ext)

/-! ## Paths (`path/filepath` on Unix, `strings.EqualFold`) -/

/-- Elements of a path between separators, as `strings.Split(path, "/")`. -/
def splitSlash : List Char → List (List Char)
  | [] => [[]]
  | c :: cs =>
    if c = '/' then [] :: splitSlash cs
    else
      match splitSlash cs with
      | [] => [[c]]
      | h :: t => (c :: h) :: t

/-- Elements joined by separators. -/
def joinSlash : List (List Char) → List Char
  | [] => []
  | [a] => a
  | a :: b :: rest => a ++ '/' :: joinSlash (b :: rest)

/-- One round of the loop of `filepath.Clean`: `out` holds the elements written
so far, the last one first. Empty and `.` elements are dropped, `..` removes the
last real element, is dropped at the root, and is kept otherwise. -/
def cleanStep (rooted : Bool) (out : List (List Char)) (elem : List Char) : List (List Char) :=
  if elem = [] then out
  else if elem = ['.'] then out
  else if elem = ['.', '.'] then
    match out with
    | [] => if rooted then [] else [['.', '.']]
    | top :: rest => if top = ['.', '.'] then ['.', '.'] :: top :: rest else rest
  else elem :: out

/-- The path `filepath.Clean` returns for the elements `out`, the last first. -/
def renderPath (rooted : Bool) (out : List (List Char)) : List Char :=
  if rooted then '/' :: joinSlash out.reverse
  else if out = [] then ['.'] else joinSlash out.reverse

/-- Whether a path begins with a separator. -/
def isRooted : List Char → Bool
  | [] => false
  | c :: _ => decide (c = '/')

/-- The function `filepath.Clean` on the characters of a path. -/
def cleanChars (path : List Char) : List Char :=
  renderPath (isRooted path) ((splitSlash path).foldl (cleanStep (isRooted path)) [])

/-- Standard library `filepath.Clean`. -/
def Clean (path : String) : String := String.mk (cleanChars path.data)

/-- Standard library `filepath.Join` of two elements. -/
def Join (a b : String) : String :=
  if a.data = [] then (if b.data = [] then "" else Clean b)
  else Clean (String.mk (a.data ++ '/' :: b.data))

/-- First result of `filepath.Split`: the path up to and including the final
separator. -/
def splitDir (file : List Char) : List Char :=
  (file.reverse.dropWhile (fun c => decide (c ≠ '/'))).reverse

/-- Case folding of `strings.EqualFold` on a code point; only the letters `A`
to `Z` are folded. -/
def foldChar (c : Char) : Nat :=
  if 65 ≤ c.toNat ∧ c.toNat ≤ 90 then c.toNat + 32 else c.toNat

/-- Standard library `strings.EqualFold`, with the folding of `foldChar`: exact
on strings whose letters are ASCII. -/
def EqualFold (s t : String) : Bool :=
  decide (s.data.map foldChar = t.data.map foldChar)

/-- The function `isFileInRoot`. -/
def isFileInRoot (root file : String) : Bool :=
  EqualFold (Clean (String.mk (splitDir file.data))) (Clean root)

/-! ## The file tree and the walk -/

/-- Listing of a directory, in the order `filepath.Walk` reads it (sorted by
name): each entry is a file or a directory with its own listing. -/
inductive Entries where
  | nil : Entries
  | file (name : String) (rest : Entries) : Entries
  | dir (name : String) (children : Entries) (rest : Entries) : Entries
deriving DecidableEq

/-- What a path names. -/
inductive Node where
  | file : Node
  | dir (entries : Entries) : Node
deriving DecidableEq

/-- The file system as `os.Stat` shows it: the node a path names, or the error. -/
structure FileSystem where
  stat : String → Except String Node

/-- Condition of line 123, `errorIgnoreFile == nil && ignoreFile.MatchesPath(path)`:
the matcher is `none` when `getIgnoreFile` returned an error. -/
def isIgnored (ignoreFile : Option (String → Bool)) (path : String) : Bool :=
  match ignoreFile with
  | some matcher => matcher path
  | none => false

/-- The function literal passed to `filepath.Walk` (lines 121-135), called for
an entry that was read without error: the slice `files` after the call, and
whether the call returned `filepath.SkipDir`. -/
def walkFn (root : String) (ignoreFile : Option (String → Bool)) (files : List String)
    (path : String) (isDir : Bool) : List String × Bool :=
  if isIgnored ignoreFile path then (files, isDir)
  else if !isDir && isFileInRoot root path then (path :: files, false)
  else (files ++ [path], false)

/-- Part of `filepath.Walk` that visits the entries of the directory `dirPath`. -/
def walkEntries (root : String) (ignoreFile : Option (String → Bool)) (dirPath : String) :
    Entries → List String → List String
  | .nil, files => files
  | .file name rest, files =>
    walkEntries root ignoreFile dirPath rest
      (walkFn root ignoreFile files (Join dirPath name) false).1
  | .dir name children rest, files =>
    walkEntries root ignoreFile dirPath rest
      (if (walkFn root ignoreFile files (Join dirPath name) true).2 then
        (walkFn root ignoreFile files (Join dirPath name) true).1
      else
        walkEntries root ignoreFile (Join dirPath name) children
          (walkFn root ignoreFile files (Join dirPath name) true).1)

/-- Standard library `filepath.Walk` from `root`, with the function literal of
`GetFilePathsFromRoot`: the slice `files` after the walk. -/
def Walk (root : String) (ignoreFile : Option (String → Bool)) (node : Node) : List String :=
  match node with
  | .file => (walkFn root ignoreFile [] root false).1
  | .dir entries =>
    if (walkFn root ignoreFile [] root true).2 then (walkFn root ignoreFile [] root true).1
    else walkEntries root ignoreFile root entries (walkFn root ignoreFile [] root true).1

/-- The function `getIgnoreFile`; `CompileIgnoreFile` is the function of the
package `go-gitignore`. -/
def getIgnoreFile (fs : FileSystem) (CompileIgnoreFile : String → Except String (String → Bool))
    (root : String) : Except String (String → Bool) :=
  match fs.stat (Join root ".gitignore") with
  | .ok _ => CompileIgnoreFile (Join root ".gitignore")
  | .error _ => .error "no git ignore file found"

/-- The function `GetFilePathsFromRoot`: the paths and the error.  The node
`fs.stat` shows for the root is the one the walk starts from. -/
def GetFilePathsFromRoot (fs : FileSystem)
    (CompileIgnoreFile : String → Except String (String → Bool)) (root : String) :
    List String × Option String :=
  match fs.stat root with
  | .error err => ([], some err)
  | .ok node => (Walk root (getIgnoreFile fs CompileIgnoreFile root).toOption node, none)

/-- The function `Analyze`: the languages and the error. -/
def Analyze (fs : FileSystem) (CompileIgnoreFile : String → Except String (String → Bool))
    (languagesFile : LanguageFile) (GetEnricherByLanguage : String → Option Enricher)
    (path : String) (extOrder langOrder : List Nat) : List Language × Option String :=
  match GetFilePathsFromRoot fs CompileIgnoreFile path with
  | (_, some err) => ([], some err)
  | (paths, none) =>
    (analyzePaths languagesFile GetEnricherByLanguage paths extOrder langOrder, none)

/-! ## Vocabulary of the statements about the walk -/

/-- Name a directory entry can have: not empty, without separator, and neither
`.` nor `..`. -/
def ValidName (n : List Char) : Prop :=
  n ≠ [] ∧ '/' ∉ n ∧ n ≠ ['.'] ∧ n ≠ ['.', '.']

instance (n : List Char) : Decidable (ValidName n) := by
  unfold ValidName
  infer_instance

/-- Whether every name of a listing, at every depth, is one a directory entry
can have. -/
def validEntries : Entries → Bool
  | .nil => true
  | .file name rest => decide (ValidName name.data) && validEntries rest
  | .dir name children rest =>
    decide (ValidName name.data) && validEntries children && validEntries rest

/-- Whether every name below a node is one a directory entry can have. -/
def validNode : Node → Bool
  | .file => true
  | .dir entries => validEntries entries

/-- Invariant of the stack of path elements that `filepath.Clean` builds: names,
above leading `..` elements of a relative path. -/
def GoodStack (rooted : Bool) : List (List Char) → Prop
  | [] => True
  | top :: rest =>
    (ValidName top ∨ (top = ['.', '.'] ∧ rooted = false ∧ ∀ x ∈ rest, x = ['.', '.'])) ∧
      GoodStack rooted rest

/-- Stack of path elements that `filepath.Clean` builds for a path, last
element first. -/
def stackOf (path : List Char) : List (List Char) :=
  (splitSlash path).foldl (cleanStep (isRooted path)) []

/-- Path of the entry reached from `root` through the names `below`, last name
first. -/
def pathChars (root : List Char) (below : List (List Char)) : List Char :=
  if below = [] then root else renderPath (isRooted root) (below ++ stackOf root)

/-- Path of the entry reached from `root` through the names `below`, last name
first, as a string. -/
def entryPath (root : String) (below : List String) : String :=
  String.mk (pathChars root.data (below.map String.data))

/-- Modelled from the spec: an entry the collector records, with its path,
whether it is a directory, and its depth below the root (the root itself has
depth 0, the entries directly inside it depth 1). -/
structure Visit where
  path : String
  isDir : Bool
  depth : Nat

/-- Modelled from the spec: the entries of a directory the collector records,
in traversal order: an entry matched by the ignore predicate is skipped, with
its whole subtree if it is a directory. -/
def visitedEntries (ignoreFile : Option (String → Bool)) (dirPath : String) (depth : Nat) :
    Entries → List Visit
  | .nil => []
  | .file name rest =>
    (if isIgnored ignoreFile (Join dirPath name) then []
      else [Visit.mk (Join dirPath name) false depth]) ++
      visitedEntries ignoreFile dirPath depth rest
  | .dir name children rest =>
    (if isIgnored ignoreFile (Join dirPath name) then []
      else Visit.mk (Join dirPath name) true depth ::
        visitedEntries ignoreFile (Join dirPath name) (depth + 1) children) ++
      visitedEntries ignoreFile dirPath depth rest

/-- Modelled from the spec: the entries the collector records from `root`, in
traversal order. -/
def visited (ignoreFile : Option (String → Bool)) (root : String) : Node → List Visit
  | .file => if isIgnored ignoreFile root then [] else [Visit.mk root false 0]
  | .dir entries =>
    if isIgnored ignoreFile root then []
    else Visit.mk root true 0 :: visitedEntries ignoreFile root 1 entries

/-- Modelled from the spec: a recorded non-directory entry located directly
inside the root. -/
def isRootFile (v : Visit) : Bool := !v.isDir && decide (v.depth = 1)

/-- A listing without the entries a matcher matches; a matched directory goes
with its whole subtree. -/
def prune (matcher : String → Bool) (dirPath : String) : Entries → Entries
  | .nil => .nil
  | .file name rest =>
    if matcher (Join dirPath name) then prune matcher dirPath rest
    else .file name (prune matcher dirPath rest)
  | .dir name children rest =>
    if matcher (Join dirPath name) then prune matcher dirPath rest
    else .dir name (prune matcher (Join dirPath name) children) (prune matcher dirPath rest)

/-- A node without the entries below it that a matcher matches. -/
def pruneNode (matcher : String → Bool) (root : String) : Node → Node
  | .file => .file
  | .dir entries => .dir (prune matcher root entries)

/-! ## Sample file systems -/

/-- Listing of the sample project. -/
def sampleTree : Entries :=
  .file ".gitignore" (.file "main.go" (.dir "pkg" (.file "a.go" (.file "b.py" .nil))
    (.file "setup.py" (.dir "vendor" (.file "x.js" (.file "y.js" .nil))
      (.file "zz.go" .nil)))))

/-- A file system with the sample project at `proj`. -/
def sampleFS : FileSystem where
  stat := fun path =>
    if path = "proj" then .ok (.dir sampleTree)
    else if path = "proj/.gitignore" then .ok .file
    else .error "no such file or directory"

/-- A matcher of the ignore file itself and of the directory `vendor` of the
sample project. -/
def sampleMatcher : String → Bool :=
  fun path => decide (path = "proj/vendor") || decide (path = "proj/.gitignore")

/-- Every ignore file compiles to the sample matcher. -/
def sampleCompile : String → Except String (String → Bool) :=
  fun _ => .ok sampleMatcher

/-- A file system with one empty directory. -/
def emptyDirAt (name : String) : FileSystem where
  stat := fun path =>
    if path = name then .ok (.dir .nil) else .error "no such file or directory"

/-- No ignore file compiles. -/
def noCompile : String → Except String (String → Bool) :=
  fun _ => .error "no ignore file"

/-! ## Rounding: auxiliary facts -/

theorem ilog2Aux_spec (fuel : Nat) : ∀ n : Nat, n ≤ fuel → n ≠ 0 →
    2 ^ ilog2Aux fuel n ≤ n ∧ n < 2 ^ (ilog2Aux fuel n + 1) := by
  induction fuel with
  | zero => intro n h1 h2; omega
  | succ fuel ih =>
    intro n h1 h2
    unfold ilog2Aux
    by_cases h : n ≤ 1
    · have : n = 1 := by omega
      subst this
      simp
    · rw [if_neg h]
      have h3 := ih (n / 2) (by omega) (by omega)
      rw [pow_succ, pow_succ (2 : ℕ) (ilog2Aux fuel (n / 2) + 1)]
      omega

theorem ilog2_spec (n : Nat) (h : n ≠ 0) : 2 ^ ilog2 n ≤ n ∧ n < 2 ^ (ilog2 n + 1) :=
  ilog2Aux_spec n n (le_refl n) h

theorem abs_eq_natAbs_div_den (q : ℚ) : |q| = (q.num.natAbs : ℚ) / (q.den : ℚ) := by
  have h1 : |q| = |(q.num : ℚ)| / (q.den : ℚ) := by
    conv_lhs => rw [← Rat.num_div_den q]
    rw [abs_div, Nat.abs_cast]
  rw [h1, Nat.cast_natAbs, Int.cast_abs]

theorem binade_core (a b : ℕ) (ha0 : a ≠ 0) (hb0 : b ≠ 0) :
    (2 : ℚ) ^ (if b * 2 ^ ilog2 a ≤ a * 2 ^ ilog2 b then (ilog2 a : ℤ) - (ilog2 b : ℤ)
        else (ilog2 a : ℤ) - (ilog2 b : ℤ) - 1) ≤ (a : ℚ) / (b : ℚ) ∧
    (a : ℚ) / (b : ℚ) <
      (2 : ℚ) ^ ((if b * 2 ^ ilog2 a ≤ a * 2 ^ ilog2 b then (ilog2 a : ℤ) - (ilog2 b : ℤ)
        else (ilog2 a : ℤ) - (ilog2 b : ℤ) - 1) + 1) := by
  obtain ⟨ha1, ha2⟩ := ilog2_spec _ ha0
  obtain ⟨hb1, hb2⟩ := ilog2_spec _ hb0
  have hA1 : (2 : ℚ) ^ ilog2 a ≤ (a : ℚ) := by exact_mod_cast ha1
  have hA2 : (a : ℚ) < 2 * (2 : ℚ) ^ ilog2 a := by
    have : (a : ℚ) < (2 : ℚ) ^ (ilog2 a + 1) := by exact_mod_cast ha2
    rw [pow_succ] at this; linarith
  have hB1 : (2 : ℚ) ^ ilog2 b ≤ (b : ℚ) := by exact_mod_cast hb1
  have hB2 : (b : ℚ) < 2 * (2 : ℚ) ^ ilog2 b := by
    have : (b : ℚ) < (2 : ℚ) ^ (ilog2 b + 1) := by exact_mod_cast hb2
    rw [pow_succ] at this; linarith
  have hPA : (0 : ℚ) < (2 : ℚ) ^ ilog2 a := by positivity
  have hPB : (0 : ℚ) < (2 : ℚ) ^ ilog2 b := by positivity
  have hB0 : (0 : ℚ) < (b : ℚ) := lt_of_lt_of_le hPB hB1
  have hz : (2 : ℚ) ^ ((ilog2 a : ℤ) - (ilog2 b : ℤ)) = (2 : ℚ) ^ ilog2 a / (2 : ℚ) ^ ilog2 b := by
    rw [zpow_sub₀ (by norm_num), zpow_natCast, zpow_natCast]
  by_cases hc : b * 2 ^ ilog2 a ≤ a * 2 ^ ilog2 b
  · rw [if_pos hc]
    have hC : (b : ℚ) * (2 : ℚ) ^ ilog2 a ≤ (a : ℚ) * (2 : ℚ) ^ ilog2 b := by exact_mod_cast hc
    rw [zpow_add₀ (by norm_num), zpow_one, hz]
    constructor
    · rw [div_le_div_iff₀ hPB hB0]; linarith
    · rw [div_mul_eq_mul_div, div_lt_div_iff₀ hB0 hPB]
      nlinarith
  · rw [if_neg hc]
    have hC : (a : ℚ) * (2 : ℚ) ^ ilog2 b < (b : ℚ) * (2 : ℚ) ^ ilog2 a := by
      exact_mod_cast (not_le.mp hc)
    rw [sub_add_cancel, zpow_sub₀ (by norm_num), zpow_one, hz]
    constructor
    · rw [div_div, div_le_div_iff₀ (by positivity) hB0]
      nlinarith
    · rw [div_lt_div_iff₀ hB0 hPB]; linarith

theorem binade_spec (q : ℚ) (hq : q ≠ 0) :
    (2 : ℚ) ^ binade q ≤ |q| ∧ |q| < (2 : ℚ) ^ (binade q + 1) := by
  have ha0 : q.num.natAbs ≠ 0 := by
    simpa [Int.natAbs_eq_zero] using hq
  rw [abs_eq_natAbs_div_den]
  exact binade_core _ _ ha0 q.den_nz

theorem roundEven_ge (x : ℚ) : x - 1 / 2 ≤ (roundEven x : ℚ) := by
  have h1 := Int.floor_le x
  have h2 := Int.lt_floor_add_one x
  unfold roundEven
  split_ifs <;> push_cast <;> linarith

theorem roundEven_le (x : ℚ) : (roundEven x : ℚ) ≤ x + 1 / 2 := by
  have h1 := Int.floor_le x
  have h2 := Int.lt_floor_add_one x
  unfold roundEven
  split_ifs <;> push_cast <;> linarith

theorem floor_le_roundEven (x : ℚ) : ⌊x⌋ ≤ roundEven x := by
  unfold roundEven
  split_ifs <;> omega

theorem roundEven_le_floor_succ (x : ℚ) : roundEven x ≤ ⌊x⌋ + 1 := by
  unfold roundEven
  split_ifs <;> omega

theorem roundEven_intCast (n : ℤ) : roundEven (n : ℚ) = n := by
  unfold roundEven
  simp

theorem roundEven_mono {x y : ℚ} (h : x ≤ y) : roundEven x ≤ roundEven y := by
  have hf : ⌊x⌋ ≤ ⌊y⌋ := Int.floor_mono h
  rcases lt_or_eq_of_le hf with hlt | heq
  · calc roundEven x ≤ ⌊x⌋ + 1 := roundEven_le_floor_succ x
      _ ≤ ⌊y⌋ := hlt
      _ ≤ roundEven y := floor_le_roundEven y
  · unfold roundEven
    rw [heq]
    have hxy : x - (⌊y⌋ : ℚ) ≤ y - (⌊y⌋ : ℚ) := by linarith
    split_ifs <;> first | omega | (exfalso; linarith)


theorem ulp_pos (q : ℚ) : 0 < ulp q := by
  unfold ulp
  positivity

theorem ulp_eq (q : ℚ) : ulp q * 2 ^ 52 = (2 : ℚ) ^ binade q := by
  unfold ulp
  rw [zpow_sub₀ (by norm_num)]
  have : (2 : ℚ) ^ (52 : ℤ) = 2 ^ 52 := by norm_num
  rw [this]
  field_simp

theorem ulp_bounds (q : ℚ) (hq : 0 < q) : ulp q * 2 ^ 52 ≤ q ∧ q < ulp q * 2 ^ 53 := by
  obtain ⟨h1, h2⟩ := binade_spec q (ne_of_gt hq)
  rw [abs_of_pos hq] at h1 h2
  rw [zpow_add₀ (by norm_num), zpow_one, ← ulp_eq] at h2
  rw [← ulp_eq] at h1
  constructor
  · exact h1
  · linarith

theorem f64_zero : f64 0 = 0 := by simp [f64]

theorem f64_of_ne_zero (q : ℚ) (hq : q ≠ 0) : f64 q = (roundEven (q / ulp q) : ℚ) * ulp q := by
  simp [f64, hq]

theorem f64_nonneg {q : ℚ} (hq : 0 ≤ q) : 0 ≤ f64 q := by
  rcases eq_or_lt_of_le hq with h | h
  · rw [← h, f64_zero]
  · rw [f64_of_ne_zero q (ne_of_gt h)]
    have hu := ulp_pos q
    have h0 : roundEven 0 ≤ roundEven (q / ulp q) := roundEven_mono (by positivity)
    have h1 : (0 : ℤ) ≤ roundEven (q / ulp q) := by
      have h2 : roundEven (0 : ℚ) = 0 := by simpa using roundEven_intCast 0
      rwa [h2] at h0
    have h3 : (0 : ℚ) ≤ (roundEven (q / ulp q) : ℚ) := by exact_mod_cast h1
    positivity

/-- A binary64 operation loses at most the relative error `2 ^ (-53)`: upper side. -/
theorem f64_le {q : ℚ} (hq : 0 ≤ q) : f64 q ≤ q * (1 + 1 / 2 ^ 53) := by
  rcases eq_or_lt_of_le hq with h | h
  · rw [← h, f64_zero]; norm_num
  · rw [f64_of_ne_zero q (ne_of_gt h)]
    have hu := ulp_pos q
    obtain ⟨hb, _⟩ := ulp_bounds q h
    have h1 := roundEven_le (q / ulp q)
    have h2 : (roundEven (q / ulp q) : ℚ) * ulp q ≤ (q / ulp q + 1 / 2) * ulp q :=
      mul_le_mul_of_nonneg_right h1 (le_of_lt hu)
    have h3 : (q / ulp q + 1 / 2) * ulp q = q + ulp q / 2 := by
      field_simp
      ring
    rw [h3] at h2
    have h4 : q * (1 + 1 / 2 ^ 53) = q + q / 2 ^ 53 := by ring
    rw [h4]
    have h5 : ulp q / 2 ≤ q / 2 ^ 53 := by
      rw [div_le_div_iff₀ (by norm_num) (by positivity)]
      have : (2 : ℚ) ^ 53 = 2 ^ 52 * 2 := by norm_num
      rw [this]
      nlinarith
    linarith

/-- A binary64 operation loses at most the relative error `2 ^ (-53)`: lower side. -/
theorem le_f64 {q : ℚ} (hq : 0 ≤ q) : q * (1 - 1 / 2 ^ 53) ≤ f64 q := by
  rcases eq_or_lt_of_le hq with h | h
  · rw [← h, f64_zero]; norm_num
  · rw [f64_of_ne_zero q (ne_of_gt h)]
    have hu := ulp_pos q
    obtain ⟨hb, _⟩ := ulp_bounds q h
    have h1 := roundEven_ge (q / ulp q)
    have h2 : (q / ulp q - 1 / 2) * ulp q ≤ (roundEven (q / ulp q) : ℚ) * ulp q :=
      mul_le_mul_of_nonneg_right h1 (le_of_lt hu)
    have h3 : (q / ulp q - 1 / 2) * ulp q = q - ulp q / 2 := by
      field_simp
      ring
    rw [h3] at h2
    have h4 : q * (1 - 1 / 2 ^ 53) = q - q / 2 ^ 53 := by ring
    rw [h4]
    have h5 : ulp q / 2 ≤ q / 2 ^ 53 := by
      rw [div_le_div_iff₀ (by norm_num) (by positivity)]
      have : (2 : ℚ) ^ 53 = 2 ^ 52 * 2 := by norm_num
      rw [this]
      nlinarith
    linarith

theorem binade_mono {x y : ℚ} (hx : 0 < x) (hxy : x ≤ y) : binade x ≤ binade y := by
  obtain ⟨h1, _⟩ := binade_spec x (ne_of_gt hx)
  obtain ⟨_, h2⟩ := binade_spec y (ne_of_gt (lt_of_lt_of_le hx hxy))
  rw [abs_of_pos hx] at h1
  rw [abs_of_pos (lt_of_lt_of_le hx hxy)] at h2
  have h3 : (2 : ℚ) ^ binade x < (2 : ℚ) ^ (binade y + 1) := by linarith
  have h4 := (zpow_lt_zpow_iff_right₀ (by norm_num : (1 : ℚ) < 2)).mp h3
  omega

/-- Rounding to binary64 is monotone. -/
theorem f64_mono {x y : ℚ} (hx : 0 ≤ x) (hxy : x ≤ y) : f64 x ≤ f64 y := by
  rcases eq_or_lt_of_le hx with h | h
  · rw [← h, f64_zero]; exact f64_nonneg (le_trans hx hxy)
  · have hy : 0 < y := lt_of_lt_of_le h hxy
    rw [f64_of_ne_zero x (ne_of_gt h), f64_of_ne_zero y (ne_of_gt hy)]
    have hux := ulp_pos x
    have huy := ulp_pos y
    rcases lt_or_eq_of_le (binade_mono h hxy) with hlt | heq
    · -- different binades: a power of two lies between the two roundings
      obtain ⟨_, hx2⟩ := ulp_bounds x h
      obtain ⟨hy1, _⟩ := ulp_bounds y hy
      have h1 : roundEven (x / ulp x) ≤ roundEven (((2 ^ 53 : ℤ) : ℚ)) := by
        apply roundEven_mono
        rw [div_le_iff₀ hux]
        push_cast
        linarith
      rw [roundEven_intCast] at h1
      have h2 : roundEven (((2 ^ 52 : ℤ) : ℚ)) ≤ roundEven (y / ulp y) := by
        apply roundEven_mono
        rw [le_div_iff₀ huy]
        push_cast
        linarith
      rw [roundEven_intCast] at h2
      have h1' : (roundEven (x / ulp x) : ℚ) ≤ 2 ^ 53 := by exact_mod_cast h1
      have h2' : (2 : ℚ) ^ 52 ≤ (roundEven (y / ulp y) : ℚ) := by exact_mod_cast h2
      have h3 : (2 : ℚ) ^ (binade x + 1) ≤ (2 : ℚ) ^ binade y :=
        zpow_le_zpow_right₀ (by norm_num) hlt
      rw [zpow_add₀ (by norm_num), zpow_one, ← ulp_eq, ← ulp_eq] at h3
      calc (roundEven (x / ulp x) : ℚ) * ulp x ≤ 2 ^ 53 * ulp x :=
            mul_le_mul_of_nonneg_right h1' (le_of_lt hux)
        _ ≤ 2 ^ 52 * ulp y := by linarith
        _ ≤ (roundEven (y / ulp y) : ℚ) * ulp y :=
            mul_le_mul_of_nonneg_right h2' (le_of_lt huy)
    · have hu : ulp x = ulp y := by unfold ulp; rw [heq]
      rw [hu]
      have h1 : roundEven (x / ulp y) ≤ roundEven (y / ulp y) :=
        roundEven_mono (div_le_div_of_nonneg_right hxy (le_of_lt huy))
      have h1' : (roundEven (x / ulp y) : ℚ) ≤ (roundEven (y / ulp y) : ℚ) := by exact_mod_cast h1
      exact mul_le_mul_of_nonneg_right h1' (le_of_lt huy)


/-! ## Weights: auxiliary facts -/

theorem f64_one : f64 1 = 1 := by decide!

theorem f64_hundred : f64 100 = 100 := by decide!

theorem f64_tenThousand : f64 10000 = 10000 := by decide!

theorem tmp_at_200 : f64 (f64 ((200 : ℤ) : ℚ) / 10000) = threshold := by decide!

theorem tmp_at_201 : threshold < f64 (f64 ((201 : ℤ) : ℚ) / 10000) := by decide!

theorem pct_at_200 : f64 (f64 (f64 ((200 : ℤ) : ℚ) / 10000) * 100) = 2 := by decide!

theorem pct_at_201 : 2 < f64 (f64 (f64 ((201 : ℤ) : ℚ) / 10000) * 100) := by decide!

theorem goInt_of_nonneg {x : ℚ} (hx : 0 ≤ x) : goInt x = ⌊x⌋ := by
  simp [goInt, hx]

theorem rawWeight_nonneg (w T : Nat) : 0 ≤ rawWeight w T := by
  unfold rawWeight
  apply f64_nonneg
  exact div_nonneg (f64_nonneg (Nat.cast_nonneg w)) (f64_nonneg (Nat.cast_nonneg T))

theorem truncUnits_nonneg (w T : Nat) : 0 ≤ truncUnits w T := by
  unfold truncUnits
  have h : 0 ≤ f64 (rawWeight w T * 10000) :=
    f64_nonneg (mul_nonneg (rawWeight_nonneg w T) (by norm_num))
  rw [goInt_of_nonneg h]
  exact Int.floor_nonneg.mpr h

theorem tmp_mono {m n : ℤ} (hm : 0 ≤ m) (hmn : m ≤ n) :
    f64 (f64 (m : ℚ) / 10000) ≤ f64 (f64 (n : ℚ) / 10000) := by
  have hm' : (0 : ℚ) ≤ (m : ℚ) := by exact_mod_cast hm
  have hmn' : (m : ℚ) ≤ (n : ℚ) := by exact_mod_cast hmn
  apply f64_mono (div_nonneg (f64_nonneg hm') (by norm_num))
  exact div_le_div_of_nonneg_right (f64_mono hm' hmn') (by norm_num)

theorem pct_mono {m n : ℤ} (hm : 0 ≤ m) (hmn : m ≤ n) :
    f64 (f64 (f64 (m : ℚ) / 10000) * 100) ≤ f64 (f64 (f64 (n : ℚ) / 10000) * 100) := by
  have hm' : (0 : ℚ) ≤ (m : ℚ) := by exact_mod_cast hm
  have h0 : 0 ≤ f64 (f64 (m : ℚ) / 10000) :=
    f64_nonneg (div_nonneg (f64_nonneg hm') (by norm_num))
  apply f64_mono (mul_nonneg h0 (by norm_num))
  exact mul_le_mul_of_nonneg_right (tmp_mono hm hmn) (by norm_num)

/-- The test of line 77 in terms of the truncated ten-thousandths. -/
theorem keep_iff (w T : Nat) : threshold < tmpWeight w T ↔ 201 ≤ truncUnits w T := by
  unfold tmpWeight
  constructor
  · intro h
    by_contra hc
    have h1 : truncUnits w T ≤ 200 := by omega
    have h2 := tmp_mono (truncUnits_nonneg w T) h1
    rw [tmp_at_200] at h2
    exact absurd h (not_lt.mpr h2)
  · intro h
    exact lt_of_lt_of_le tmp_at_201 (tmp_mono (by norm_num) h)

/-- The reported percentage exceeds 2 exactly when line 77 keeps the language. -/
theorem pct_gt_iff (w T : Nat) : 2 < percentage w T ↔ 201 ≤ truncUnits w T := by
  unfold percentage tmpWeight
  constructor
  · intro h
    by_contra hc
    have h1 : truncUnits w T ≤ 200 := by omega
    have h2 := pct_mono (truncUnits_nonneg w T) h1
    rw [pct_at_200] at h2
    exact absurd h (not_lt.mpr h2)
  · intro h
    exact lt_of_lt_of_le pct_at_201 (pct_mono (by norm_num) h)

theorem f64_natCast_pos {n : Nat} (hn : 0 < n) : 0 < f64 (n : ℚ) := by
  have h1 : (1 : ℚ) ≤ (n : ℚ) := by exact_mod_cast hn
  have h2 := f64_mono (by norm_num) h1
  rw [f64_one] at h2
  linarith

theorem f64_le_of_le {x c : ℚ} (hx : 0 ≤ x) (hc : f64 c = c) (h : x ≤ c) : f64 x ≤ c := by
  have := f64_mono hx h
  rwa [hc] at this

/-- A language whose accumulated weight does not exceed the denominator is
reported with at most 100. -/
theorem percentage_le_hundred {w T : Nat} (h : w ≤ T) : percentage w T ≤ 100 := by
  have hw : (0 : ℚ) ≤ (w : ℚ) := Nat.cast_nonneg w
  have hT : (0 : ℚ) ≤ (T : ℚ) := Nat.cast_nonneg T
  have hwT : (w : ℚ) ≤ (T : ℚ) := by exact_mod_cast h
  have h1 : f64 (w : ℚ) / f64 (T : ℚ) ≤ 1 :=
    div_le_one_of_le₀ (f64_mono hw hwT) (f64_nonneg hT)
  have h2 : rawWeight w T ≤ 1 :=
    f64_le_of_le (div_nonneg (f64_nonneg hw) (f64_nonneg hT)) f64_one h1
  have h3 : f64 (rawWeight w T * 10000) ≤ 10000 :=
    f64_le_of_le (mul_nonneg (rawWeight_nonneg w T) (by norm_num)) f64_tenThousand (by linarith)
  have h4 : truncUnits w T ≤ 10000 := by
    unfold truncUnits
    rw [goInt_of_nonneg (f64_nonneg (mul_nonneg (rawWeight_nonneg w T) (by norm_num)))]
    have := Int.floor_le (f64 (rawWeight w T * 10000))
    have h5 : ((⌊f64 (rawWeight w T * 10000)⌋ : ℤ) : ℚ) ≤ ((10000 : ℤ) : ℚ) := by
      push_cast; linarith
    exact_mod_cast h5
  have h0 := truncUnits_nonneg w T
  have h0' : (0 : ℚ) ≤ (truncUnits w T : ℚ) := by exact_mod_cast h0
  have h4' : (truncUnits w T : ℚ) ≤ 10000 := by exact_mod_cast h4
  have h6 : f64 (truncUnits w T : ℚ) ≤ 10000 := f64_le_of_le h0' f64_tenThousand h4'
  have h7 : tmpWeight w T ≤ 1 := by
    unfold tmpWeight
    apply f64_le_of_le (div_nonneg (f64_nonneg h0') (by norm_num)) f64_one
    rw [div_le_one (by norm_num)]
    exact h6
  have h8 : 0 ≤ tmpWeight w T := by
    unfold tmpWeight
    exact f64_nonneg (div_nonneg (f64_nonneg h0') (by norm_num))
  unfold percentage
  exact f64_le_of_le (mul_nonneg h8 (by norm_num)) f64_hundred (by linarith)


/-- Accumulated rounding error of lines 75-76 before truncation: the truncated
ten-thousandths exceed the exact `10000 * w / T` by at most four roundings. -/
theorem truncUnits_le (w T : Nat) (hT : 0 < T) :
    (truncUnits w T : ℚ) ≤
      10000 * ((w : ℚ) / (T : ℚ)) * ((1 + 1 / 2 ^ 53) ^ 3 / (1 - 1 / 2 ^ 53)) := by
  have hw : (0 : ℚ) ≤ (w : ℚ) := Nat.cast_nonneg w
  have hTq : (0 : ℚ) < (T : ℚ) := by exact_mod_cast hT
  have ha := f64_le hw
  have hb := le_f64 (le_of_lt hTq)
  have hb0 : (0 : ℚ) < (T : ℚ) * (1 - 1 / 2 ^ 53) := by
    apply mul_pos hTq; norm_num
  have hq : f64 (w : ℚ) / f64 (T : ℚ) ≤
      (w : ℚ) * (1 + 1 / 2 ^ 53) / ((T : ℚ) * (1 - 1 / 2 ^ 53)) :=
    div_le_div₀ (mul_nonneg hw (by norm_num)) ha hb0 hb
  have hq0 : 0 ≤ f64 (w : ℚ) / f64 (T : ℚ) :=
    div_nonneg (f64_nonneg hw) (f64_nonneg (le_of_lt hTq))
  have hr : rawWeight w T ≤ f64 (w : ℚ) / f64 (T : ℚ) * (1 + 1 / 2 ^ 53) := f64_le hq0
  have hr0 := rawWeight_nonneg w T
  have hy0 : 0 ≤ rawWeight w T * 10000 := mul_nonneg hr0 (by norm_num)
  have hy := f64_le hy0
  have hn : (truncUnits w T : ℚ) ≤ f64 (rawWeight w T * 10000) := by
    unfold truncUnits
    rw [goInt_of_nonneg (f64_nonneg hy0)]
    exact Int.floor_le _
  have e1 : (0 : ℚ) < 1 + 1 / 2 ^ 53 := by norm_num
  have h1 : rawWeight w T ≤
      (w : ℚ) * (1 + 1 / 2 ^ 53) / ((T : ℚ) * (1 - 1 / 2 ^ 53)) * (1 + 1 / 2 ^ 53) :=
    le_trans hr (mul_le_mul_of_nonneg_right hq (le_of_lt e1))
  have h2 : rawWeight w T * 10000 * (1 + 1 / 2 ^ 53) ≤
      (w : ℚ) * (1 + 1 / 2 ^ 53) / ((T : ℚ) * (1 - 1 / 2 ^ 53)) * (1 + 1 / 2 ^ 53) * 10000 *
        (1 + 1 / 2 ^ 53) :=
    mul_le_mul_of_nonneg_right (mul_le_mul_of_nonneg_right h1 (by norm_num)) (le_of_lt e1)
  have h3 : (w : ℚ) * (1 + 1 / 2 ^ 53) / ((T : ℚ) * (1 - 1 / 2 ^ 53)) * (1 + 1 / 2 ^ 53) * 10000 *
        (1 + 1 / 2 ^ 53) =
      10000 * ((w : ℚ) / (T : ℚ)) * ((1 + 1 / 2 ^ 53) ^ 3 / (1 - 1 / 2 ^ 53)) := by
    have hT0 : (T : ℚ) ≠ 0 := ne_of_gt hTq
    field_simp
    ring
  linarith

/-- Rounding error of lines 76 and 81 after truncation: upper side. -/
theorem percentage_le (w T : Nat) :
    percentage w T ≤ (truncUnits w T : ℚ) / 100 * (1 + 1 / 2 ^ 53) ^ 3 := by
  have h0 : (0 : ℚ) ≤ (truncUnits w T : ℚ) := by exact_mod_cast truncUnits_nonneg w T
  have e1 : (0 : ℚ) < 1 + 1 / 2 ^ 53 := by norm_num
  have h1 := f64_le h0
  have h2 : 0 ≤ f64 (truncUnits w T : ℚ) / 10000 := div_nonneg (f64_nonneg h0) (by norm_num)
  have h3 : tmpWeight w T ≤ f64 (truncUnits w T : ℚ) / 10000 * (1 + 1 / 2 ^ 53) := f64_le h2
  have h4 : 0 ≤ tmpWeight w T * 100 := mul_nonneg (f64_nonneg h2) (by norm_num)
  have h5 : percentage w T ≤ tmpWeight w T * 100 * (1 + 1 / 2 ^ 53) := f64_le h4
  have h6 : tmpWeight w T * 100 * (1 + 1 / 2 ^ 53) ≤
      (truncUnits w T : ℚ) * (1 + 1 / 2 ^ 53) / 10000 * (1 + 1 / 2 ^ 53) * 100 *
        (1 + 1 / 2 ^ 53) := by
    apply mul_le_mul_of_nonneg_right _ (le_of_lt e1)
    apply mul_le_mul_of_nonneg_right _ (by norm_num)
    apply le_trans h3
    apply mul_le_mul_of_nonneg_right _ (le_of_lt e1)
    exact div_le_div_of_nonneg_right h1 (by norm_num)
  have h7 : (truncUnits w T : ℚ) * (1 + 1 / 2 ^ 53) / 10000 * (1 + 1 / 2 ^ 53) * 100 *
        (1 + 1 / 2 ^ 53) = (truncUnits w T : ℚ) / 100 * (1 + 1 / 2 ^ 53) ^ 3 := by
    ring
  linarith

/-- Rounding error of lines 76 and 81 after truncation: lower side. -/
theorem le_percentage (w T : Nat) :
    (truncUnits w T : ℚ) / 100 * (1 - 1 / 2 ^ 53) ^ 3 ≤ percentage w T := by
  have h0 : (0 : ℚ) ≤ (truncUnits w T : ℚ) := by exact_mod_cast truncUnits_nonneg w T
  have e1 : (0 : ℚ) < 1 - 1 / 2 ^ 53 := by norm_num
  have h1 := le_f64 h0
  have h2 : 0 ≤ f64 (truncUnits w T : ℚ) / 10000 := div_nonneg (f64_nonneg h0) (by norm_num)
  have h3 : f64 (truncUnits w T : ℚ) / 10000 * (1 - 1 / 2 ^ 53) ≤ tmpWeight w T := le_f64 h2
  have h4 : 0 ≤ tmpWeight w T * 100 := mul_nonneg (f64_nonneg h2) (by norm_num)
  have h5 : tmpWeight w T * 100 * (1 - 1 / 2 ^ 53) ≤ percentage w T := le_f64 h4
  have h6 : (truncUnits w T : ℚ) * (1 - 1 / 2 ^ 53) / 10000 * (1 - 1 / 2 ^ 53) * 100 *
        (1 - 1 / 2 ^ 53) ≤ tmpWeight w T * 100 * (1 - 1 / 2 ^ 53) := by
    apply mul_le_mul_of_nonneg_right _ (le_of_lt e1)
    apply mul_le_mul_of_nonneg_right _ (by norm_num)
    refine le_trans ?_ h3
    apply mul_le_mul_of_nonneg_right _ (le_of_lt e1)
    exact div_le_div_of_nonneg_right h1 (by norm_num)
  have h7 : (truncUnits w T : ℚ) * (1 - 1 / 2 ^ 53) / 10000 * (1 - 1 / 2 ^ 53) * 100 *
        (1 - 1 / 2 ^ 53) = (truncUnits w T : ℚ) / 100 * (1 - 1 / 2 ^ 53) ^ 3 := by
    ring
  linarith

/-- Truncation never rounds up: for weights below `2 ^ 37` the truncated
ten-thousandths do not exceed the floor of the exact `10000 * w / T`. -/
theorem truncUnits_le_floor (w T : Nat) (hT : 0 < T) (hw : w < 2 ^ 37) :
    truncUnits w T ≤ ⌊(10000 * (w : ℚ)) / (T : ℚ)⌋ := by
  have hTq : (0 : ℚ) < (T : ℚ) := by exact_mod_cast hT
  have hwq : (w : ℚ) < 2 ^ 37 := by exact_mod_cast hw
  have hw0 : (0 : ℚ) ≤ (w : ℚ) := Nat.cast_nonneg w
  have hK := truncUnits_le w T hT
  by_contra hc
  have hc' : ⌊(10000 * (w : ℚ)) / (T : ℚ)⌋ + 1 ≤ truncUnits w T := by omega
  -- the next integer times `T` is an integer above `10000 * w`
  have h1 : (10000 * (w : ℚ)) / (T : ℚ) < ((⌊(10000 * (w : ℚ)) / (T : ℚ)⌋ + 1 : ℤ) : ℚ) := by
    push_cast
    exact Int.lt_floor_add_one _
  rw [div_lt_iff₀ hTq] at h1
  have h2 : ((10000 * w : ℕ) : ℤ) < (⌊(10000 * (w : ℚ)) / (T : ℚ)⌋ + 1) * (T : ℤ) := by
    have : (((10000 * w : ℕ) : ℤ) : ℚ) <
        (((⌊(10000 * (w : ℚ)) / (T : ℚ)⌋ + 1) * (T : ℤ) : ℤ) : ℚ) := by
      push_cast
      push_cast at h1
      linarith
    exact_mod_cast this
  have h3 : ((10000 * w : ℕ) : ℤ) + 1 ≤ (⌊(10000 * (w : ℚ)) / (T : ℚ)⌋ + 1) * (T : ℤ) := by
    omega
  have h4 : (10000 * (w : ℚ)) + 1 ≤
      ((⌊(10000 * (w : ℚ)) / (T : ℚ)⌋ + 1 : ℤ) : ℚ) * (T : ℚ) := by
    have : ((((10000 * w : ℕ) : ℤ) + 1 : ℤ) : ℚ) ≤
        (((⌊(10000 * (w : ℚ)) / (T : ℚ)⌋ + 1) * (T : ℤ) : ℤ) : ℚ) := by
      exact_mod_cast h3
    push_cast at this
    push_cast
    linarith
  have h5 : ((⌊(10000 * (w : ℚ)) / (T : ℚ)⌋ + 1 : ℤ) : ℚ) ≤ (truncUnits w T : ℚ) := by
    exact_mod_cast hc'
  have h6 : (10000 * (w : ℚ)) + 1 ≤ (truncUnits w T : ℚ) * (T : ℚ) :=
    le_trans h4 (mul_le_mul_of_nonneg_right h5 (le_of_lt hTq))
  have h7 : (truncUnits w T : ℚ) * (T : ℚ) ≤
      10000 * (w : ℚ) * ((1 + 1 / 2 ^ 53) ^ 3 / (1 - 1 / 2 ^ 53)) := by
    have := mul_le_mul_of_nonneg_right hK (le_of_lt hTq)
    have e : 10000 * ((w : ℚ) / (T : ℚ)) * ((1 + 1 / 2 ^ 53) ^ 3 / (1 - 1 / 2 ^ 53)) * (T : ℚ) =
        10000 * (w : ℚ) * ((1 + 1 / 2 ^ 53) ^ 3 / (1 - 1 / 2 ^ 53)) := by
      have hT0 : (T : ℚ) ≠ 0 := ne_of_gt hTq
      field_simp
      ring
    linarith
  have h8 : 10000 * (w : ℚ) * ((1 + 1 / 2 ^ 53) ^ 3 / (1 - 1 / 2 ^ 53)) <
      10000 * (w : ℚ) + 1 := by
    have e : ((1 : ℚ) + 1 / 2 ^ 53) ^ 3 / (1 - 1 / 2 ^ 53) = 1 +
        (((1 : ℚ) + 1 / 2 ^ 53) ^ 3 / (1 - 1 / 2 ^ 53) - 1) := by ring
    rw [e]
    have e2 : (0 : ℚ) ≤ ((1 : ℚ) + 1 / 2 ^ 53) ^ 3 / (1 - 1 / 2 ^ 53) - 1 := by norm_num
    have e3 : (10000 * 2 ^ 37 : ℚ) * (((1 : ℚ) + 1 / 2 ^ 53) ^ 3 / (1 - 1 / 2 ^ 53) - 1) < 1 := by
      norm_num
    have e4 : 10000 * (w : ℚ) * (((1 : ℚ) + 1 / 2 ^ 53) ^ 3 / (1 - 1 / 2 ^ 53) - 1) ≤
        (10000 * 2 ^ 37 : ℚ) * (((1 : ℚ) + 1 / 2 ^ 53) ^ 3 / (1 - 1 / 2 ^ 53) - 1) :=
      mul_le_mul_of_nonneg_right (by linarith) e2
    linarith
  linarith


/-! ## Maps: auxiliary facts -/

theorem mapLookup_mapSet_self {β : Type} (m : List (String × β)) (k : String) (v : β) :
    mapLookup (mapSet m k v) k = some v := by
  induction m with
  | nil => simp [mapSet, mapLookup]
  | cons p rest ih =>
    obtain ⟨k', v'⟩ := p
    by_cases h : k' = k
    · simp [mapSet, mapLookup, h]
    · simp [mapSet, mapLookup, h, ih]

theorem mapLookup_mapSet_ne {β : Type} (m : List (String × β)) (k k0 : String) (v : β)
    (hne : k0 ≠ k) : mapLookup (mapSet m k v) k0 = mapLookup m k0 := by
  induction m with
  | nil => simp [mapSet, mapLookup, Ne.symm hne]
  | cons p rest ih =>
    obtain ⟨k', v'⟩ := p
    by_cases h : k' = k
    · subst h
      simp [mapSet, mapLookup, Ne.symm hne]
    · by_cases h2 : k' = k0
      · subst h2
        simp [mapSet, mapLookup, h]
      · simp [mapSet, mapLookup, h, h2, ih]

theorem mapLookup_eq_none_iff {β : Type} (m : List (String × β)) (k : String) :
    mapLookup m k = none ↔ k ∉ keys m := by
  induction m with
  | nil => simp [mapLookup, keys]
  | cons p rest ih =>
    obtain ⟨k', v'⟩ := p
    by_cases h : k' = k
    · simp [mapLookup, keys, h]
    · have h' : ¬ k = k' := fun e => h e.symm
      simp only [keys] at ih
      simp [mapLookup, keys, h, h', ih]

theorem keys_mapSet_of_mem {β : Type} (m : List (String × β)) (k : String) (v : β)
    (h : k ∈ keys m) : keys (mapSet m k v) = keys m := by
  induction m with
  | nil => simp [keys] at h
  | cons p rest ih =>
    obtain ⟨k', v'⟩ := p
    by_cases hk : k' = k
    · simp [mapSet, keys, hk]
    · have hmem : k ∈ keys rest := by
        simp only [keys, List.map_cons, List.mem_cons] at h
        rcases h with h | h
        · exact absurd h.symm hk
        · exact h
      have := ih hmem
      simp only [keys] at this
      simp [mapSet, keys, hk, this]

theorem keys_mapSet_of_not_mem {β : Type} (m : List (String × β)) (k : String) (v : β)
    (h : k ∉ keys m) : keys (mapSet m k v) = keys m ++ [k] := by
  induction m with
  | nil => simp [mapSet, keys]
  | cons p rest ih =>
    obtain ⟨k', v'⟩ := p
    simp only [keys, List.map_cons, List.mem_cons, not_or] at h
    have hk : ¬ k' = k := fun e => h.1 e.symm
    have := ih h.2
    simp only [keys] at this
    simp [mapSet, keys, hk, this]

theorem mem_keys_mapSet {β : Type} (m : List (String × β)) (k k0 : String) (v : β) :
    k0 ∈ keys (mapSet m k v) ↔ k0 ∈ keys m ∨ k0 = k := by
  by_cases h : k ∈ keys m
  · rw [keys_mapSet_of_mem m k v h]
    constructor
    · intro h1; exact Or.inl h1
    · rintro (h1 | h1)
      · exact h1
      · rw [h1]; exact h
  · rw [keys_mapSet_of_not_mem m k v h]
    simp

theorem nodup_keys_mapSet {β : Type} (m : List (String × β)) (k : String) (v : β)
    (hm : (keys m).Nodup) : (keys (mapSet m k v)).Nodup := by
  by_cases h : k ∈ keys m
  · rw [keys_mapSet_of_mem m k v h]; exact hm
  · rw [keys_mapSet_of_not_mem m k v h]
    rw [List.nodup_append]
    refine ⟨hm, List.nodup_singleton k, ?_⟩
    intro a ha hb
    simp at hb
    subst hb
    exact h ha

/-- For a map with distinct keys, an entry is what lookup finds at its key. -/
theorem mapLookup_of_mem {β : Type} (m : List (String × β)) (hm : (keys m).Nodup)
    (k : String) (v : β) (h : (k, v) ∈ m) : mapLookup m k = some v := by
  induction m with
  | nil => simp at h
  | cons p rest ih =>
    obtain ⟨k', v'⟩ := p
    simp only [keys, List.map_cons, List.nodup_cons] at hm
    rw [List.mem_cons] at h
    rcases h with h | h
    · injection h with h1 h2
      subst h1; subst h2
      simp [mapLookup]
    · have hne : ¬ k' = k := by
        intro e
        subst e
        exact hm.1 (List.mem_map_of_mem Prod.fst h)
      simp only [mapLookup, hne, if_false]
      exact ih hm.2 h

theorem mem_of_mapLookup {β : Type} (m : List (String × β)) (k : String) (v : β)
    (h : mapLookup m k = some v) : (k, v) ∈ m := by
  induction m with
  | nil => simp [mapLookup] at h
  | cons p rest ih =>
    obtain ⟨k', v'⟩ := p
    by_cases hk : k' = k
    · simp only [mapLookup, hk, if_true, Option.some.injEq] at h
      subst hk; subst h
      exact List.mem_cons_self _ _
    · simp only [mapLookup, hk, if_false] at h
      exact List.mem_cons_of_mem _ (ih h)

theorem weightOf_mapSet_self (d : List (String × languageItem)) (k : String) (v : languageItem) :
    weightOf (mapSet d k v) k = v.weight := by
  simp [weightOf, mapLookup_mapSet_self]

theorem weightOf_mapSet_ne (d : List (String × languageItem)) (k k0 : String)
    (v : languageItem) (hne : k0 ≠ k) : weightOf (mapSet d k v) k0 = weightOf d k0 := by
  simp [weightOf, mapLookup_mapSet_ne d k k0 v hne]

theorem sumWeights_mapSet (d : List (String × languageItem)) (k : String)
    (it : LanguageItem) (c : Nat) :
    sumWeights (mapSet d k ⟨it, weightOf d k + c⟩) = sumWeights d + c := by
  induction d with
  | nil => simp [mapSet, sumWeights, weightOf, mapLookup]
  | cons p rest ih =>
    obtain ⟨k', v'⟩ := p
    by_cases h : k' = k
    · simp [mapSet, sumWeights, weightOf, mapLookup, h]
      omega
    · have e : weightOf ((k', v') :: rest) k = weightOf rest k := by
        simp [weightOf, mapLookup, h]
      rw [e]
      simp only [sumWeights] at ih
      simp only [mapSet, h, if_false, sumWeights, List.map_cons, List.sum_cons, ih]
      omega


/-! ## The extension loop: auxiliary facts -/

theorem candidateStep_eq (languagesFile : LanguageFile) (count : Nat)
    (st : List (String × languageItem) × Bool) (language : LanguageItem) :
    candidateStep languagesFile count st language =
      match resolve languagesFile language with
      | none => st
      | some it => (mapSet st.1 it.Name ⟨it, weightOf st.1 it.Name + count⟩, true) := by
  unfold candidateStep resolve
  by_cases h : language.Kind = "programming"
  · simp only [h, if_true]
  · simp only [h, if_false]

/-- Names the candidates of a list contribute to. -/
theorem candidates_fold (languagesFile : LanguageFile) (count : Nat) (langs : List LanguageItem) :
    ∀ st : List (String × languageItem) × Bool,
      (∀ n, weightOf (langs.foldl (candidateStep languagesFile count) st).1 n =
        weightOf st.1 n +
          count * ((langs.filterMap (resolve languagesFile)).map LanguageItem.Name).count n) ∧
      ((langs.foldl (candidateStep languagesFile count) st).2 =
        (st.2 || !((langs.filterMap (resolve languagesFile)).map LanguageItem.Name).isEmpty)) ∧
      ((keys st.1).Nodup → (keys (langs.foldl (candidateStep languagesFile count) st).1).Nodup) ∧
      (∀ n, n ∈ keys (langs.foldl (candidateStep languagesFile count) st).1 ↔
        n ∈ keys st.1 ∨ n ∈ (langs.filterMap (resolve languagesFile)).map LanguageItem.Name) ∧
      (sumWeights (langs.foldl (candidateStep languagesFile count) st).1 =
        sumWeights st.1 +
          count * ((langs.filterMap (resolve languagesFile)).map LanguageItem.Name).length) := by
  induction langs with
  | nil => intro st; simp
  | cons l rest ih =>
    intro st
    rw [List.foldl_cons]
    obtain ⟨h1, h2, h3, h4, h5⟩ := ih (candidateStep languagesFile count st l)
    rw [candidateStep_eq] at h1 h2 h3 h4 h5 ⊢
    cases hr : resolve languagesFile l with
    | none =>
      simp only [hr] at h1 h2 h3 h4 h5 ⊢
      simp only [List.filterMap_cons, hr]
      exact ⟨h1, h2, h3, h4, h5⟩
    | some it =>
      simp only [hr] at h1 h2 h3 h4 h5 ⊢
      simp only [List.filterMap_cons, hr, List.map_cons]
      refine ⟨?_, ?_, ?_, ?_, ?_⟩
      · intro n
        rw [h1 n]
        by_cases hn : n = it.Name
        · subst hn
          rw [weightOf_mapSet_self, List.count_cons_self]
          ring
        · rw [weightOf_mapSet_ne _ _ _ _ hn, List.count_cons_of_ne hn]
      · rw [h2]; simp
      · intro hnd
        exact h3 (nodup_keys_mapSet _ _ _ hnd)
      · intro n
        rw [h4 n, mem_keys_mapSet, List.mem_cons]
        tauto
      · rw [h5, sumWeights_mapSet, List.length_cons]
        ring

/-- Effect of one round of the outer loop entered with the flag down. -/
theorem extensionStep_spec (languagesFile : LanguageFile) (exts : List (String × Nat))
    (st : LoopState) (e : String) (hf : st.extensionHasProgrammingLanguage = false) :
    (extensionStep languagesFile exts st e).extensionHasProgrammingLanguage = false ∧
    (∀ n, weightOf (extensionStep languagesFile exts st e).languagesDetected n =
      weightOf st.languagesDetected n +
        countOf exts e * (resolvedNames languagesFile e).count n) ∧
    ((extensionStep languagesFile exts st e).totalProgrammingOccurrences =
      st.totalProgrammingOccurrences +
        (if (resolvedNames languagesFile e).isEmpty then 0 else countOf exts e)) ∧
    ((keys st.languagesDetected).Nodup →
      (keys (extensionStep languagesFile exts st e).languagesDetected).Nodup) ∧
    (∀ n, n ∈ keys (extensionStep languagesFile exts st e).languagesDetected ↔
      n ∈ keys st.languagesDetected ∨ n ∈ resolvedNames languagesFile e) ∧
    (sumWeights (extensionStep languagesFile exts st e).languagesDetected =
      sumWeights st.languagesDetected +
        countOf exts e * (resolvedNames languagesFile e).length) := by
  unfold extensionStep
  by_cases h0 : (languagesFile.GetLanguagesByExtension e).length = 0
  · have hnil : languagesFile.GetLanguagesByExtension e = [] := List.length_eq_zero.mp h0
    simp [h0, hf, resolvedNames, hnil]
  · simp only [h0, if_false]
    obtain ⟨h1, h2, h3, h4, h5⟩ := candidates_fold languagesFile (countOf exts e)
      (languagesFile.GetLanguagesByExtension e)
      (st.languagesDetected, st.extensionHasProgrammingLanguage)
    rw [hf] at h1 h2 h3 h4 h5 ⊢
    simp only [Bool.false_or] at h2
    unfold resolvedNames
    by_cases hn : (((languagesFile.GetLanguagesByExtension e).filterMap
        (resolve languagesFile)).map LanguageItem.Name).isEmpty = true
    · rw [hn] at h2
      simp only [Bool.not_true] at h2
      rw [h2]
      simp only [Bool.false_eq_true, if_false, hn, if_true, Nat.add_zero]
      exact ⟨trivial, h1, trivial, h3, h4, h5⟩
    · have hn' : (((languagesFile.GetLanguagesByExtension e).filterMap
          (resolve languagesFile)).map LanguageItem.Name).isEmpty = false := by
        simpa using hn
      rw [hn'] at h2
      simp only [Bool.not_false] at h2
      rw [h2]
      simp only [if_true, hn', Bool.false_eq_true, if_false]
      exact ⟨trivial, h1, trivial, h3, h4, h5⟩


theorem get_cons_eraseIdx_perm {α : Type} : ∀ (l : List α) (i : Nat) (h : i < l.length),
    List.Perm (l.get ⟨i, h⟩ :: l.eraseIdx i) l := by
  intro l
  induction l with
  | nil => intro i h; simp at h
  | cons x xs ih =>
    intro i h
    cases i with
    | zero => simp
    | succ j =>
      have hj : j < xs.length := by simpa using h
      have h1 := ih j hj
      simp only [List.get_cons_succ, List.eraseIdx_cons_succ]
      exact (List.Perm.swap x (xs.get ⟨j, hj⟩) (xs.eraseIdx j)).trans (List.Perm.cons x h1)

/-- A visiting order visits every entry exactly once. -/
theorem rangeOrder_perm {α : Type} : ∀ (order : List Nat) (l : List α),
    List.Perm (rangeOrder order l) l := by
  intro order
  induction order with
  | nil => intro l; cases l <;> simp [rangeOrder]
  | cons c cs ih =>
    intro l
    cases l with
    | nil => simp [rangeOrder]
    | cons x xs =>
      simp only [rangeOrder]
      exact (List.Perm.cons _ (ih _)).trans (get_cons_eraseIdx_perm (x :: xs) _ _)

/-- Every visiting order of a map arises from some list of choices. -/
theorem rangeOrder_complete {α : Type} : ∀ (visited l : List α), List.Perm visited l →
    ∃ order, rangeOrder order l = visited := by
  intro visited
  induction visited with
  | nil =>
    intro l h
    have : l = [] := List.Perm.eq_nil h.symm
    subst this
    exact ⟨[], rfl⟩
  | cons a t ih =>
    intro l h
    have ha : a ∈ l := h.subset (List.mem_cons_self a t)
    obtain ⟨i, hi, hget⟩ := List.mem_iff_getElem.mp ha
    cases l with
    | nil => simp at ha
    | cons x xs =>
      have hlen : i < xs.length + 1 := by simpa using hi
      have hp : List.Perm (a :: (x :: xs).eraseIdx i) (x :: xs) := by
        have := get_cons_eraseIdx_perm (x :: xs) i hi
        rw [List.get_eq_getElem, hget] at this
        exact this
      have ht : List.Perm t ((x :: xs).eraseIdx i) :=
        List.Perm.cons_inv (h.trans hp.symm)
      obtain ⟨cs, hcs⟩ := ih _ ht
      refine ⟨i :: cs, ?_⟩
      simp only [rangeOrder, Nat.mod_eq_of_lt hlen, List.get_eq_getElem, hget, hcs]

theorem countOf_of_mem (exts : List (String × Nat)) (hnd : (keys exts).Nodup)
    (en : String × Nat) (h : en ∈ exts) : countOf exts en.1 = en.2 := by
  unfold countOf
  rw [mapLookup_of_mem exts hnd en.1 en.2 h]
  rfl

theorem sum_over_order (exts : List (String × Nat)) (hnd : (keys exts).Nodup)
    (order : List Nat) (F : String → Nat → Nat) :
    (((rangeOrder order exts).map Prod.fst).map (fun e => F e (countOf exts e))).sum =
      (exts.map (fun en => F en.1 en.2)).sum := by
  have hp := rangeOrder_perm order exts
  rw [List.map_map]
  have h1 : (rangeOrder order exts).map ((fun e => F e (countOf exts e)) ∘ Prod.fst) =
      (rangeOrder order exts).map (fun en => F en.1 en.2) := by
    apply List.map_congr_left
    intro en hen
    simp only [Function.comp]
    rw [countOf_of_mem exts hnd en (hp.subset hen)]
  rw [h1]
  exact (hp.map _).sum_eq

theorem loop_fold (languagesFile : LanguageFile) (exts : List (String × Nat))
    (es : List String) : ∀ st : LoopState, st.extensionHasProgrammingLanguage = false →
    (es.foldl (extensionStep languagesFile exts) st).extensionHasProgrammingLanguage = false ∧
    (∀ n, weightOf (es.foldl (extensionStep languagesFile exts) st).languagesDetected n =
      weightOf st.languagesDetected n +
        (es.map (fun e => countOf exts e * (resolvedNames languagesFile e).count n)).sum) ∧
    ((es.foldl (extensionStep languagesFile exts) st).totalProgrammingOccurrences =
      st.totalProgrammingOccurrences +
        (es.map (fun e =>
          if (resolvedNames languagesFile e).isEmpty then 0 else countOf exts e)).sum) ∧
    ((keys st.languagesDetected).Nodup →
      (keys (es.foldl (extensionStep languagesFile exts) st).languagesDetected).Nodup) ∧
    (∀ n, n ∈ keys (es.foldl (extensionStep languagesFile exts) st).languagesDetected ↔
      n ∈ keys st.languagesDetected ∨ ∃ e ∈ es, n ∈ resolvedNames languagesFile e) ∧
    (sumWeights (es.foldl (extensionStep languagesFile exts) st).languagesDetected =
      sumWeights st.languagesDetected +
        (es.map (fun e => countOf exts e * (resolvedNames languagesFile e).length)).sum) := by
  induction es with
  | nil => intro st hf; simp [hf]
  | cons e rest ih =>
    intro st hf
    rw [List.foldl_cons]
    obtain ⟨s1, s2, s3, s4, s5, s6⟩ := extensionStep_spec languagesFile exts st e hf
    obtain ⟨h1, h2, h3, h4, h5, h6⟩ := ih (extensionStep languagesFile exts st e) s1
    refine ⟨h1, ?_, ?_, ?_, ?_, ?_⟩
    · intro n
      rw [h2 n, s2 n, List.map_cons, List.sum_cons]
      ring
    · rw [h3, s3, List.map_cons, List.sum_cons]
      ring
    · intro hnd
      exact h4 (s4 hnd)
    · intro n
      rw [h5 n, s5 n]
      simp only [List.mem_cons, exists_eq_or_imp]
      tauto
    · rw [h6, s6, List.map_cons, List.sum_cons]
      ring

/-- Closed form of the state after the extension loop, for every visiting
order of a tally with distinct keys. -/
theorem extensionLoop_spec (languagesFile : LanguageFile) (exts : List (String × Nat))
    (hnd : (keys exts).Nodup) (order : List Nat) :
    (extensionLoop languagesFile exts order).extensionHasProgrammingLanguage = false ∧
    (∀ n, weightOf (extensionLoop languagesFile exts order).languagesDetected n =
      (exts.map (fun en => en.2 * (resolvedNames languagesFile en.1).count n)).sum) ∧
    ((extensionLoop languagesFile exts order).totalProgrammingOccurrences =
      (exts.map (fun en =>
        if (resolvedNames languagesFile en.1).isEmpty then 0 else en.2)).sum) ∧
    (keys (extensionLoop languagesFile exts order).languagesDetected).Nodup ∧
    (∀ n, n ∈ keys (extensionLoop languagesFile exts order).languagesDetected ↔
      ∃ en ∈ exts, n ∈ resolvedNames languagesFile en.1) ∧
    (sumWeights (extensionLoop languagesFile exts order).languagesDetected =
      (exts.map (fun en => en.2 * (resolvedNames languagesFile en.1).length)).sum) := by
  unfold extensionLoop
  obtain ⟨h1, h2, h3, h4, h5, h6⟩ := loop_fold languagesFile exts
    ((rangeOrder order exts).map Prod.fst) ⟨[], false, 0⟩ rfl
  have hp := rangeOrder_perm order exts
  refine ⟨h1, ?_, ?_, ?_, ?_, ?_⟩
  · intro n
    rw [h2 n]
    have := sum_over_order exts hnd order
      (fun e c => c * (resolvedNames languagesFile e).count n)
    simp only at this
    rw [this]
    simp [weightOf, mapLookup]
  · rw [h3]
    have := sum_over_order exts hnd order
      (fun e c => if (resolvedNames languagesFile e).isEmpty then 0 else c)
    simp only at this
    rw [this]
    simp
  · exact h4 (by simp [keys])
  · intro n
    rw [h5 n]
    simp only [keys, List.map_nil, List.not_mem_nil, false_or, List.mem_map]
    constructor
    · rintro ⟨e, ⟨en, hen, rfl⟩, hn⟩
      exact ⟨en, hp.subset hen, hn⟩
    · rintro ⟨en, hen, hn⟩
      exact ⟨en.1, ⟨en, hp.symm.subset hen, rfl⟩, hn⟩
  · rw [h6]
    have := sum_over_order exts hnd order
      (fun e c => c * (resolvedNames languagesFile e).length)
    simp only at this
    rw [this]
    simp [sumWeights]


/-! ## The tally: auxiliary facts -/

theorem mem_mapSet {β : Type} (m : List (String × β)) (k : String) (v : β)
    (en : String × β) (h : en ∈ mapSet m k v) : en = (k, v) ∨ en ∈ m := by
  induction m with
  | nil => simp [mapSet] at h; exact Or.inl h
  | cons p rest ih =>
    obtain ⟨k', v'⟩ := p
    by_cases hk : k' = k
    · simp only [mapSet, hk, if_true, List.mem_cons] at h
      rcases h with h | h
      · exact Or.inl h
      · exact Or.inr (List.mem_cons_of_mem _ h)
    · simp only [mapSet, hk, if_false, List.mem_cons] at h
      rcases h with h | h
      · exact Or.inr (by rw [h]; exact List.mem_cons_self _ _)
      · rcases ih h with h1 | h1
        · exact Or.inl h1
        · exact Or.inr (List.mem_cons_of_mem _ h1)

theorem weighted_sum_mapSet (m : List (String × Nat)) (e : String) (g : String → Nat) :
    ((mapSet m e (countOf m e + 1)).map (fun en => en.2 * g en.1)).sum =
      (m.map (fun en => en.2 * g en.1)).sum + g e := by
  induction m with
  | nil => simp [mapSet, countOf, mapLookup]
  | cons p rest ih =>
    obtain ⟨k', v'⟩ := p
    by_cases h : k' = e
    · subst h
      simp [mapSet, countOf, mapLookup]
      ring
    · have e1 : countOf ((k', v') :: rest) e = countOf rest e := by
        simp [countOf, mapLookup, h]
      rw [e1]
      simp only [mapSet, h, if_false, List.map_cons, List.sum_cons, ih]
      ring

theorem extract_fold (g : String → Nat) (paths : List String) :
    ∀ m : List (String × Nat), (keys m).Nodup → (∀ en ∈ m, 0 < en.2) →
    (keys (paths.foldl extractStep m)).Nodup ∧
    (∀ en ∈ paths.foldl extractStep m, 0 < en.2) ∧
    (((paths.foldl extractStep m).map (fun en => en.2 * g en.1)).sum =
      (m.map (fun en => en.2 * g en.1)).sum +
        (paths.map (fun p => if (Ext p).length = 0 then 0 else g (Ext p))).sum) ∧
    (∀ e, e ∈ keys (paths.foldl extractStep m) ↔
      e ∈ keys m ∨ ∃ p ∈ paths, (Ext p).length ≠ 0 ∧ Ext p = e) := by
  induction paths with
  | nil =>
    intro m h1 h2
    refine ⟨h1, h2, ?_, ?_⟩
    · simp
    · intro e; simp
  | cons p rest ih =>
    intro m h1 h2
    rw [List.foldl_cons]
    by_cases hp : (Ext p).length = 0
    · have hs : extractStep m p = m := by simp [extractStep, hp]
      rw [hs]
      obtain ⟨i1, i2, i3, i4⟩ := ih m h1 h2
      refine ⟨i1, i2, ?_, ?_⟩
      · rw [i3, List.map_cons, List.sum_cons, if_pos hp]
        ring
      · intro e
        rw [i4 e]
        simp only [List.mem_cons, exists_eq_or_imp]
        constructor
        · rintro (h | h)
          · exact Or.inl h
          · exact Or.inr (Or.inr h)
        · rintro (h | h | h)
          · exact Or.inl h
          · exact absurd hp h.1
          · exact Or.inr h
    · have hs : extractStep m p = mapSet m (Ext p) (countOf m (Ext p) + 1) := by
        simp [extractStep, hp]
      rw [hs]
      have n1 : (keys (mapSet m (Ext p) (countOf m (Ext p) + 1))).Nodup :=
        nodup_keys_mapSet _ _ _ h1
      have n2 : ∀ en ∈ mapSet m (Ext p) (countOf m (Ext p) + 1), 0 < en.2 := by
        intro en hen
        rcases mem_mapSet _ _ _ _ hen with h | h
        · rw [h]; exact Nat.succ_pos _
        · exact h2 en h
      obtain ⟨i1, i2, i3, i4⟩ := ih _ n1 n2
      refine ⟨i1, i2, ?_, ?_⟩
      · rw [i3, weighted_sum_mapSet, List.map_cons, List.sum_cons, if_neg hp]
        ring
      · intro e
        rw [i4 e, mem_keys_mapSet]
        simp only [List.mem_cons, exists_eq_or_imp]
        constructor
        · rintro ((h | h) | h)
          · exact Or.inl h
          · exact Or.inr (Or.inl ⟨hp, h.symm⟩)
          · exact Or.inr (Or.inr h)
        · rintro (h | h | h)
          · exact Or.inl (Or.inl h)
          · exact Or.inl (Or.inr h.2.symm)
          · exact Or.inr h

/-- The tally has distinct keys, positive counts, and counts every path with an
extension once. -/
theorem extractExtensions_spec (g : String → Nat) (paths : List String) :
    (keys (extractExtensions paths)).Nodup ∧
    (∀ en ∈ extractExtensions paths, 0 < en.2) ∧
    (((extractExtensions paths).map (fun en => en.2 * g en.1)).sum =
      (paths.map (fun p => if (Ext p).length = 0 then 0 else g (Ext p))).sum) ∧
    (∀ e, e ∈ keys (extractExtensions paths) ↔
      ∃ p ∈ paths, (Ext p).length ≠ 0 ∧ Ext p = e) := by
  unfold extractExtensions
  obtain ⟨h1, h2, h3, h4⟩ := extract_fold g paths [] (by simp [keys]) (by simp)
  refine ⟨h1, h2, ?_, ?_⟩
  · rw [h3]; simp
  · intro e; rw [h4 e]; simp [keys]

/-! ## Sorting: auxiliary facts -/

theorem insertByWeight_perm (a : Language) (l : List Language) :
    List.Perm (insertByWeight a l) (a :: l) := by
  induction l with
  | nil => simp [insertByWeight]
  | cons b rest ih =>
    unfold insertByWeight
    by_cases h : a.Weight < b.Weight
    · rw [if_pos h]
      exact (List.Perm.cons b ih).trans (List.Perm.swap a b rest)
    · rw [if_neg h]

theorem sortByWeight_perm (l : List Language) : List.Perm (sortByWeight l) l := by
  induction l with
  | nil => simp [sortByWeight]
  | cons a rest ih =>
    unfold sortByWeight
    exact (insertByWeight_perm a _).trans (List.Perm.cons a ih)

theorem insertByWeight_sorted (a : Language) (l : List Language)
    (h : l.Pairwise (fun x y => y.Weight ≤ x.Weight)) :
    (insertByWeight a l).Pairwise (fun x y => y.Weight ≤ x.Weight) := by
  induction l with
  | nil => simp [insertByWeight]
  | cons b rest ih =>
    rw [List.pairwise_cons] at h
    unfold insertByWeight
    by_cases hab : a.Weight < b.Weight
    · rw [if_pos hab, List.pairwise_cons]
      refine ⟨?_, ih h.2⟩
      intro y hy
      have := (insertByWeight_perm a rest).subset hy
      rw [List.mem_cons] at this
      rcases this with h1 | h1
      · rw [h1]; exact le_of_lt hab
      · exact h.1 y h1
    · rw [if_neg hab, List.pairwise_cons]
      have hba : b.Weight ≤ a.Weight := not_lt.mp hab
      refine ⟨?_, List.pairwise_cons.mpr h⟩
      intro y hy
      rw [List.mem_cons] at hy
      rcases hy with h1 | h1
      · rw [h1]; exact hba
      · exact le_trans (h.1 y h1) hba

theorem sortByWeight_sorted (l : List Language) :
    (sortByWeight l).Pairwise (fun x y => y.Weight ≤ x.Weight) := by
  induction l with
  | nil => simp [sortByWeight]
  | cons a rest ih =>
    unfold sortByWeight
    exact insertByWeight_sorted a _ ih

/-! ## Result assembly: auxiliary facts -/

theorem languageOf_some (enr : String → Option Enricher) (paths : List String) (T : Nat)
    (entry : String × languageItem) (l : Language)
    (h : languageOf enr paths T entry = some l) :
    l.Name = entry.1 ∧ l.Weight = percentage entry.2.weight T ∧
      threshold < tmpWeight entry.2.weight T := by
  unfold languageOf at h
  by_cases hk : threshold < tmpWeight entry.2.weight T
  · rw [if_pos hk] at h
    cases he : enr entry.1 with
    | none =>
      simp only [he, Option.some.injEq] at h
      subst h
      exact ⟨rfl, rfl, hk⟩
    | some e =>
      simp only [he, Option.some.injEq] at h
      subst h
      exact ⟨rfl, rfl, hk⟩
  · rw [if_neg hk] at h
    exact absurd h (by simp)

theorem languageOf_isSome (enr : String → Option Enricher) (paths : List String) (T : Nat)
    (entry : String × languageItem) (hk : threshold < tmpWeight entry.2.weight T) :
    ∃ l, languageOf enr paths T entry = some l := by
  unfold languageOf
  rw [if_pos hk]
  cases enr entry.1 with
  | none => exact ⟨_, rfl⟩
  | some e => exact ⟨_, rfl⟩

/-- Membership in the result of `analyzePaths`: the languages built from the
entries of `languagesDetected`. -/
theorem mem_analyzePaths (languagesFile : LanguageFile) (enr : String → Option Enricher)
    (paths : List String) (o1 o2 : List Nat) (l : Language) :
    l ∈ analyzePaths languagesFile enr paths o1 o2 ↔
      ∃ entry ∈ (extensionLoop languagesFile (extractExtensions paths) o1).languagesDetected,
        languageOf enr paths
          (extensionLoop languagesFile (extractExtensions paths) o1).totalProgrammingOccurrences
          entry = some l := by
  unfold analyzePaths languagesFound
  simp only
  rw [(sortByWeight_perm _).mem_iff, List.mem_filterMap]
  constructor
  · rintro ⟨entry, h1, h2⟩
    exact ⟨entry, (rangeOrder_perm _ _).subset h1, h2⟩
  · rintro ⟨entry, h1, h2⟩
    exact ⟨entry, (rangeOrder_perm _ _).symm.subset h1, h2⟩


/-! ## Weights against the denominator: auxiliary facts -/

theorem mem_tally_iff (paths : List String) (en : String × Nat)
    (h : en ∈ extractExtensions paths) :
    ∃ p ∈ paths, (Ext p).length ≠ 0 ∧ Ext p = en.1 := by
  have h4 := (extractExtensions_spec (fun _ => 0) paths).2.2.2
  exact (h4 en.1).mp (List.mem_map_of_mem Prod.fst h)

/-- A detected language makes the denominator positive. -/
theorem total_pos_of_detected (languagesFile : LanguageFile) (paths : List String)
    (order : List Nat)
    (h : (extensionLoop languagesFile (extractExtensions paths) order).languagesDetected ≠ []) :
    0 < (extensionLoop languagesFile (extractExtensions paths) order).totalProgrammingOccurrences := by
  obtain ⟨x1, x2, _, _⟩ := extractExtensions_spec (fun _ => 0) paths
  obtain ⟨_, _, s3, _, s5, _⟩ := extensionLoop_spec languagesFile (extractExtensions paths) x1 order
  obtain ⟨entry, hentry⟩ := List.exists_mem_of_ne_nil _ h
  have hk : entry.1 ∈ keys (extensionLoop languagesFile (extractExtensions paths)
      order).languagesDetected := List.mem_map_of_mem Prod.fst hentry
  obtain ⟨en, hen, hn⟩ := (s5 entry.1).mp hk
  rw [s3]
  have hne : (resolvedNames languagesFile en.1).isEmpty = false := by
    cases hr : resolvedNames languagesFile en.1 with
    | nil => rw [hr] at hn; simp at hn
    | cons a b => rfl
  have hmem : (if (resolvedNames languagesFile en.1).isEmpty then 0 else en.2) ∈
      (extractExtensions paths).map (fun en =>
        if (resolvedNames languagesFile en.1).isEmpty then 0 else en.2) :=
    List.mem_map_of_mem _ hen
  have hle := List.single_le_sum (fun _ _ => Nat.zero_le _) _ hmem
  rw [hne] at hle
  simp only [Bool.false_eq_true, if_false] at hle
  exact lt_of_lt_of_le (x2 en hen) hle

theorem entry_weight_eq (languagesFile : LanguageFile) (exts : List (String × Nat))
    (hnd : (keys exts).Nodup) (order : List Nat) (entry : String × languageItem)
    (h : entry ∈ (extensionLoop languagesFile exts order).languagesDetected) :
    entry.2.weight =
      (exts.map (fun en => en.2 * (resolvedNames languagesFile en.1).count entry.1)).sum := by
  obtain ⟨_, s2, _, s4, _, _⟩ := extensionLoop_spec languagesFile exts hnd order
  rw [← s2 entry.1]
  unfold weightOf
  rw [mapLookup_of_mem _ s4 entry.1 entry.2 h]

/-- When no extension has two candidates contributing to the same canonical
language, no accumulated weight exceeds the denominator. -/
theorem weight_le_total (languagesFile : LanguageFile) (paths : List String)
    (order : List Nat)
    (hH : ∀ p ∈ paths, (Ext p).length ≠ 0 → (resolvedNames languagesFile (Ext p)).Nodup)
    (entry : String × languageItem)
    (h : entry ∈ (extensionLoop languagesFile (extractExtensions paths) order).languagesDetected) :
    entry.2.weight ≤
      (extensionLoop languagesFile (extractExtensions paths) order).totalProgrammingOccurrences := by
  obtain ⟨x1, _, _, _⟩ := extractExtensions_spec (fun _ => 0) paths
  obtain ⟨_, _, s3, _, _, _⟩ := extensionLoop_spec languagesFile (extractExtensions paths) x1 order
  rw [entry_weight_eq languagesFile _ x1 order entry h, s3]
  apply List.sum_le_sum
  intro en hen
  obtain ⟨p, hp, hp1, hp2⟩ := mem_tally_iff paths en hen
  have hnd := hH p hp hp1
  rw [hp2] at hnd
  have hc := List.nodup_iff_count_le_one.mp hnd entry.1
  cases hr : resolvedNames languagesFile en.1 with
  | nil => simp
  | cons a b =>
    rw [hr] at hc
    simp only [List.isEmpty_cons, Bool.false_eq_true, if_false]
    calc en.2 * List.count entry.1 (a :: b) ≤ en.2 * 1 := Nat.mul_le_mul_left _ hc
      _ = en.2 := Nat.mul_one _

/-- When every extension has at most one contributing candidate, the
accumulated weights add up to at most the denominator. -/
theorem sumWeights_le_total (languagesFile : LanguageFile) (paths : List String)
    (order : List Nat)
    (hH : ∀ p ∈ paths, (Ext p).length ≠ 0 → (resolvedNames languagesFile (Ext p)).length ≤ 1) :
    sumWeights (extensionLoop languagesFile (extractExtensions paths) order).languagesDetected ≤
      (extensionLoop languagesFile (extractExtensions paths) order).totalProgrammingOccurrences := by
  obtain ⟨x1, _, _, _⟩ := extractExtensions_spec (fun _ => 0) paths
  obtain ⟨_, _, s3, _, _, s6⟩ := extensionLoop_spec languagesFile (extractExtensions paths) x1 order
  rw [s6, s3]
  apply List.sum_le_sum
  intro en hen
  obtain ⟨p, hp, hp1, hp2⟩ := mem_tally_iff paths en hen
  have hl := hH p hp hp1
  rw [hp2] at hl
  cases hr : resolvedNames languagesFile en.1 with
  | nil => simp
  | cons a b =>
    rw [hr] at hl
    simp only [List.isEmpty_cons, Bool.false_eq_true, if_false]
    calc en.2 * (a :: b).length ≤ en.2 * 1 := Nat.mul_le_mul_left _ hl
      _ = en.2 := Nat.mul_one _

theorem percentage_nonneg (w T : Nat) : 0 ≤ percentage w T := by
  unfold percentage tmpWeight
  have h0 : (0 : ℚ) ≤ (truncUnits w T : ℚ) := by exact_mod_cast truncUnits_nonneg w T
  exact f64_nonneg (mul_nonneg (f64_nonneg (div_nonneg (f64_nonneg h0) (by norm_num)))
    (by norm_num))

/-- The weights of the languages built from a list of entries add up to at
most the truncated ten-thousandths of all entries, up to three roundings. -/
theorem sum_weights_le (enr : String → Option Enricher) (paths : List String) (T : Nat)
    (L : List (String × languageItem)) :
    ((L.filterMap (languageOf enr paths T)).map Language.Weight).sum ≤
      ((L.map (fun en => truncUnits en.2.weight T)).sum : ℤ) / 100 * (1 + 1 / 2 ^ 53) ^ 3 := by
  induction L with
  | nil => simp
  | cons entry rest ih =>
    have hp := percentage_le entry.2.weight T
    have hp0 := percentage_nonneg entry.2.weight T
    rw [List.map_cons, List.sum_cons, Int.cast_add, add_div, add_mul]
    cases hl : languageOf enr paths T entry with
    | none =>
      rw [List.filterMap_cons_none hl]
      linarith
    | some l =>
      rw [List.filterMap_cons_some hl, List.map_cons, List.sum_cons]
      rw [(languageOf_some enr paths T entry l hl).2.1]
      linarith

/-- The truncated ten-thousandths of weights that add up to at most the
denominator add up to at most 10000. -/
theorem sum_truncUnits_le (T : Nat) (hT : 0 < T) (L : List (String × languageItem))
    (h : sumWeights L ≤ T) :
    (L.map (fun en => truncUnits en.2.weight T)).sum ≤ 10000 := by
  have hTq : (0 : ℚ) < (T : ℚ) := by exact_mod_cast hT
  have key : ∀ M : List (String × languageItem),
      (((M.map (fun en => truncUnits en.2.weight T)).sum : ℤ) : ℚ) ≤
        10000 * ((sumWeights M : ℚ) / (T : ℚ)) *
          ((1 + 1 / 2 ^ 53) ^ 3 / (1 - 1 / 2 ^ 53)) := by
    intro M
    induction M with
    | nil => simp [sumWeights]
    | cons entry rest ih =>
      have h1 := truncUnits_le entry.2.weight T hT
      simp only [sumWeights] at ih
      simp only [List.map_cons, List.sum_cons, sumWeights]
      rw [Int.cast_add, Nat.cast_add, add_div, mul_add, add_mul]
      linarith
  have h1 := key L
  have h2 : (sumWeights L : ℚ) / (T : ℚ) ≤ 1 := by
    rw [div_le_one hTq]
    exact_mod_cast h
  have h3 : (0 : ℚ) ≤ (1 + 1 / 2 ^ 53) ^ 3 / (1 - 1 / 2 ^ 53) := by norm_num
  have h4 : 10000 * ((sumWeights L : ℚ) / (T : ℚ)) *
      ((1 + 1 / 2 ^ 53) ^ 3 / (1 - 1 / 2 ^ 53)) ≤
      10000 * 1 * ((1 + 1 / 2 ^ 53) ^ 3 / (1 - 1 / 2 ^ 53)) := by
    apply mul_le_mul_of_nonneg_right _ h3
    linarith
  have h5 : (10000 : ℚ) * 1 * ((1 + 1 / 2 ^ 53) ^ 3 / (1 - 1 / 2 ^ 53)) < 10001 := by norm_num
  have h6 : (((L.map (fun en => truncUnits en.2.weight T)).sum : ℤ) : ℚ) < ((10001 : ℤ) : ℚ) := by
    have e : ((10001 : ℤ) : ℚ) = 10001 := by norm_num
    rw [e]
    linarith
  have h7 : (L.map (fun en => truncUnits en.2.weight T)).sum < 10001 := by exact_mod_cast h6
  omega


/-! ## The significance test: auxiliary facts -/

/-- Conversion of an `int` below `2 ^ 53` to `float64` is exact. -/
theorem f64_natCast (n : Nat) (hn : n < 2 ^ 53) : f64 (n : ℚ) = (n : ℚ) := by
  rcases Nat.eq_zero_or_pos n with h0 | hpos
  · subst h0; simpa using f64_zero
  · have hq : (0 : ℚ) < (n : ℚ) := by exact_mod_cast hpos
    have hlt : (n : ℚ) < 2 ^ 53 := by exact_mod_cast hn
    obtain ⟨hb, _⟩ := binade_spec (n : ℚ) (ne_of_gt hq)
    rw [abs_of_pos hq] at hb
    have h1 : (2 : ℚ) ^ binade (n : ℚ) < (2 : ℚ) ^ (53 : ℤ) := by
      have e : (2 : ℚ) ^ (53 : ℤ) = 2 ^ 53 := by norm_num
      rw [e]
      linarith
    have h2 := (zpow_lt_zpow_iff_right₀ (by norm_num : (1 : ℚ) < 2)).mp h1
    obtain ⟨k, hk⟩ : ∃ k : ℕ, binade (n : ℚ) - 52 = -(k : ℤ) :=
      ⟨(52 - binade (n : ℚ)).toNat, by omega⟩
    have hu : ulp (n : ℚ) = ((2 : ℚ) ^ k)⁻¹ := by
      unfold ulp
      rw [hk, zpow_neg, zpow_natCast]
    rw [f64_of_ne_zero _ (ne_of_gt hq), hu]
    have e1 : (n : ℚ) / ((2 : ℚ) ^ k)⁻¹ = (((n * 2 ^ k : ℕ) : ℤ) : ℚ) := by
      rw [div_inv_eq_mul]
      push_cast
      ring
    rw [e1, roundEven_intCast]
    push_cast
    field_simp

theorem units_at_201 : (201 : ℤ) ≤ goInt (f64 (f64 ((201 : ℚ) / 10000) * 10000)) := by
  decide!

/-- A share of at least 201 ten-thousandths, for counters below `2 ^ 53`, is
truncated to at least 201. -/
theorem le_truncUnits_of_share (w T : Nat) (hT : 0 < T) (hT2 : T < 2 ^ 53) (hw : w < 2 ^ 53)
    (h : 201 * T ≤ 10000 * w) : 201 ≤ truncUnits w T := by
  have hTq : (0 : ℚ) < (T : ℚ) := by exact_mod_cast hT
  have hq : (201 : ℚ) * (T : ℚ) ≤ 10000 * (w : ℚ) := by exact_mod_cast h
  have hshare : (201 : ℚ) / 10000 ≤ (w : ℚ) / (T : ℚ) := by
    rw [div_le_div_iff₀ (by norm_num) hTq]
    linarith
  have h1 : f64 ((201 : ℚ) / 10000) ≤ rawWeight w T := by
    unfold rawWeight
    rw [f64_natCast w hw, f64_natCast T hT2]
    exact f64_mono (by norm_num) hshare
  have h0 : (0 : ℚ) ≤ f64 ((201 : ℚ) / 10000) := f64_nonneg (by norm_num)
  have h2 : f64 (f64 ((201 : ℚ) / 10000) * 10000) ≤ f64 (rawWeight w T * 10000) :=
    f64_mono (mul_nonneg h0 (by norm_num)) (mul_le_mul_of_nonneg_right h1 (by norm_num))
  have h3 := units_at_201
  rw [goInt_of_nonneg (f64_nonneg (mul_nonneg h0 (by norm_num)))] at h3
  unfold truncUnits
  rw [goInt_of_nonneg (f64_nonneg (mul_nonneg (rawWeight_nonneg w T) (by norm_num)))]
  exact le_trans h3 (Int.floor_mono h2)

/-- A share of exactly two percent is truncated to at most 200
ten-thousandths, whatever the size of the counters. -/
theorem truncUnits_two_percent (w : Nat) (hw : 0 < w) : truncUnits w (50 * w) ≤ 200 := by
  have hT : 0 < 50 * w := by omega
  have hK := truncUnits_le w (50 * w) hT
  have hwq : (0 : ℚ) < (w : ℚ) := by exact_mod_cast hw
  have e : (w : ℚ) / ((50 * w : ℕ) : ℚ) = 1 / 50 := by
    push_cast
    field_simp
    ring
  rw [e] at hK
  have h5 : (10000 : ℚ) * (1 / 50) * ((1 + 1 / 2 ^ 53) ^ 3 / (1 - 1 / 2 ^ 53)) < 201 := by
    norm_num
  have h6 : (truncUnits w (50 * w) : ℚ) < ((201 : ℤ) : ℚ) := by
    have e2 : ((201 : ℤ) : ℚ) = 201 := by norm_num
    rw [e2]
    linarith
  have h7 : truncUnits w (50 * w) < 201 := by exact_mod_cast h6
  omega

theorem languageOf_eq_none_iff (enr : String → Option Enricher) (paths : List String) (T : Nat)
    (entry : String × languageItem) :
    languageOf enr paths T entry = none ↔ truncUnits entry.2.weight T ≤ 200 := by
  constructor
  · intro h
    by_contra hc
    have hk : threshold < tmpWeight entry.2.weight T := (keep_iff _ _).mpr (by omega)
    obtain ⟨l, hl⟩ := languageOf_isSome enr paths T entry hk
    rw [hl] at h
    exact absurd h (by simp)
  · intro h
    cases hl : languageOf enr paths T entry with
    | none => rfl
    | some l =>
      have := (keep_iff _ _).mp (languageOf_some _ _ _ _ _ hl).2.2
      omega

/-- The example of the spec: a raw share of 0.029999 is truncated to 299
ten-thousandths and reported below 3. -/
theorem truncation_sample :
    truncUnits 29999 1000000 = 299 ∧ percentage 29999 1000000 < 3 ∧
      percentage 29999 1000000 = f64 (f64 (299 / 10000) * 100) := by
  decide!

theorem entry_unique {β : Type} (m : List (String × β)) (hm : (keys m).Nodup)
    (e1 e2 : String × β) (h1 : e1 ∈ m) (h2 : e2 ∈ m) (hk : e1.1 = e2.1) : e1 = e2 := by
  have a := mapLookup_of_mem m hm e1.1 e1.2 h1
  have b := mapLookup_of_mem m hm e2.1 e2.2 h2
  rw [hk, b] at a
  injection a with a
  exact Prod.ext hk a.symm


/-! ## Reported names and weights: auxiliary facts -/

theorem nameWeight_languageOf (enr : String → Option Enricher) (paths : List String) (T : Nat)
    (entry : String × languageItem) :
    (languageOf enr paths T entry).map nameWeight = reported T entry := by
  unfold reported
  by_cases hk : threshold < tmpWeight entry.2.weight T
  · obtain ⟨l, hl⟩ := languageOf_isSome enr paths T entry hk
    obtain ⟨h1, h2, _⟩ := languageOf_some _ _ _ _ _ hl
    rw [hl, if_pos hk]
    simp [nameWeight, h1, h2]
  · rw [if_neg hk]
    cases hl : languageOf enr paths T entry with
    | none => rfl
    | some l => exact absurd (languageOf_some _ _ _ _ _ hl).2.2 hk

theorem nameWeight_filterMap (enr : String → Option Enricher) (paths : List String) (T : Nat)
    (L : List (String × languageItem)) :
    (L.filterMap (languageOf enr paths T)).map nameWeight = L.filterMap (reported T) := by
  rw [List.map_filterMap]
  congr 1
  funext entry
  exact nameWeight_languageOf enr paths T entry

/-- Names and weights of the result, up to order: those reported for the
entries of `languagesDetected`. -/
theorem analyzePaths_nameWeight (languagesFile : LanguageFile) (enr : String → Option Enricher)
    (paths : List String) (o1 o2 : List Nat) :
    List.Perm ((analyzePaths languagesFile enr paths o1 o2).map nameWeight)
      ((extensionLoop languagesFile (extractExtensions paths) o1).languagesDetected.filterMap
        (reported (extensionLoop languagesFile (extractExtensions paths)
          o1).totalProgrammingOccurrences)) := by
  unfold analyzePaths languagesFound
  simp only
  refine ((sortByWeight_perm _).map nameWeight).trans ?_
  rw [nameWeight_filterMap]
  exact (rangeOrder_perm o2 _).filterMap _

theorem rangeOrder_single {α : Type} (order : List Nat) (a : α) :
    rangeOrder order [a] = [a] := by
  cases order with
  | nil => rfl
  | cons c cs =>
    simp only [rangeOrder, List.length_nil, Nat.zero_add, Nat.mod_one]
    cases cs <;> rfl

theorem rangeOrder_pair {α : Type} (order : List Nat) (a b : α) :
    rangeOrder order [a, b] = [a, b] ∨ rangeOrder order [a, b] = [b, a] := by
  cases order with
  | nil => exact Or.inl rfl
  | cons c cs =>
    rcases Nat.mod_two_eq_zero_or_one c with h | h
    · left
      simp only [rangeOrder, List.length_cons, List.length_nil, Nat.zero_add, h]
      simp [rangeOrder_single]
    · right
      simp only [rangeOrder, List.length_cons, List.length_nil, Nat.zero_add, h]
      simp [rangeOrder_single]

/-- The state after the extension loop in terms of the collected paths. -/
theorem extensionLoop_by_paths (languagesFile : LanguageFile) (paths : List String)
    (order : List Nat) :
    (∀ n, weightOf (extensionLoop languagesFile (extractExtensions paths)
        order).languagesDetected n =
      (paths.map (fun p => if (Ext p).length = 0 then 0
        else (resolvedNames languagesFile (Ext p)).count n)).sum) ∧
    ((extensionLoop languagesFile (extractExtensions paths) order).totalProgrammingOccurrences =
      (paths.map (fun p => if (Ext p).length = 0 then 0
        else if (resolvedNames languagesFile (Ext p)).isEmpty then 0 else 1)).sum) ∧
    (keys (extensionLoop languagesFile (extractExtensions paths)
      order).languagesDetected).Nodup ∧
    (∀ n, n ∈ keys (extensionLoop languagesFile (extractExtensions paths)
        order).languagesDetected ↔
      ∃ p ∈ paths, (Ext p).length ≠ 0 ∧ n ∈ resolvedNames languagesFile (Ext p)) := by
  obtain ⟨x1, _, _, x4⟩ := extractExtensions_spec (fun _ => 0) paths
  obtain ⟨_, s2, s3, s4, s5, _⟩ := extensionLoop_spec languagesFile (extractExtensions paths) x1 order
  refine ⟨?_, ?_, s4, ?_⟩
  · intro n
    rw [s2 n]
    exact (extractExtensions_spec
      (fun e => (resolvedNames languagesFile e).count n) paths).2.2.1
  · rw [s3]
    have := (extractExtensions_spec
      (fun e => if (resolvedNames languagesFile e).isEmpty then 0 else 1) paths).2.2.1
    rw [← this]
    congr 1
    apply List.map_congr_left
    intro en _
    by_cases h : (resolvedNames languagesFile en.1).isEmpty = true
    · simp [h]
    · simp [h]
  · intro n
    rw [s5 n]
    constructor
    · rintro ⟨en, hen, hn⟩
      obtain ⟨p, hp, hp1, hp2⟩ := mem_tally_iff paths en hen
      exact ⟨p, hp, hp1, by rw [hp2]; exact hn⟩
    · rintro ⟨p, hp, hp1, hn⟩
      have hk : Ext p ∈ keys (extractExtensions paths) := (x4 (Ext p)).mpr ⟨p, hp, hp1, rfl⟩
      obtain ⟨en, hen, he⟩ := List.mem_map.mp hk
      exact ⟨en, hen, by rw [he]; exact hn⟩

theorem mem_filterMap_reported (d : List (String × languageItem)) (hd : (keys d).Nodup)
    (T : Nat) (x : String × ℚ) :
    x ∈ d.filterMap (reported T) ↔
      x.1 ∈ keys d ∧ threshold < tmpWeight (weightOf d x.1) T ∧
        x.2 = percentage (weightOf d x.1) T := by
  rw [List.mem_filterMap]
  constructor
  · rintro ⟨en, hen, hr⟩
    unfold reported at hr
    by_cases hk : threshold < tmpWeight en.2.weight T
    · rw [if_pos hk] at hr
      injection hr with hr
      subst hr
      have hw : weightOf d en.1 = en.2.weight := by
        unfold weightOf
        rw [mapLookup_of_mem d hd en.1 en.2 hen]
      simp only
      rw [hw]
      exact ⟨List.mem_map_of_mem Prod.fst hen, hk, rfl⟩
    · rw [if_neg hk] at hr
      exact absurd hr (by simp)
  · rintro ⟨h1, h2, h3⟩
    obtain ⟨en, hen, he⟩ := List.mem_map.mp h1
    have hw : weightOf d x.1 = en.2.weight := by
      unfold weightOf
      rw [← he, mapLookup_of_mem d hd en.1 en.2 hen]
    refine ⟨en, hen, ?_⟩
    unfold reported
    rw [hw] at h2 h3
    rw [if_pos h2]
    congr 1
    exact Prod.ext he h3.symm

theorem nodup_filterMap_reported (d : List (String × languageItem)) (hd : (keys d).Nodup)
    (T : Nat) : (d.filterMap (reported T)).Nodup := by
  induction d with
  | nil => simp
  | cons en rest ih =>
    simp only [keys, List.map_cons, List.nodup_cons] at hd
    have ihr := ih hd.2
    cases hr : reported T en with
    | none => rw [List.filterMap_cons_none hr]; exact ihr
    | some x =>
      rw [List.filterMap_cons_some hr, List.nodup_cons]
      refine ⟨?_, ihr⟩
      intro hx
      have hx1 := ((mem_filterMap_reported rest hd.2 T x).mp hx).1
      unfold reported at hr
      by_cases hk : threshold < tmpWeight en.2.weight T
      · rw [if_pos hk] at hr
        injection hr with hr
        subst hr
        exact hd.1 hx1
      · rw [if_neg hk] at hr
        exact absurd hr (by simp)

/-- Names and weights of the result, up to order, are determined by the
accumulated weight of every name, the denominator, and the set of names. -/
theorem reported_perm (d1 d2 : List (String × languageItem)) (T1 T2 : Nat)
    (h1 : (keys d1).Nodup) (h2 : (keys d2).Nodup)
    (hk : ∀ n, n ∈ keys d1 ↔ n ∈ keys d2) (hw : ∀ n, weightOf d1 n = weightOf d2 n)
    (hT : T1 = T2) :
    List.Perm (d1.filterMap (reported T1)) (d2.filterMap (reported T2)) := by
  subst hT
  rw [List.perm_ext_iff_of_nodup (nodup_filterMap_reported d1 h1 T1)
    (nodup_filterMap_reported d2 h2 T1)]
  intro x
  rw [mem_filterMap_reported d1 h1, mem_filterMap_reported d2 h2, hk x.1, hw x.1]


theorem resolvedNames_eq_nil_of_no_programming (languagesFile : LanguageFile) (e : String)
    (h : ∀ language ∈ languagesFile.GetLanguagesByExtension e, language.Kind ≠ "programming") :
    resolvedNames languagesFile e = [] := by
  unfold resolvedNames
  rw [List.map_eq_nil_iff, List.filterMap_eq_nil_iff]
  intro language hl
  unfold resolve
  rw [if_neg (h language hl)]

theorem scenario_dialect_state (o1 : List Nat) :
    extensionLoop sampleKB
      (extractExtensions (sampleFiles 97 "src/" ".ts" ++ sampleFiles 3 "lib/" ".js")) o1 =
      ⟨[("JavaScript", ⟨programmingItem "JavaScript", 100⟩)], false, 100⟩ := by
  have hx : extractExtensions (sampleFiles 97 "src/" ".ts" ++ sampleFiles 3 "lib/" ".js") =
      [(".ts", 97), (".js", 3)] := by decide!
  unfold extensionLoop
  rw [hx]
  rcases rangeOrder_pair o1 (".ts", 97) (".js", 3) with h | h <;> rw [h] <;> decide!

theorem scenario_prose_state (o1 : List Nat) :
    extensionLoop sampleKB
      (extractExtensions (sampleFiles 80 "cmd/" ".go" ++ sampleFiles 20 "docs/" ".md")) o1 =
      ⟨[("Go", ⟨programmingItem "Go", 80⟩)], false, 80⟩ := by
  have hx : extractExtensions (sampleFiles 80 "cmd/" ".go" ++ sampleFiles 20 "docs/" ".md") =
      [(".go", 80), (".md", 20)] := by decide!
  unfold extensionLoop
  rw [hx]
  rcases rangeOrder_pair o1 (".go", 80) (".md", 20) with h | h <;> rw [h] <;> decide!

/-! ## Order of the result: auxiliary facts -/

theorem filter_insertByWeight (w : ℚ) (a : Language) (l : List Language) :
    (insertByWeight a l).filter (fun x => decide (x.Weight = w)) =
      (a :: l).filter (fun x => decide (x.Weight = w)) := by
  induction l with
  | nil => simp [insertByWeight]
  | cons b rest ih =>
    unfold insertByWeight
    by_cases hab : a.Weight < b.Weight
    · rw [if_pos hab]
      by_cases ha : a.Weight = w
      · have hb : ¬ b.Weight = w := by
          intro hb
          rw [ha, hb] at hab
          exact lt_irrefl _ hab
        simp only [List.filter_cons, hb, decide_False, Bool.false_eq_true, if_false, ha,
          decide_True, if_true] at ih ⊢
        exact ih
      · simp only [List.filter_cons, ha, decide_False, Bool.false_eq_true, if_false] at ih ⊢
        rw [ih]
    · rw [if_neg hab]

/-- The sort is stable: languages of equal weight keep their relative order. -/
theorem filter_sortByWeight (w : ℚ) (l : List Language) :
    (sortByWeight l).filter (fun x => decide (x.Weight = w)) =
      l.filter (fun x => decide (x.Weight = w)) := by
  induction l with
  | nil => simp [sortByWeight]
  | cons a rest ih =>
    unfold sortByWeight
    rw [filter_insertByWeight, List.filter_cons, List.filter_cons, ih]

theorem names_filterMap_reported_sublist (T : Nat) (d : List (String × languageItem)) :
    List.Sublist ((d.filterMap (reported T)).map Prod.fst) (keys d) := by
  induction d with
  | nil => simp [keys]
  | cons en rest ih =>
    unfold reported at ih ⊢
    by_cases hk : threshold < tmpWeight en.2.weight T
    · simp only [List.filterMap_cons, hk, if_true, List.map_cons, keys]
      exact List.Sublist.cons₂ _ ih
    · simp only [List.filterMap_cons, hk, if_false, keys, List.map_cons]
      exact List.Sublist.cons _ ih

/-- The reported names are pairwise distinct. -/
theorem names_nodup (languagesFile : LanguageFile) (enr : String → Option Enricher)
    (paths : List String) (o1 o2 : List Nat) :
    ((analyzePaths languagesFile enr paths o1 o2).map Language.Name).Nodup := by
  have hp := analyzePaths_nameWeight languagesFile enr paths o1 o2
  have h3 := (extensionLoop_by_paths languagesFile paths o1).2.2.1
  have hs := names_filterMap_reported_sublist
    (extensionLoop languagesFile (extractExtensions paths) o1).totalProgrammingOccurrences
    (extensionLoop languagesFile (extractExtensions paths) o1).languagesDetected
  have hn := List.Nodup.sublist hs h3
  have he : (analyzePaths languagesFile enr paths o1 o2).map Language.Name =
      ((analyzePaths languagesFile enr paths o1 o2).map nameWeight).map Prod.fst := by
    rw [List.map_map]
    rfl
  rw [he]
  exact ((hp.map Prod.fst).nodup_iff).mpr hn

theorem analyzePaths_sorted (languagesFile : LanguageFile) (enr : String → Option Enricher)
    (paths : List String) (o1 o2 : List Nat) :
    (analyzePaths languagesFile enr paths o1 o2).Pairwise (fun x y => y.Weight ≤ x.Weight) := by
  unfold analyzePaths
  exact sortByWeight_sorted _

/-- Names and weights of two runs agree up to order. -/
theorem nameWeight_perm (languagesFile : LanguageFile) (enr : String → Option Enricher)
    (paths : List String) (o1 o2 o3 o4 : List Nat) :
    List.Perm ((analyzePaths languagesFile enr paths o1 o2).map nameWeight)
      ((analyzePaths languagesFile enr paths o3 o4).map nameWeight) := by
  obtain ⟨a1, a2, a3, a4⟩ := extensionLoop_by_paths languagesFile paths o1
  obtain ⟨b1, b2, b3, b4⟩ := extensionLoop_by_paths languagesFile paths o3
  refine (analyzePaths_nameWeight languagesFile enr paths o1 o2).trans
    (List.Perm.trans ?_ (analyzePaths_nameWeight languagesFile enr paths o3 o4).symm)
  apply reported_perm _ _ _ _ a3 b3
  · intro n; rw [a4 n, b4 n]
  · intro n; rw [a1 n, b1 n]
  · rw [a2, b2]

/-- Two lists of names and weights that agree up to order, both sorted by
non-increasing weight, with pairwise distinct weights, are equal. -/
theorem eq_of_perm_sorted_distinct (l1 l2 : List (String × ℚ)) (hp : List.Perm l1 l2)
    (h1 : l1.Pairwise (fun x y => y.2 ≤ x.2)) (h2 : l2.Pairwise (fun x y => y.2 ≤ x.2))
    (hd : (l1.map Prod.snd).Nodup) : l1 = l2 := by
  have hd2 : (l2.map Prod.snd).Nodup := ((hp.map Prod.snd).nodup_iff).mp hd
  have strict : ∀ l : List (String × ℚ), l.Pairwise (fun x y => y.2 ≤ x.2) →
      (l.map Prod.snd).Nodup → l.Pairwise (fun x y => y.2 < x.2) := by
    intro l hs hn
    have hn' : l.Pairwise (fun x y => x.2 ≠ y.2) := List.pairwise_map.mp hn
    exact (hs.and hn').imp (fun h => lt_of_le_of_ne h.1 (fun e => h.2 e.symm))
  haveI : IsAntisymm (String × ℚ) (fun x y => y.2 < x.2) :=
    ⟨fun a b hab hba => absurd hab (not_lt_of_lt hba)⟩
  exact List.eq_of_perm_of_sorted hp (strict l1 h1 hd) (strict l2 h2 hd2)

/-- The reported weights add up to at most 100 up to rounding when every
extension of the tally has at most one contributing candidate. -/
theorem weights_sum_le (languagesFile : LanguageFile) (enr : String → Option Enricher)
    (paths : List String) (o1 o2 : List Nat)
    (hH : ∀ p ∈ paths, (Ext p).length ≠ 0 →
      (resolvedNames languagesFile (Ext p)).length ≤ 1) :
    ((analyzePaths languagesFile enr paths o1 o2).map Language.Weight).sum ≤
      100 * (1 + 1 / 2 ^ 53) ^ 3 := by
  have hunits : ((extensionLoop languagesFile (extractExtensions paths) o1).languagesDetected.map
        (fun en => truncUnits en.2.weight
          (extensionLoop languagesFile (extractExtensions paths)
            o1).totalProgrammingOccurrences)).sum ≤ 10000 := by
    by_cases hd : (extensionLoop languagesFile (extractExtensions paths) o1).languagesDetected = []
    · rw [hd]; simp
    · exact sum_truncUnits_le _ (total_pos_of_detected languagesFile paths o1 hd) _
        (sumWeights_le_total languagesFile paths o1 hH)
  unfold analyzePaths languagesFound
  simp only
  rw [((sortByWeight_perm _).map Language.Weight).sum_eq]
  refine le_trans (sum_weights_le enr paths _ _) ?_
  have hperm := rangeOrder_perm o2
    (extensionLoop languagesFile (extractExtensions paths) o1).languagesDetected
  rw [(hperm.map _).sum_eq]
  have h1 : ((((extensionLoop languagesFile (extractExtensions paths) o1).languagesDetected.map
        (fun en => truncUnits en.2.weight
          (extensionLoop languagesFile (extractExtensions paths)
            o1).totalProgrammingOccurrences)).sum : ℤ) : ℚ) ≤ ((10000 : ℤ) : ℚ) := by
    exact_mod_cast hunits
  have e : ((10000 : ℤ) : ℚ) = 10000 := by norm_num
  rw [e] at h1
  have h2 : (0 : ℚ) ≤ (1 + 1 / 2 ^ 53) ^ 3 := by positivity
  calc _ ≤ (10000 : ℚ) / 100 * (1 + 1 / 2 ^ 53) ^ 3 :=
        mul_le_mul_of_nonneg_right (div_le_div_of_nonneg_right h1 (by norm_num)) h2
    _ = 100 * (1 + 1 / 2 ^ 53) ^ 3 := by norm_num

theorem tally_hyp_to_paths (paths : List String) (P : String → Prop)
    (h : ∀ en ∈ extractExtensions paths, P en.1) :
    ∀ p ∈ paths, (Ext p).length ≠ 0 → P (Ext p) := by
  intro p hp hp1
  have h4 := (extractExtensions_spec (fun _ => 0) paths).2.2.2
  have hk : Ext p ∈ keys (extractExtensions paths) := (h4 (Ext p)).mpr ⟨p, hp, hp1, rfl⟩
  obtain ⟨en, hen, he⟩ := List.mem_map.mp hk
  have := h en hen
  rwa [he] at this

/-! ## Paths: auxiliary facts -/

theorem splitSlash_ne_nil (l : List Char) : splitSlash l ≠ [] := by
  cases l with
  | nil => simp [splitSlash]
  | cons c cs =>
    unfold splitSlash
    by_cases h : c = '/'
    · simp [h]
    · rw [if_neg h]
      cases splitSlash cs <;> simp

theorem splitSlash_cons_slash (cs : List Char) :
    splitSlash ('/' :: cs) = [] :: splitSlash cs := by
  simp [splitSlash]

theorem splitSlash_cons_other (c : Char) (cs x : List Char) (t : List (List Char))
    (h : c ≠ '/') (hs : splitSlash cs = x :: t) : splitSlash (c :: cs) = (c :: x) :: t := by
  simp [splitSlash, h, hs]

theorem splitSlash_append (a b : List Char) :
    splitSlash (a ++ '/' :: b) = splitSlash a ++ splitSlash b := by
  induction a with
  | nil => simp [splitSlash]
  | cons c cs ih =>
    have e : (c :: cs) ++ '/' :: b = c :: (cs ++ '/' :: b) := rfl
    rw [e]
    by_cases h : c = '/'
    · subst h
      rw [splitSlash_cons_slash, splitSlash_cons_slash, ih]
      rfl
    · cases hs : splitSlash cs with
      | nil => exact absurd hs (splitSlash_ne_nil cs)
      | cons x t =>
        have h2 : splitSlash (cs ++ '/' :: b) = x :: (t ++ splitSlash b) := by
          rw [ih, hs]; rfl
        rw [splitSlash_cons_other c _ x _ h h2, splitSlash_cons_other c cs x t h hs]
        rfl

theorem splitSlash_of_not_mem (n : List Char) (h : '/' ∉ n) : splitSlash n = [n] := by
  induction n with
  | nil => rfl
  | cons c cs ih =>
    have hc : c ≠ '/' := fun e => h (by rw [e]; exact List.mem_cons_self _ _)
    have hcs : '/' ∉ cs := fun e => h (List.mem_cons_of_mem _ e)
    simp only [splitSlash, hc, if_false, ih hcs]

theorem mem_splitSlash (l : List Char) : ∀ x ∈ splitSlash l, '/' ∉ x := by
  induction l with
  | nil => intro x hx; simp [splitSlash] at hx; subst hx; simp
  | cons c cs ih =>
    intro x hx
    unfold splitSlash at hx
    by_cases h : c = '/'
    · rw [if_pos h, List.mem_cons] at hx
      rcases hx with hx | hx
      · subst hx; simp
      · exact ih x hx
    · rw [if_neg h] at hx
      cases hs : splitSlash cs with
      | nil => exact absurd hs (splitSlash_ne_nil cs)
      | cons y t =>
        rw [hs] at hx ih
        simp only [List.mem_cons] at hx
        rcases hx with hx | hx
        · subst hx
          intro hm
          rw [List.mem_cons] at hm
          rcases hm with hm | hm
          · exact h hm.symm
          · exact ih y (List.mem_cons_self _ _) hm
        · exact ih x (List.mem_cons_of_mem _ hx)

theorem splitSlash_joinSlash (comps : List (List Char)) (hne : comps ≠ [])
    (h : ∀ x ∈ comps, '/' ∉ x) : splitSlash (joinSlash comps) = comps := by
  induction comps with
  | nil => exact absurd rfl hne
  | cons a rest ih =>
    cases rest with
    | nil => exact splitSlash_of_not_mem a (h a (List.mem_cons_self _ _))
    | cons b t =>
      simp only [joinSlash]
      rw [splitSlash_append, splitSlash_of_not_mem a (h a (List.mem_cons_self _ _)),
        ih (by simp) (fun x hx => h x (List.mem_cons_of_mem _ hx))]
      rfl

theorem cleanStep_valid (rooted : Bool) (out : List (List Char)) (n : List Char)
    (h : ValidName n) : cleanStep rooted out n = n :: out := by
  obtain ⟨h1, _, h3, h4⟩ := h
  simp [cleanStep, h1, h3, h4]

theorem goodStack_tail {rooted : Bool} {top : List Char} {rest : List (List Char)}
    (h : GoodStack rooted (top :: rest)) : GoodStack rooted rest := h.2

theorem goodStack_of_dots (rest : List (List Char)) (h : ∀ x ∈ rest, x = ['.', '.']) :
    GoodStack false rest := by
  induction rest with
  | nil => trivial
  | cons a t ih =>
    refine ⟨Or.inr ⟨h a (List.mem_cons_self _ _), rfl,
      fun x hx => h x (List.mem_cons_of_mem _ hx)⟩, ih (fun x hx => h x (List.mem_cons_of_mem _ hx))⟩

theorem goodStack_step (rooted : Bool) (out : List (List Char)) (elem : List Char)
    (hg : GoodStack rooted out) (he : '/' ∉ elem) : GoodStack rooted (cleanStep rooted out elem) := by
  unfold cleanStep
  by_cases h1 : elem = []
  · rw [if_pos h1]; exact hg
  · rw [if_neg h1]
    by_cases h2 : elem = ['.']
    · rw [if_pos h2]; exact hg
    · rw [if_neg h2]
      by_cases h3 : elem = ['.', '.']
      · rw [if_pos h3]
        cases out with
        | nil =>
          cases rooted with
          | true => trivial
          | false => exact ⟨Or.inr ⟨rfl, rfl, by simp⟩, trivial⟩
        | cons top rest =>
          simp only
          by_cases ht : top = ['.', '.']
          · rw [if_pos ht]
            have hdots : rooted = false ∧ ∀ x ∈ rest, x = ['.', '.'] := by
              rcases hg.1 with hv | hd
              · exact absurd ht hv.2.2.2
              · exact ⟨hd.2.1, hd.2.2⟩
            refine ⟨Or.inr ⟨rfl, hdots.1, ?_⟩, hg⟩
            intro x hx
            rw [List.mem_cons] at hx
            rcases hx with hx | hx
            · rw [hx]; exact ht
            · exact hdots.2 x hx
          · rw [if_neg ht]; exact hg.2
      · rw [if_neg h3]
        exact ⟨Or.inl ⟨h1, he, h2, h3⟩, hg⟩

theorem goodStack_foldl (rooted : Bool) (comps : List (List Char)) :
    ∀ out, GoodStack rooted out → (∀ x ∈ comps, '/' ∉ x) →
      GoodStack rooted (comps.foldl (cleanStep rooted) out) := by
  induction comps with
  | nil => intro out hg _; exact hg
  | cons c rest ih =>
    intro out hg h
    rw [List.foldl_cons]
    exact ih _ (goodStack_step rooted out c hg (h c (List.mem_cons_self _ _)))
      (fun x hx => h x (List.mem_cons_of_mem _ hx))

theorem goodStack_stackOf (path : List Char) : GoodStack (isRooted path) (stackOf path) :=
  goodStack_foldl _ _ [] trivial (mem_splitSlash path)

theorem goodStack_elems (rooted : Bool) (out : List (List Char)) (hg : GoodStack rooted out) :
    ∀ x ∈ out, x ≠ [] ∧ '/' ∉ x := by
  induction out with
  | nil => intro x hx; simp at hx
  | cons top rest ih =>
    intro x hx
    rw [List.mem_cons] at hx
    rcases hx with hx | hx
    · subst hx
      rcases hg.1 with hv | hd
      · exact ⟨hv.1, hv.2.1⟩
      · rw [hd.1]; decide
    · exact ih hg.2 x hx

theorem goodStack_push (rooted : Bool) (names out : List (List Char))
    (hn : ∀ x ∈ names, ValidName x) (hg : GoodStack rooted out) :
    GoodStack rooted (names ++ out) := by
  induction names with
  | nil => exact hg
  | cons a t ih =>
    exact ⟨Or.inl (hn a (List.mem_cons_self _ _)),
      ih (fun x hx => hn x (List.mem_cons_of_mem _ hx))⟩

/-- Cleaning the elements of a cleaned path again changes nothing. -/
theorem foldl_reverse_goodStack (rooted : Bool) (out : List (List Char))
    (hg : GoodStack rooted out) : out.reverse.foldl (cleanStep rooted) [] = out := by
  induction out with
  | nil => rfl
  | cons top rest ih =>
    rw [List.reverse_cons, List.foldl_append, ih hg.2]
    simp only [List.foldl_cons, List.foldl_nil]
    rcases hg.1 with hv | hd
    · exact cleanStep_valid rooted rest top hv
    · obtain ⟨h1, h2, h3⟩ := hd
      subst h1
      subst h2
      cases rest with
      | nil => simp [cleanStep]
      | cons t r =>
        have ht : t = ['.', '.'] := h3 t (List.mem_cons_self _ _)
        subst ht
        simp [cleanStep]

theorem isRooted_append (a b : List Char) (ha : a ≠ []) : isRooted (a ++ b) = isRooted a := by
  cases a with
  | nil => exact absurd rfl ha
  | cons c cs => rfl

theorem isRooted_of_not_mem (a : List Char) (h : '/' ∉ a) : isRooted a = false := by
  cases a with
  | nil => rfl
  | cons c cs =>
    have hc : c ≠ '/' := fun e => h (by rw [e]; exact List.mem_cons_self _ _)
    simp [isRooted, hc]

theorem joinSlash_cons_eq (a : List Char) (rest : List (List Char)) :
    ∃ tail, joinSlash (a :: rest) = a ++ tail := by
  cases rest with
  | nil => exact ⟨[], by simp [joinSlash]⟩
  | cons b t => exact ⟨'/' :: joinSlash (b :: t), rfl⟩

theorem joinSlash_append_single (l : List (List Char)) (x : List Char) :
    joinSlash (l ++ [x]) = if l = [] then x else joinSlash l ++ '/' :: x := by
  induction l with
  | nil => simp [joinSlash]
  | cons a rest ih =>
    cases rest with
    | nil => simp [joinSlash]
    | cons b t =>
      have e : (a :: b :: t) ++ [x] = a :: b :: (t ++ [x]) := rfl
      rw [e]
      simp only [joinSlash]
      have e2 : b :: (t ++ [x]) = (b :: t) ++ [x] := rfl
      rw [e2, ih]
      simp

theorem renderPath_ne_nil (rooted : Bool) (out : List (List Char))
    (hg : GoodStack rooted out) : renderPath rooted out ≠ [] := by
  unfold renderPath
  cases rooted with
  | true => simp
  | false =>
    simp only [Bool.false_eq_true, if_false]
    by_cases ho : out = []
    · simp [ho]
    · rw [if_neg ho]
      have hr : out.reverse ≠ [] := by simpa using ho
      cases hrev : out.reverse with
      | nil => exact absurd hrev hr
      | cons a rest =>
        obtain ⟨tail, ht⟩ := joinSlash_cons_eq a rest
        rw [ht]
        have ha : a ∈ out := by
          have : a ∈ out.reverse := by rw [hrev]; exact List.mem_cons_self _ _
          exact List.mem_reverse.mp this
        have := (goodStack_elems false out hg a ha).1
        simp [this]

/-- A cleaned path is rooted as the path it comes from, and cleaning it again
gives the same elements. -/
theorem renderPath_roundtrip (rooted : Bool) (out : List (List Char))
    (hg : GoodStack rooted out) :
    isRooted (renderPath rooted out) = rooted ∧ stackOf (renderPath rooted out) = out := by
  have helems := goodStack_elems rooted out hg
  have hsl : ∀ x ∈ out.reverse, '/' ∉ x := fun x hx => (helems x (List.mem_reverse.mp hx)).2
  cases rooted with
  | true =>
    have h1 : isRooted (renderPath true out) = true := by simp [renderPath, isRooted]
    refine ⟨h1, ?_⟩
    unfold stackOf
    rw [h1]
    simp only [renderPath, if_true, splitSlash, List.foldl_cons]
    have hskip : cleanStep true [] [] = [] := by simp [cleanStep]
    rw [hskip]
    by_cases ho : out = []
    · subst ho
      simp [joinSlash, splitSlash, cleanStep]
    · have hr : out.reverse ≠ [] := by simpa using ho
      rw [splitSlash_joinSlash _ hr hsl]
      exact foldl_reverse_goodStack true out hg
  | false =>
    by_cases ho : out = []
    · subst ho
      constructor
      · simp [renderPath, isRooted]
      · simp [stackOf, renderPath, isRooted, splitSlash, cleanStep]
    · have hr : out.reverse ≠ [] := by simpa using ho
      have hrender : renderPath false out = joinSlash out.reverse := by
        simp [renderPath, ho]
      have h1 : isRooted (renderPath false out) = false := by
        rw [hrender]
        cases hrev : out.reverse with
        | nil => exact absurd hrev hr
        | cons a rest =>
          obtain ⟨tail, ht⟩ := joinSlash_cons_eq a rest
          rw [ht]
          have ha : a ∈ out := by
            have : a ∈ out.reverse := by rw [hrev]; exact List.mem_cons_self _ _
            exact List.mem_reverse.mp this
          rw [isRooted_append a tail (helems a ha).1]
          exact isRooted_of_not_mem a (helems a ha).2
      refine ⟨h1, ?_⟩
      unfold stackOf
      rw [h1, hrender, splitSlash_joinSlash _ hr hsl]
      exact foldl_reverse_goodStack false out hg

theorem cleanChars_eq (path : List Char) :
    cleanChars path = renderPath (isRooted path) (stackOf path) := rfl

/-- Cleaning a non-empty path extended by a separator and a name adds the name
to the cleaned elements. -/
theorem cleanChars_append_name (a n : List Char) (ha : a ≠ []) (hn : ValidName n) :
    cleanChars (a ++ '/' :: n) = renderPath (isRooted a) (n :: stackOf a) := by
  rw [cleanChars_eq]
  unfold stackOf
  rw [isRooted_append a _ ha, splitSlash_append, List.foldl_append,
    splitSlash_of_not_mem n hn.2.1]
  simp only [List.foldl_cons, List.foldl_nil]
  rw [cleanStep_valid _ _ n hn]

theorem stackOf_nil : stackOf [] = [] := by
  simp [stackOf, splitSlash, cleanStep]

theorem validName_isRooted (n : List Char) (hn : ValidName n) : isRooted n = false :=
  isRooted_of_not_mem n hn.2.1

/-- The path of an entry: `filepath.Join` of the path of its directory and its
name. -/
theorem join_pathChars (r : List Char) (X : List (List Char)) (n : List Char)
    (hX : ∀ x ∈ X, ValidName x) (hn : ValidName n) :
    (Join (String.mk (pathChars r X)) (String.mk n)).data = pathChars r (n :: X) := by
  have hn0 : n ≠ [] := hn.1
  unfold Join
  simp only
  by_cases hXe : X = []
  · subst hXe
    have hp : pathChars r [] = r := by simp [pathChars]
    rw [hp]
    by_cases hr : r = []
    · subst hr
      simp only [if_true, hn0, if_false, Clean]
      rw [cleanChars_eq, validName_isRooted n hn]
      unfold stackOf
      rw [validName_isRooted n hn, splitSlash_of_not_mem n hn.2.1]
      simp only [List.foldl_cons, List.foldl_nil, cleanStep_valid _ _ n hn]
      simp [pathChars, isRooted, stackOf_nil]
    · simp only [hr, if_false, Clean]
      rw [cleanChars_append_name r n hr hn]
      simp [pathChars]
  · have hg : GoodStack (isRooted r) (X ++ stackOf r) :=
      goodStack_push _ X _ hX (goodStack_stackOf r)
    have hp : pathChars r X = renderPath (isRooted r) (X ++ stackOf r) := by
      simp [pathChars, hXe]
    rw [hp]
    have hne := renderPath_ne_nil _ _ hg
    obtain ⟨h1, h2⟩ := renderPath_roundtrip _ _ hg
    simp only [hne, if_false, Clean]
    rw [cleanChars_append_name _ n hne hn, h1, h2]
    simp [pathChars]

theorem dropWhile_notSlash (m rest : List Char) (hm : '/' ∉ m) :
    (m ++ '/' :: rest).dropWhile (fun c => decide (c ≠ '/')) = '/' :: rest := by
  induction m with
  | nil => simp [List.dropWhile]
  | cons c cs ih =>
    have hc : c ≠ '/' := fun e => hm (by rw [e]; exact List.mem_cons_self _ _)
    have hcs : '/' ∉ cs := fun e => hm (List.mem_cons_of_mem _ e)
    simp only [List.cons_append, List.dropWhile, hc, ne_eq, not_false_eq_true, decide_True]
    exact ih hcs

theorem dropWhile_notSlash_all (m : List Char) (hm : '/' ∉ m) :
    m.dropWhile (fun c => decide (c ≠ '/')) = [] := by
  induction m with
  | nil => rfl
  | cons c cs ih =>
    have hc : c ≠ '/' := fun e => hm (by rw [e]; exact List.mem_cons_self _ _)
    have hcs : '/' ∉ cs := fun e => hm (List.mem_cons_of_mem _ e)
    simp only [List.dropWhile, hc, ne_eq, not_false_eq_true, decide_True]
    exact ih hcs

theorem splitDir_append (p n : List Char) (hn : '/' ∉ n) :
    splitDir (p ++ '/' :: n) = p ++ ['/'] := by
  unfold splitDir
  have e : (p ++ '/' :: n).reverse = n.reverse ++ '/' :: p.reverse := by simp
  rw [e, dropWhile_notSlash _ _ (by simpa using hn)]
  simp

theorem splitDir_of_not_mem (n : List Char) (hn : '/' ∉ n) : splitDir n = [] := by
  unfold splitDir
  rw [dropWhile_notSlash_all _ (by simpa using hn)]
  rfl

theorem cleanChars_trailing (R : List Char) (hR : R ≠ []) :
    cleanChars (R ++ ['/']) = renderPath (isRooted R) (stackOf R) := by
  rw [cleanChars_eq]
  unfold stackOf
  have e : R ++ ['/'] = R ++ '/' :: [] := rfl
  rw [e, isRooted_append R _ hR, splitSlash_append, List.foldl_append]
  simp [splitSlash, cleanStep]

/-- The directory part of the path of an entry, cleaned, is the cleaned path of
its directory. -/
theorem cleanChars_splitDir (rooted : Bool) (Y : List (List Char)) (n : List Char)
    (hg : GoodStack rooted Y) (hn : ValidName n) :
    cleanChars (splitDir (renderPath rooted (n :: Y))) = renderPath rooted Y := by
  have hnsl : '/' ∉ n := hn.2.1
  have hj : joinSlash (Y.reverse ++ [n]) =
      if Y.reverse = [] then n else joinSlash Y.reverse ++ '/' :: n :=
    joinSlash_append_single _ _
  by_cases hY : Y = []
  · subst hY
    cases rooted with
    | true =>
      have e : renderPath true [n] = [] ++ '/' :: n := by simp [renderPath, joinSlash]
      rw [e, splitDir_append [] n hnsl]
      simp [cleanChars, isRooted, splitSlash, cleanStep, renderPath, joinSlash]
    | false =>
      have e : renderPath false [n] = n := by simp [renderPath, joinSlash]
      rw [e, splitDir_of_not_mem n hnsl]
      simp [cleanChars, isRooted, splitSlash, cleanStep, renderPath]
  · have hYr : Y.reverse ≠ [] := by simpa using hY
    rw [if_neg hYr] at hj
    have hR := renderPath_ne_nil rooted Y hg
    obtain ⟨h1, h2⟩ := renderPath_roundtrip rooted Y hg
    have e : renderPath rooted (n :: Y) = renderPath rooted Y ++ '/' :: n := by
      cases rooted with
      | true => simp [renderPath, hj]
      | false => simp [renderPath, hj, hY]
    rw [e, splitDir_append _ n hnsl, cleanChars_trailing _ hR, h1, h2]

theorem foldChar_eq_dot (c : Char) (h : foldChar c = foldChar '.') : c = '.' := by
  have h46 : foldChar '.' = 46 := by decide
  rw [h46] at h
  unfold foldChar at h
  have hc : c.toNat = 46 := by
    by_cases hb : 65 ≤ c.toNat ∧ c.toNat ≤ 90
    · rw [if_pos hb] at h; omega
    · rw [if_neg hb] at h; exact h
  have := Char.ofNat_toNat c
  rw [hc] at this
  rw [← this]

theorem length_joinSlash_append_single (l : List (List Char)) (x : List Char) (hl : l ≠ []) :
    (joinSlash (l ++ [x])).length = (joinSlash l).length + 1 + x.length := by
  rw [joinSlash_append_single, if_neg hl]
  simp
  omega

theorem length_renderPath_push (rooted : Bool) (S : List (List Char)) (n : List Char)
    (hn : ValidName n) (h : rooted = true ∨ S ≠ []) :
    (renderPath rooted S).length < (renderPath rooted (n :: S)).length := by
  have hn0 : 0 < n.length := List.length_pos.mpr hn.1
  by_cases hS : S = []
  · subst hS
    rcases h with h | h
    · subst h
      simp [renderPath, joinSlash]
      omega
    · exact absurd rfl h
  · have hSr : S.reverse ≠ [] := by simpa using hS
    have e := length_joinSlash_append_single S.reverse n hSr
    cases rooted with
    | true =>
      simp only [renderPath, if_true, List.reverse_cons, List.length_cons, e]
      omega
    | false =>
      have hc : n :: S ≠ [] := List.cons_ne_nil _ _
      simp only [renderPath, Bool.false_eq_true, if_false, hS, hc, List.reverse_cons, e]
      omega

theorem length_renderPath_append (rooted : Bool) (S X : List (List Char))
    (hX : ∀ x ∈ X, ValidName x) (hXe : X ≠ []) (h : rooted = true ∨ S ≠ []) :
    (renderPath rooted S).length < (renderPath rooted (X ++ S)).length := by
  induction X with
  | nil => exact absurd rfl hXe
  | cons x rest ih =>
    have hx := hX x (List.mem_cons_self _ _)
    by_cases hr : rest = []
    · subst hr
      exact length_renderPath_push rooted S x hx h
    · have h1 := ih (fun y hy => hX y (List.mem_cons_of_mem _ hy)) hr
      have h2 := length_renderPath_push rooted (rest ++ S) x hx (Or.inr (by simp [hr]))
      exact lt_trans h1 h2

/-- The cleaned path of a directory below the root does not fold to the
cleaned root. -/
theorem renderPath_fold_ne (rooted : Bool) (S X : List (List Char))
    (hg : GoodStack rooted S) (hX : ∀ x ∈ X, ValidName x) (hXe : X ≠ []) :
    (renderPath rooted (X ++ S)).map foldChar ≠ (renderPath rooted S).map foldChar := by
  intro heq
  have hlen : (renderPath rooted (X ++ S)).length = (renderPath rooted S).length := by
    have := congrArg List.length heq
    simpa using this
  by_cases h : rooted = true ∨ S ≠ []
  · have := length_renderPath_append rooted S X hX hXe h
    omega
  · have hr : rooted = false := by
      cases rooted with
      | true => exact absurd (Or.inl rfl) h
      | false => rfl
    have hS : S = [] := by
      by_contra hc
      exact h (Or.inr hc)
    subst hr
    subst hS
    have hdot : renderPath false [] = ['.'] := by simp [renderPath]
    rw [hdot] at heq hlen
    simp only [List.append_nil] at heq hlen
    cases X with
    | nil => exact absurd rfl hXe
    | cons x rest =>
      have hx := hX x (List.mem_cons_self _ _)
      by_cases hrest : rest = []
      · subst hrest
        have e : renderPath false [x] = x := by simp [renderPath, joinSlash]
        rw [e] at heq hlen
        cases x with
        | nil => exact hx.1 rfl
        | cons c cs =>
          cases cs with
          | nil =>
            simp only [List.map_cons, List.map_nil, List.cons.injEq, and_true] at heq
            have := foldChar_eq_dot c heq
            subst this
            exact hx.2.2.1 rfl
          | cons d ds => simp at hlen
      · have h1 := length_renderPath_push false rest x hx (Or.inr hrest)
        have hgr : GoodStack false rest :=
          by simpa using goodStack_push false rest [] (fun y hy => hX y (List.mem_cons_of_mem _ hy)) trivial
        have h2 := List.length_pos.mpr (renderPath_ne_nil false rest hgr)
        simp only [List.length_cons, List.length_nil] at hlen
        omega

/-- The test of `isFileInRoot` on the path of an entry: true exactly for the
entries of the root directory itself. -/
theorem isFileInRoot_pathChars (r : List Char) (X : List (List Char)) (n : List Char)
    (hX : ∀ x ∈ X, ValidName x) (hn : ValidName n) :
    isFileInRoot (String.mk r) (String.mk (pathChars r (n :: X))) = decide (X = []) := by
  have hgS := goodStack_stackOf r
  have hg : GoodStack (isRooted r) (X ++ stackOf r) := goodStack_push _ X _ hX hgS
  unfold isFileInRoot EqualFold Clean
  simp only
  have hp : pathChars r (n :: X) = renderPath (isRooted r) (n :: (X ++ stackOf r)) := by
    simp [pathChars]
  rw [hp, cleanChars_splitDir _ _ n hg hn, cleanChars_eq r]
  by_cases hXe : X = []
  · subst hXe
    simp
  · have := renderPath_fold_ne (isRooted r) (stackOf r) X hgS hX hXe
    simp [hXe, this]

/-! ## The walk: auxiliary facts -/

theorem entryPath_nil (root : String) : entryPath root [] = root := by
  simp [entryPath, pathChars]

theorem join_entryPath (root : String) (below : List String) (name : String)
    (hb : ∀ x ∈ below, ValidName x.data) (hn : ValidName name.data) :
    Join (entryPath root below) name = entryPath root (name :: below) := by
  have hX : ∀ x ∈ below.map String.data, ValidName x := by
    intro x hx
    obtain ⟨y, hy, rfl⟩ := List.mem_map.mp hx
    exact hb y hy
  have h := join_pathChars root.data (below.map String.data) name.data hX hn
  exact String.ext h

theorem isFileInRoot_entryPath (root : String) (below : List String) (name : String)
    (hb : ∀ x ∈ below, ValidName x.data) (hn : ValidName name.data) :
    isFileInRoot root (entryPath root (name :: below)) = decide (below = []) := by
  have hX : ∀ x ∈ below.map String.data, ValidName x := by
    intro x hx
    obtain ⟨y, hy, rfl⟩ := List.mem_map.mp hx
    exact hb y hy
  have h := isFileInRoot_pathChars root.data (below.map String.data) name.data hX hn
  have e : (decide (below.map String.data = []) : Bool) = decide (below = []) := by
    cases below <;> simp
  rw [← e, ← h]
  rfl

theorem walkFn_file (root : String) (ign : Option (String → Bool)) (files : List String)
    (path : String) :
    (walkFn root ign files path false).1 =
      if isIgnored ign path then files
      else if isFileInRoot root path then path :: files else files ++ [path] := by
  unfold walkFn
  by_cases h1 : isIgnored ign path = true
  · simp [h1]
  · by_cases h2 : isFileInRoot root path = true
    · simp [h1, h2]
    · simp [h1, h2]

theorem walkFn_dir (root : String) (ign : Option (String → Bool)) (files : List String)
    (path : String) :
    walkFn root ign files path true =
      if isIgnored ign path then (files, true) else (files ++ [path], false) := by
  unfold walkFn
  by_cases h1 : isIgnored ign path = true
  · simp [h1]
  · simp [h1]

/-- The walk of a listing against the recorded entries: the files directly
inside the root go to the front, last found first, every other entry to the
end. -/
theorem walkEntries_visited (root : String) (ign : Option (String → Bool)) (es : Entries) :
    ∀ (below : List String) (files : List String),
      (∀ x ∈ below, ValidName x.data) → validEntries es = true →
      walkEntries root ign (entryPath root below) es files =
        (((visitedEntries ign (entryPath root below) (below.length + 1) es).filter
            isRootFile).map Visit.path).reverse ++ files ++
          ((visitedEntries ign (entryPath root below) (below.length + 1) es).filter
            (fun v => !isRootFile v)).map Visit.path := by
  induction es with
  | nil =>
    intro below files _ _
    simp [walkEntries, visitedEntries]
  | file name rest ih =>
    intro below files hb hv
    simp only [validEntries, Bool.and_eq_true, decide_eq_true_eq] at hv
    obtain ⟨hn, hrest⟩ := hv
    have hj := join_entryPath root below name hb hn
    have hf := isFileInRoot_entryPath root below name hb hn
    simp only [walkEntries, visitedEntries, walkFn_file, hj, hf]
    rw [ih below _ hb hrest]
    by_cases hi : isIgnored ign (entryPath root (name :: below)) = true
    · simp [hi]
    · by_cases hbe : below = []
      · subst hbe
        simp [hi, isRootFile]
      · have hl : below.length ≠ 0 := fun h => hbe (List.length_eq_zero.mp h)
        simp [hi, hbe, isRootFile, hl]
  | dir name children rest ihc ihr =>
    intro below files hb hv
    simp only [validEntries, Bool.and_eq_true, decide_eq_true_eq] at hv
    obtain ⟨⟨hn, hch⟩, hrest⟩ := hv
    have hj := join_entryPath root below name hb hn
    have hb2 : ∀ x ∈ name :: below, ValidName x.data := by
      intro x hx
      rcases List.mem_cons.mp hx with h | h
      · rw [h]; exact hn
      · exact hb x h
    simp only [walkEntries, visitedEntries, walkFn_dir, hj]
    by_cases hi : isIgnored ign (entryPath root (name :: below)) = true
    · simp only [hi, if_true, List.nil_append]
      exact ihr below _ hb hrest
    · simp only [hi, Bool.false_eq_true, if_false]
      rw [ihr below _ hb hrest, ihc (name :: below) _ hb2 hch]
      simp [isRootFile, List.filter_append]

/-- The walk from the root against the recorded entries. -/
theorem Walk_visited (root : String) (ign : Option (String → Bool)) (node : Node)
    (hv : validNode node = true) :
    Walk root ign node =
      (((visited ign root node).filter isRootFile).map Visit.path).reverse ++
        ((visited ign root node).filter (fun v => !isRootFile v)).map Visit.path := by
  cases node with
  | file =>
    simp only [Walk, visited, walkFn_file]
    by_cases hi : isIgnored ign root = true
    · simp [hi]
    · by_cases hf : isFileInRoot root root = true
      · simp [hi, hf, isRootFile]
      · simp [hi, hf, isRootFile]
  | dir es =>
    simp only [Walk, visited, walkFn_dir]
    by_cases hi : isIgnored ign root = true
    · simp [hi]
    · have h := walkEntries_visited root ign es [] ([] ++ [root]) (by simp) hv
      rw [entryPath_nil] at h
      simp only [hi, Bool.false_eq_true, if_false]
      rw [h]
      simp [isRootFile]

/-- No recorded path is matched by the loaded matcher, beyond what was in the
slice before. -/
theorem walkEntries_not_ignored (root : String) (m : String → Bool) (es : Entries) :
    ∀ (dirPath : String) (files : List String),
      ∀ p ∈ walkEntries root (some m) dirPath es files, p ∈ files ∨ m p = false := by
  induction es with
  | nil =>
    intro dirPath files p hp
    exact Or.inl hp
  | file name rest ih =>
    intro dirPath files p hp
    simp only [walkEntries, walkFn_file] at hp
    rcases ih dirPath _ p hp with h | h
    · by_cases hi : isIgnored (some m) (Join dirPath name) = true
      · rw [if_pos hi] at h; exact Or.inl h
      · rw [if_neg hi] at h
        have hm : m (Join dirPath name) = false := by simpa [isIgnored] using hi
        by_cases hf : isFileInRoot root (Join dirPath name) = true
        · rw [if_pos hf] at h
          rcases List.mem_cons.mp h with h | h
          · right; rw [h]; exact hm
          · exact Or.inl h
        · rw [if_neg hf] at h
          rcases List.mem_append.mp h with h | h
          · exact Or.inl h
          · right; rw [List.mem_singleton.mp h]; exact hm
    · exact Or.inr h
  | dir name children rest ihc ihr =>
    intro dirPath files p hp
    simp only [walkEntries, walkFn_dir] at hp
    rcases ihr dirPath _ p hp with h | h
    · by_cases hi : isIgnored (some m) (Join dirPath name) = true
      · simp only [hi, if_true] at h; exact Or.inl h
      · simp only [hi, Bool.false_eq_true, if_false] at h
        have hm : m (Join dirPath name) = false := by simpa [isIgnored] using hi
        rcases ihc _ _ p h with h | h
        · rcases List.mem_append.mp h with h | h
          · exact Or.inl h
          · right; rw [List.mem_singleton.mp h]; exact hm
        · exact Or.inr h
    · exact Or.inr h

/-- With a matcher loaded the walk is the walk, without matcher, of the pruned
listing. -/
theorem walkEntries_prune (root : String) (m : String → Bool) (es : Entries) :
    ∀ (dirPath : String) (files : List String),
      walkEntries root (some m) dirPath es files =
        walkEntries root none dirPath (prune m dirPath es) files := by
  induction es with
  | nil =>
    intro dirPath files
    simp [walkEntries, prune]
  | file name rest ih =>
    intro dirPath files
    simp only [walkEntries, prune, walkFn_file]
    by_cases hi : m (Join dirPath name) = true
    · simp only [isIgnored, hi, if_true]
      exact ih dirPath files
    · simp only [isIgnored, hi, Bool.false_eq_true, if_false, walkEntries, walkFn_file]
      exact ih dirPath _
  | dir name children rest ihc ihr =>
    intro dirPath files
    simp only [walkEntries, prune, walkFn_dir]
    by_cases hi : m (Join dirPath name) = true
    · simp only [isIgnored, hi, if_true]
      exact ihr dirPath files
    · simp only [isIgnored, hi, Bool.false_eq_true, if_false, walkEntries, walkFn_dir]
      rw [ihc, ihr]

theorem Walk_not_ignored (root : String) (m : String → Bool) (node : Node) :
    ∀ p ∈ Walk root (some m) node, m p = false := by
  intro p hp
  cases node with
  | file =>
    simp only [Walk, walkFn_file] at hp
    by_cases hi : isIgnored (some m) root = true
    · simp [hi] at hp
    · have hm : m root = false := by simpa [isIgnored] using hi
      by_cases hf : isFileInRoot root root = true
      · simp [hi, hf] at hp; rw [hp]; exact hm
      · simp [hi, hf] at hp; rw [hp]; exact hm
  | dir es =>
    simp only [Walk, walkFn_dir] at hp
    by_cases hi : isIgnored (some m) root = true
    · simp [hi] at hp
    · have hm : m root = false := by simpa [isIgnored] using hi
      simp only [hi, Bool.false_eq_true, if_false] at hp
      rcases walkEntries_not_ignored root m es root _ p hp with h | h
      · simp at h; rw [h]; exact hm
      · exact h

theorem Walk_prune (root : String) (m : String → Bool) (node : Node) :
    Walk root (some m) node =
      if m root then [] else Walk root none (pruneNode m root node) := by
  cases node with
  | file =>
    simp only [Walk, walkFn_file, pruneNode]
    by_cases hi : m root = true
    · simp [isIgnored, hi]
    · simp [isIgnored, hi]
  | dir es =>
    simp only [Walk, walkFn_dir, pruneNode]
    by_cases hi : m root = true
    · simp [isIgnored, hi]
    · simp only [isIgnored, hi, Bool.false_eq_true, if_false]
      exact walkEntries_prune root m es root _

/-- No language is reported when no path has an extension with a contributing
candidate. -/
theorem analyzePaths_eq_nil (languagesFile : LanguageFile) (enr : String → Option Enricher)
    (paths : List String) (o1 o2 : List Nat)
    (h : ∀ p ∈ paths, (Ext p).length = 0 ∨ resolvedNames languagesFile (Ext p) = []) :
    analyzePaths languagesFile enr paths o1 o2 = [] := by
  apply List.eq_nil_iff_forall_not_mem.mpr
  intro l hl
  obtain ⟨entry, he, _⟩ := (mem_analyzePaths languagesFile enr paths o1 o2 l).mp hl
  have hk : entry.1 ∈ keys (extensionLoop languagesFile (extractExtensions paths)
      o1).languagesDetected := List.mem_map_of_mem Prod.fst he
  obtain ⟨p, hp, h1, h2⟩ := ((extensionLoop_by_paths languagesFile paths o1).2.2.2 entry.1).mp hk
  rcases h p hp with h3 | h3
  · exact h1 h3
  · rw [h3] at h2; simp at h2

/-! ## Truncation against the exact share: auxiliary facts -/

/-- Rounding error of the share before truncation: lower side. -/
theorem le_units (w T : Nat) (hT : 0 < T) :
    10000 * ((w : ℚ) / (T : ℚ)) * ((1 - 1 / 2 ^ 53) ^ 3 / (1 + 1 / 2 ^ 53)) ≤
      f64 (rawWeight w T * 10000) := by
  have hw : (0 : ℚ) ≤ (w : ℚ) := Nat.cast_nonneg w
  have hTq : (0 : ℚ) < (T : ℚ) := by exact_mod_cast hT
  have ha := le_f64 hw
  have hb := f64_le (le_of_lt hTq)
  have hfT : (0 : ℚ) < f64 (T : ℚ) := f64_natCast_pos hT
  have e0 : (0 : ℚ) ≤ 1 - 1 / 2 ^ 53 := by norm_num
  have hq : (w : ℚ) * (1 - 1 / 2 ^ 53) / ((T : ℚ) * (1 + 1 / 2 ^ 53)) ≤
      f64 (w : ℚ) / f64 (T : ℚ) :=
    div_le_div₀ (f64_nonneg hw) ha hfT hb
  have hq0 : 0 ≤ f64 (w : ℚ) / f64 (T : ℚ) :=
    div_nonneg (f64_nonneg hw) (le_of_lt hfT)
  have hr : f64 (w : ℚ) / f64 (T : ℚ) * (1 - 1 / 2 ^ 53) ≤ rawWeight w T := le_f64 hq0
  have hr0 := rawWeight_nonneg w T
  have hy0 : 0 ≤ rawWeight w T * 10000 := mul_nonneg hr0 (by norm_num)
  have hy := le_f64 hy0
  have h1 : (w : ℚ) * (1 - 1 / 2 ^ 53) / ((T : ℚ) * (1 + 1 / 2 ^ 53)) * (1 - 1 / 2 ^ 53) ≤
      rawWeight w T :=
    le_trans (mul_le_mul_of_nonneg_right hq e0) hr
  have h2 : (w : ℚ) * (1 - 1 / 2 ^ 53) / ((T : ℚ) * (1 + 1 / 2 ^ 53)) * (1 - 1 / 2 ^ 53) * 10000 *
        (1 - 1 / 2 ^ 53) ≤ rawWeight w T * 10000 * (1 - 1 / 2 ^ 53) :=
    mul_le_mul_of_nonneg_right (mul_le_mul_of_nonneg_right h1 (by norm_num)) e0
  have h3 : (w : ℚ) * (1 - 1 / 2 ^ 53) / ((T : ℚ) * (1 + 1 / 2 ^ 53)) * (1 - 1 / 2 ^ 53) * 10000 *
        (1 - 1 / 2 ^ 53) =
      10000 * ((w : ℚ) / (T : ℚ)) * ((1 - 1 / 2 ^ 53) ^ 3 / (1 + 1 / 2 ^ 53)) := by
    have hT0 : (T : ℚ) ≠ 0 := ne_of_gt hTq
    field_simp
    ring
  linarith

/-- For weights below `2 ^ 37` the truncation of line 76 loses at most one
ten-thousandth against the exact share. -/
theorem floor_pred_le_truncUnits (w T : Nat) (hT : 0 < T) (hw : w < 2 ^ 37) :
    ⌊(10000 * (w : ℚ)) / (T : ℚ)⌋ - 1 ≤ truncUnits w T := by
  have hTq : (0 : ℚ) < (T : ℚ) := by exact_mod_cast hT
  have hT1 : (1 : ℚ) ≤ (T : ℚ) := by exact_mod_cast hT
  have hwq : (w : ℚ) < 2 ^ 37 := by exact_mod_cast hw
  have hw0 : (0 : ℚ) ≤ (w : ℚ) := Nat.cast_nonneg w
  have hK := le_units w T hT
  have hr0 := rawWeight_nonneg w T
  have hy0 : 0 ≤ rawWeight w T * 10000 := mul_nonneg hr0 (by norm_num)
  unfold truncUnits
  rw [goInt_of_nonneg (f64_nonneg hy0)]
  apply Int.le_floor.mpr
  have hq0 : (0 : ℚ) ≤ 10000 * (w : ℚ) / (T : ℚ) := div_nonneg (by linarith) (le_of_lt hTq)
  have hqle : 10000 * (w : ℚ) / (T : ℚ) ≤ 10000 * 2 ^ 37 := by
    rw [div_le_iff₀ hTq]
    have : (10000 : ℚ) * (w : ℚ) ≤ 10000 * 2 ^ 37 * 1 := by linarith
    exact le_trans this (mul_le_mul_of_nonneg_left hT1 (by norm_num))
  have hfl : ((⌊10000 * (w : ℚ) / (T : ℚ)⌋ : ℤ) : ℚ) ≤ 10000 * (w : ℚ) / (T : ℚ) :=
    Int.floor_le _
  have e : 10000 * ((w : ℚ) / (T : ℚ)) * ((1 - 1 / 2 ^ 53) ^ 3 / (1 + 1 / 2 ^ 53)) =
      10000 * (w : ℚ) / (T : ℚ) -
        10000 * (w : ℚ) / (T : ℚ) * (1 - (1 - 1 / 2 ^ 53) ^ 3 / (1 + 1 / 2 ^ 53)) := by ring
  have e2 : (0 : ℚ) ≤ 1 - ((1 : ℚ) - 1 / 2 ^ 53) ^ 3 / (1 + 1 / 2 ^ 53) := by norm_num
  have e3 : (10000 * 2 ^ 37 : ℚ) * (1 - ((1 : ℚ) - 1 / 2 ^ 53) ^ 3 / (1 + 1 / 2 ^ 53)) < 1 := by
    norm_num
  have e4 : 10000 * (w : ℚ) / (T : ℚ) * (1 - ((1 : ℚ) - 1 / 2 ^ 53) ^ 3 / (1 + 1 / 2 ^ 53)) ≤
      (10000 * 2 ^ 37 : ℚ) * (1 - ((1 : ℚ) - 1 / 2 ^ 53) ^ 3 / (1 + 1 / 2 ^ 53)) :=
    mul_le_mul_of_nonneg_right hqle e2
  push_cast
  linarith

/-- For counters in range, the test of line 77 on the exact share: kept exactly
from 201 ten-thousandths. -/
theorem keep_iff_share (w T : Nat) (hT : 0 < T) (hT2 : T < 2 ^ 53) (hw : w < 2 ^ 37) :
    201 ≤ truncUnits w T ↔ 201 * T ≤ 10000 * w := by
  have hTq : (0 : ℚ) < (T : ℚ) := by exact_mod_cast hT
  constructor
  · intro h
    have h1 := truncUnits_le_floor w T hT hw
    have h2 : (201 : ℤ) ≤ ⌊(10000 * (w : ℚ)) / (T : ℚ)⌋ := le_trans h h1
    have h3 := Int.le_floor.mp h2
    rw [le_div_iff₀ hTq] at h3
    have h4 : ((201 * T : ℕ) : ℚ) ≤ ((10000 * w : ℕ) : ℚ) := by
      push_cast
      push_cast at h3
      linarith
    exact_mod_cast h4
  · intro h
    exact le_truncUnits_of_share w T hT hT2 (lt_trans hw (by norm_num)) h

/-! ## The claims -/

/-- C1, counterexample: for four `.asm` files, an extension whose two
candidates (Assembly and one of its dialects) both contribute to Assembly, the
reported weight is 200, above 100. -/
theorem C1_counterexample :
    ¬ (∀ l ∈ analyzePaths sampleKB noEnricher (sampleFiles 4 "src/" ".asm") [] [],
        2 < l.Weight ∧ l.Weight ≤ 100) := by
  decide!

/-- C1, amended: every language returned by `Analyze` has a weight strictly
greater than 2, for every path list, knowledge base and visiting order; the
weight is at most 100 when no extension of the collected paths has two
candidates that contribute to the same canonical language. -/
theorem C1_weight_bounds (languagesFile : LanguageFile) (enr : String → Option Enricher)
    (paths : List String) (o1 o2 : List Nat) :
    (∀ l ∈ analyzePaths languagesFile enr paths o1 o2, 2 < l.Weight) ∧
    ((∀ p ∈ paths, (Ext p).length ≠ 0 → (resolvedNames languagesFile (Ext p)).Nodup) →
      ∀ l ∈ analyzePaths languagesFile enr paths o1 o2, l.Weight ≤ 100) := by
  constructor
  · intro l hl
    obtain ⟨entry, _, he⟩ := (mem_analyzePaths languagesFile enr paths o1 o2 l).mp hl
    obtain ⟨_, hw, hk⟩ := languageOf_some _ _ _ _ _ he
    rw [hw, pct_gt_iff]
    exact (keep_iff _ _).mp hk
  · intro hH l hl
    obtain ⟨entry, hentry, he⟩ := (mem_analyzePaths languagesFile enr paths o1 o2 l).mp hl
    obtain ⟨_, hw, _⟩ := languageOf_some _ _ _ _ _ he
    rw [hw]
    exact percentage_le_hundred (weight_le_total languagesFile paths o1 hH entry hentry)

/-- C1, witness: 57 `.go` files and 43 `.py` files. -/
theorem C1_weight_bounds_witness :
    (∀ p ∈ sampleFiles 57 "src/" ".go" ++ sampleFiles 43 "tools/" ".py",
      (Ext p).length ≠ 0 → (resolvedNames sampleKB (Ext p)).Nodup) ∧
    (∀ l ∈ analyzePaths sampleKB noEnricher
        (sampleFiles 57 "src/" ".go" ++ sampleFiles 43 "tools/" ".py") [] [],
      l.Weight ≤ 100) :=
  ⟨by decide!,
   (C1_weight_bounds sampleKB noEnricher
      (sampleFiles 57 "src/" ".go" ++ sampleFiles 43 "tools/" ".py") [] []).2 (by decide!)⟩

/-- C2, counterexample: five `.h` files, an extension shared by C and C++, are
reported as C 100 and C++ 100, in sum 200; and 9 `.go` files with 11 `.py`
files, one candidate per extension, are reported as 45 and
55.00000000000001, in sum above 100. -/
theorem C2_counterexample :
    ¬ (((analyzePaths sampleKB noEnricher (sampleFiles 5 "include/" ".h") [] []).map
        Language.Weight).sum ≤ 100) ∧
    ¬ (((analyzePaths sampleKB noEnricher
        (sampleFiles 9 "src/" ".go" ++ sampleFiles 11 "tools/" ".py") [] []).map
        Language.Weight).sum ≤ 100) := by
  decide!

/-- C2, amended: when every extension of the collected paths has at most one
candidate that contributes to a canonical language, the truncated
ten-thousandths `int(tmpWeight*10000)` of all detected languages add up to at
most 10000, and the reported weights add up to at most 100 up to the three
binary64 roundings behind each weight, a factor `(1 + 2 ^ (-53)) ^ 3`. -/
theorem C2_sum_bound (languagesFile : LanguageFile) (enr : String → Option Enricher)
    (paths : List String) (o1 o2 : List Nat)
    (hH : ∀ p ∈ paths, (Ext p).length ≠ 0 →
      (resolvedNames languagesFile (Ext p)).length ≤ 1) :
    (((extensionLoop languagesFile (extractExtensions paths) o1).languagesDetected.map
        (fun en => truncUnits en.2.weight
          (extensionLoop languagesFile (extractExtensions paths)
            o1).totalProgrammingOccurrences)).sum ≤ 10000) ∧
    (((analyzePaths languagesFile enr paths o1 o2).map Language.Weight).sum ≤
      100 * (1 + 1 / 2 ^ 53) ^ 3) := by
  have hunits : ((extensionLoop languagesFile (extractExtensions paths) o1).languagesDetected.map
        (fun en => truncUnits en.2.weight
          (extensionLoop languagesFile (extractExtensions paths)
            o1).totalProgrammingOccurrences)).sum ≤ 10000 := by
    by_cases hd : (extensionLoop languagesFile (extractExtensions paths) o1).languagesDetected = []
    · rw [hd]; simp
    · exact sum_truncUnits_le _ (total_pos_of_detected languagesFile paths o1 hd) _
        (sumWeights_le_total languagesFile paths o1 hH)
  refine ⟨hunits, ?_⟩
  unfold analyzePaths languagesFound
  simp only
  rw [((sortByWeight_perm _).map Language.Weight).sum_eq]
  refine le_trans (sum_weights_le enr paths _ _) ?_
  have hperm := rangeOrder_perm o2
    (extensionLoop languagesFile (extractExtensions paths) o1).languagesDetected
  rw [(hperm.map _).sum_eq]
  have h1 : ((((extensionLoop languagesFile (extractExtensions paths) o1).languagesDetected.map
        (fun en => truncUnits en.2.weight
          (extensionLoop languagesFile (extractExtensions paths)
            o1).totalProgrammingOccurrences)).sum : ℤ) : ℚ) ≤ ((10000 : ℤ) : ℚ) := by
    exact_mod_cast hunits
  have e : ((10000 : ℤ) : ℚ) = 10000 := by norm_num
  rw [e] at h1
  have h2 : (0 : ℚ) ≤ (1 + 1 / 2 ^ 53) ^ 3 := by positivity
  calc _ ≤ (10000 : ℚ) / 100 * (1 + 1 / 2 ^ 53) ^ 3 :=
        mul_le_mul_of_nonneg_right (div_le_div_of_nonneg_right h1 (by norm_num)) h2
    _ = 100 * (1 + 1 / 2 ^ 53) ^ 3 := by norm_num

/-- C2, witness: 9 `.go` files and 11 `.py` files. -/
theorem C2_sum_bound_witness :
    (∀ p ∈ sampleFiles 9 "src/" ".go" ++ sampleFiles 11 "tools/" ".py",
      (Ext p).length ≠ 0 → (resolvedNames sampleKB (Ext p)).length ≤ 1) ∧
    (((analyzePaths sampleKB noEnricher
        (sampleFiles 9 "src/" ".go" ++ sampleFiles 11 "tools/" ".py") [] []).map
        Language.Weight).sum ≤ 100 * (1 + 1 / 2 ^ 53) ^ 3) :=
  ⟨by decide!,
   (C2_sum_bound sampleKB noEnricher
      (sampleFiles 9 "src/" ".go" ++ sampleFiles 11 "tools/" ".py") [] [] (by decide!)).2⟩

/-- C3: whenever `totalProgrammingOccurrences` is zero after the extension
loop, `languagesDetected` is empty, so the body of the second loop with its
division never runs, and `Analyze` returns an empty result; whenever
`languagesDetected` is non-empty the denominator is strictly positive. -/
theorem C3_zero_denominator (languagesFile : LanguageFile) (enr : String → Option Enricher)
    (paths : List String) (o1 o2 : List Nat) :
    ((extensionLoop languagesFile (extractExtensions paths) o1).totalProgrammingOccurrences = 0 →
      (extensionLoop languagesFile (extractExtensions paths) o1).languagesDetected = [] ∧
      analyzePaths languagesFile enr paths o1 o2 = []) ∧
    ((extensionLoop languagesFile (extractExtensions paths) o1).languagesDetected ≠ [] →
      0 < (extensionLoop languagesFile (extractExtensions paths)
        o1).totalProgrammingOccurrences) := by
  refine ⟨?_, total_pos_of_detected languagesFile paths o1⟩
  intro h0
  have hd : (extensionLoop languagesFile (extractExtensions paths) o1).languagesDetected = [] := by
    by_contra hne
    have := total_pos_of_detected languagesFile paths o1 hne
    omega
  refine ⟨hd, ?_⟩
  unfold analyzePaths languagesFound
  simp only
  rw [hd]
  cases o2 <;> simp [rangeOrder, sortByWeight]

/-- C3, witness: a tree with prose and a dialect of an unknown group only, and a
tree with one `.go` file. -/
theorem C3_zero_denominator_witness :
    ((extensionLoop sampleKB (extractExtensions ["README.md", "contracts/token.vy"])
        []).totalProgrammingOccurrences = 0 ∧
      (extensionLoop sampleKB (extractExtensions ["README.md", "contracts/token.vy"])
        []).languagesDetected = [] ∧
      analyzePaths sampleKB noEnricher ["README.md", "contracts/token.vy"] [] [] = []) ∧
    ((extensionLoop sampleKB (extractExtensions ["main.go"]) []).languagesDetected ≠ [] ∧
      0 < (extensionLoop sampleKB (extractExtensions ["main.go"])
        []).totalProgrammingOccurrences) :=
  ⟨⟨by decide!,
    (C3_zero_denominator sampleKB noEnricher ["README.md", "contracts/token.vy"] [] []).1
      (by decide!)⟩,
   ⟨by decide!,
    (C3_zero_denominator sampleKB noEnricher ["main.go"] [] []).2 (by decide!)⟩⟩


/-- C4, counterexample: for 57 `.go` files among 100 files of programming
languages the accumulated weight is 57 and the denominator 100, so
`floor(10000 * w / T) / 10000 * 100` is 57, yet Go is reported with the
binary64 value 56.99: the product `0.57 * 10000` is `5699.999...` in binary64
and is truncated to 5699. -/
theorem C4_counterexample :
    weightOf (extensionLoop sampleKB (extractExtensions
        (sampleFiles 57 "src/" ".go" ++ sampleFiles 43 "tools/" ".py")) []).languagesDetected
      "Go" = 57 ∧
    (extensionLoop sampleKB (extractExtensions
        (sampleFiles 57 "src/" ".go" ++ sampleFiles 43 "tools/" ".py"))
      []).totalProgrammingOccurrences = 100 ∧
    (analyzePaths sampleKB noEnricher
        (sampleFiles 57 "src/" ".go" ++ sampleFiles 43 "tools/" ".py") [] []).map nameWeight =
      [("Go", 4010314730685071 / 70368744177664), ("Python", 43)] ∧
    (4010314730685071 / 70368744177664 : ℚ) ≠
      ((⌊(10000 * 57 / 100 : ℚ)⌋ : ℤ) : ℚ) / 10000 * 100 := by
  decide!

/-- C4, amended: every reported language comes from an entry of
`languagesDetected` with accumulated weight `w`; with `T` the denominator and
`n = int(tmpWeight*10000)` the truncated ten-thousandths, its weight is the
binary64 value of `float64(n) / 10000 * 100`, which is `n / 100` up to three
roundings; and for `w` below `2 ^ 37` the truncation never rounds up and loses
at most one ten-thousandth: `n` is `floor(10000 * w / T)` or one less, so the
weight lies between `(floor(10000 * w / T) - 1) / 100` and
`floor(10000 * w / T) / 100` up to the three roundings. -/
theorem C4_truncation (languagesFile : LanguageFile) (enr : String → Option Enricher)
    (paths : List String) (o1 o2 : List Nat) (l : Language)
    (hl : l ∈ analyzePaths languagesFile enr paths o1 o2) :
    ∃ entry ∈ (extensionLoop languagesFile (extractExtensions paths) o1).languagesDetected,
      l.Name = entry.1 ∧
      l.Weight = f64 (f64 (f64 ((truncUnits entry.2.weight
        (extensionLoop languagesFile (extractExtensions paths)
          o1).totalProgrammingOccurrences : ℤ) : ℚ) / 10000) * 100) ∧
      ((truncUnits entry.2.weight (extensionLoop languagesFile (extractExtensions paths)
          o1).totalProgrammingOccurrences : ℚ) / 100 * (1 - 1 / 2 ^ 53) ^ 3 ≤ l.Weight) ∧
      (l.Weight ≤ (truncUnits entry.2.weight (extensionLoop languagesFile
          (extractExtensions paths) o1).totalProgrammingOccurrences : ℚ) / 100 *
            (1 + 1 / 2 ^ 53) ^ 3) ∧
      (entry.2.weight < 2 ^ 37 →
        truncUnits entry.2.weight (extensionLoop languagesFile (extractExtensions paths)
          o1).totalProgrammingOccurrences ≤
        ⌊(10000 * (entry.2.weight : ℚ)) /
          ((extensionLoop languagesFile (extractExtensions paths)
            o1).totalProgrammingOccurrences : ℚ)⌋) ∧
      (entry.2.weight < 2 ^ 37 →
        ⌊(10000 * (entry.2.weight : ℚ)) /
          ((extensionLoop languagesFile (extractExtensions paths)
            o1).totalProgrammingOccurrences : ℚ)⌋ - 1 ≤
        truncUnits entry.2.weight (extensionLoop languagesFile (extractExtensions paths)
          o1).totalProgrammingOccurrences) ∧
      (entry.2.weight < 2 ^ 37 →
        ((⌊(10000 * (entry.2.weight : ℚ)) /
          ((extensionLoop languagesFile (extractExtensions paths)
            o1).totalProgrammingOccurrences : ℚ)⌋ - 1 : ℤ) : ℚ) / 100 *
              (1 - 1 / 2 ^ 53) ^ 3 ≤ l.Weight ∧
        l.Weight ≤ ((⌊(10000 * (entry.2.weight : ℚ)) /
          ((extensionLoop languagesFile (extractExtensions paths)
            o1).totalProgrammingOccurrences : ℚ)⌋ : ℤ) : ℚ) / 100 * (1 + 1 / 2 ^ 53) ^ 3) := by
  obtain ⟨entry, hentry, he⟩ := (mem_analyzePaths languagesFile enr paths o1 o2 l).mp hl
  obtain ⟨hn, hw, _⟩ := languageOf_some _ _ _ _ _ he
  have hT := total_pos_of_detected languagesFile paths o1 (List.ne_nil_of_mem hentry)
  refine ⟨entry, hentry, hn, ?_, ?_, ?_, ?_, ?_, ?_⟩
  · rw [hw]; rfl
  · rw [hw]; exact le_percentage _ _
  · rw [hw]; exact percentage_le _ _
  · intro hsmall
    exact truncUnits_le_floor _ _ hT hsmall
  · intro hsmall
    exact floor_pred_le_truncUnits _ _ hT hsmall
  · intro hsmall
    have h1 := truncUnits_le_floor _ _ hT hsmall
    have h2 := floor_pred_le_truncUnits _ _ hT hsmall
    have h1q : ((truncUnits entry.2.weight (extensionLoop languagesFile
        (extractExtensions paths) o1).totalProgrammingOccurrences : ℤ) : ℚ) ≤
        ((⌊(10000 * (entry.2.weight : ℚ)) /
          ((extensionLoop languagesFile (extractExtensions paths)
            o1).totalProgrammingOccurrences : ℚ)⌋ : ℤ) : ℚ) := by exact_mod_cast h1
    have h2q : ((⌊(10000 * (entry.2.weight : ℚ)) /
          ((extensionLoop languagesFile (extractExtensions paths)
            o1).totalProgrammingOccurrences : ℚ)⌋ - 1 : ℤ) : ℚ) ≤
        ((truncUnits entry.2.weight (extensionLoop languagesFile
          (extractExtensions paths) o1).totalProgrammingOccurrences : ℤ) : ℚ) := by
      exact_mod_cast h2
    have ep : (0 : ℚ) ≤ (1 + 1 / 2 ^ 53) ^ 3 := by norm_num
    have em : (0 : ℚ) ≤ (1 - 1 / 2 ^ 53) ^ 3 := by norm_num
    have hlo := le_percentage entry.2.weight (extensionLoop languagesFile
      (extractExtensions paths) o1).totalProgrammingOccurrences
    have hhi := percentage_le entry.2.weight (extensionLoop languagesFile
      (extractExtensions paths) o1).totalProgrammingOccurrences
    rw [hw]
    constructor
    · refine le_trans ?_ hlo
      exact mul_le_mul_of_nonneg_right (div_le_div_of_nonneg_right h2q (by norm_num)) em
    · refine le_trans hhi ?_
      exact mul_le_mul_of_nonneg_right (div_le_div_of_nonneg_right h1q (by norm_num)) ep

/-- C4, witness: the Go entry of 57 `.go` files and 43 `.py` files, reported
with the binary64 value of 56.99. -/
theorem C4_truncation_witness :
    ∃ entry ∈ (extensionLoop sampleKB (extractExtensions
        (sampleFiles 57 "src/" ".go" ++ sampleFiles 43 "tools/" ".py")) []).languagesDetected,
      "Go" = entry.1 ∧
      (4010314730685071 / 70368744177664 : ℚ) = f64 (f64 (f64 ((truncUnits entry.2.weight
        (extensionLoop sampleKB (extractExtensions
          (sampleFiles 57 "src/" ".go" ++ sampleFiles 43 "tools/" ".py"))
          []).totalProgrammingOccurrences : ℤ) : ℚ) / 10000) * 100) ∧
      ((truncUnits entry.2.weight (extensionLoop sampleKB (extractExtensions
          (sampleFiles 57 "src/" ".go" ++ sampleFiles 43 "tools/" ".py"))
          []).totalProgrammingOccurrences : ℚ) / 100 * (1 - 1 / 2 ^ 53) ^ 3 ≤
        (4010314730685071 / 70368744177664 : ℚ)) ∧
      ((4010314730685071 / 70368744177664 : ℚ) ≤
        (truncUnits entry.2.weight (extensionLoop sampleKB
          (extractExtensions (sampleFiles 57 "src/" ".go" ++ sampleFiles 43 "tools/" ".py"))
          []).totalProgrammingOccurrences : ℚ) / 100 * (1 + 1 / 2 ^ 53) ^ 3) ∧
      (entry.2.weight < 2 ^ 37 →
        truncUnits entry.2.weight (extensionLoop sampleKB (extractExtensions
          (sampleFiles 57 "src/" ".go" ++ sampleFiles 43 "tools/" ".py"))
          []).totalProgrammingOccurrences ≤
        ⌊(10000 * (entry.2.weight : ℚ)) /
          ((extensionLoop sampleKB (extractExtensions
            (sampleFiles 57 "src/" ".go" ++ sampleFiles 43 "tools/" ".py"))
            []).totalProgrammingOccurrences : ℚ)⌋) ∧
      (entry.2.weight < 2 ^ 37 →
        ⌊(10000 * (entry.2.weight : ℚ)) /
          ((extensionLoop sampleKB (extractExtensions
            (sampleFiles 57 "src/" ".go" ++ sampleFiles 43 "tools/" ".py"))
            []).totalProgrammingOccurrences : ℚ)⌋ - 1 ≤
        truncUnits entry.2.weight (extensionLoop sampleKB (extractExtensions
          (sampleFiles 57 "src/" ".go" ++ sampleFiles 43 "tools/" ".py"))
          []).totalProgrammingOccurrences) ∧
      (entry.2.weight < 2 ^ 37 →
        ((⌊(10000 * (entry.2.weight : ℚ)) /
          ((extensionLoop sampleKB (extractExtensions
            (sampleFiles 57 "src/" ".go" ++ sampleFiles 43 "tools/" ".py"))
            []).totalProgrammingOccurrences : ℚ)⌋ - 1 : ℤ) : ℚ) / 100 *
              (1 - 1 / 2 ^ 53) ^ 3 ≤ (4010314730685071 / 70368744177664 : ℚ) ∧
        (4010314730685071 / 70368744177664 : ℚ) ≤
          ((⌊(10000 * (entry.2.weight : ℚ)) /
            ((extensionLoop sampleKB (extractExtensions
              (sampleFiles 57 "src/" ".go" ++ sampleFiles 43 "tools/" ".py"))
              []).totalProgrammingOccurrences : ℚ)⌋ : ℤ) : ℚ) / 100 * (1 + 1 / 2 ^ 53) ^ 3) :=
  C4_truncation sampleKB noEnricher
    (sampleFiles 57 "src/" ".go" ++ sampleFiles 43 "tools/" ".py") [] []
    { Name := "Go", Aliases := [], Weight := 4010314730685071 / 70368744177664,
      Frameworks := [], Tools := [], CanBeComponent := true } (by decide!)

/-- C5: a language accumulated in `languagesDetected` appears in the result of
`Analyze` if and only if its percentage, the truncated share times 100 as
line 81 computes it, is strictly greater than 2; a reported language carries
that percentage as its weight; and for counters in range (weight below
`2 ^ 37`, denominator below `2 ^ 53`) this is the test on the exact share: the
language is reported if and only if `floor(10000 * w / T) / 10000 * 100 > 2`,
that is, if and only if `201 * T ≤ 10000 * w`. -/
theorem C5_significance (languagesFile : LanguageFile) (enr : String → Option Enricher)
    (paths : List String) (o1 o2 : List Nat) (entry : String × languageItem)
    (hentry : entry ∈
      (extensionLoop languagesFile (extractExtensions paths) o1).languagesDetected) :
    ((∃ l ∈ analyzePaths languagesFile enr paths o1 o2, l.Name = entry.1) ↔
      2 < percentage entry.2.weight
        (extensionLoop languagesFile (extractExtensions paths)
          o1).totalProgrammingOccurrences) ∧
    (∀ l ∈ analyzePaths languagesFile enr paths o1 o2, l.Name = entry.1 →
      l.Weight = percentage entry.2.weight
        (extensionLoop languagesFile (extractExtensions paths)
          o1).totalProgrammingOccurrences ∧ 2 < l.Weight) ∧
    (entry.2.weight < 2 ^ 37 →
      (extensionLoop languagesFile (extractExtensions paths)
        o1).totalProgrammingOccurrences < 2 ^ 53 →
      ((∃ l ∈ analyzePaths languagesFile enr paths o1 o2, l.Name = entry.1) ↔
        201 * (extensionLoop languagesFile (extractExtensions paths)
          o1).totalProgrammingOccurrences ≤ 10000 * entry.2.weight) ∧
      ((∃ l ∈ analyzePaths languagesFile enr paths o1 o2, l.Name = entry.1) ↔
        2 < ((⌊(10000 * (entry.2.weight : ℚ)) /
          ((extensionLoop languagesFile (extractExtensions paths)
            o1).totalProgrammingOccurrences : ℚ)⌋ : ℤ) : ℚ) / 10000 * 100)) := by
  obtain ⟨x1, _, _, _⟩ := extractExtensions_spec (fun _ => 0) paths
  obtain ⟨_, _, _, s4, _, _⟩ := extensionLoop_spec languagesFile (extractExtensions paths) x1 o1
  have hT := total_pos_of_detected languagesFile paths o1 (List.ne_nil_of_mem hentry)
  have hTq : (0 : ℚ) < ((extensionLoop languagesFile (extractExtensions paths)
      o1).totalProgrammingOccurrences : ℚ) := by exact_mod_cast hT
  have hkey : (∃ l ∈ analyzePaths languagesFile enr paths o1 o2, l.Name = entry.1) ↔
      201 ≤ truncUnits entry.2.weight
        (extensionLoop languagesFile (extractExtensions paths)
          o1).totalProgrammingOccurrences := by
    constructor
    · rintro ⟨l, hl, hname⟩
      obtain ⟨entry2, hentry2, he⟩ := (mem_analyzePaths languagesFile enr paths o1 o2 l).mp hl
      obtain ⟨hn, _, hk⟩ := languageOf_some _ _ _ _ _ he
      have heq : entry2 = entry :=
        entry_unique _ s4 entry2 entry hentry2 hentry (by rw [← hn, hname])
      rw [← heq]
      exact (keep_iff _ _).mp hk
    · intro h
      obtain ⟨l, hl⟩ := languageOf_isSome enr paths _ entry ((keep_iff _ _).mpr h)
      exact ⟨l, (mem_analyzePaths languagesFile enr paths o1 o2 l).mpr ⟨entry, hentry, hl⟩,
        (languageOf_some _ _ _ _ _ hl).1⟩
  refine ⟨?_, ?_, ?_⟩
  · rw [pct_gt_iff]
    exact hkey
  · intro l hl hname
    obtain ⟨entry2, hentry2, he⟩ := (mem_analyzePaths languagesFile enr paths o1 o2 l).mp hl
    obtain ⟨hn, hw, hk⟩ := languageOf_some _ _ _ _ _ he
    have heq : entry2 = entry :=
      entry_unique _ s4 entry2 entry hentry2 hentry (by rw [← hn, hname])
    rw [heq] at hw hk
    refine ⟨hw, ?_⟩
    rw [hw, pct_gt_iff]
    exact (keep_iff _ _).mp hk
  · intro hw hT2
    have hshare := keep_iff_share entry.2.weight _ hT hT2 hw
    refine ⟨hkey.trans hshare, ?_⟩
    rw [hkey.trans hshare]
    constructor
    · intro h
      have h1 : ((201 : ℤ) : ℚ) ≤ (10000 * (entry.2.weight : ℚ)) /
          ((extensionLoop languagesFile (extractExtensions paths)
            o1).totalProgrammingOccurrences : ℚ) := by
        rw [le_div_iff₀ hTq]
        have : ((201 * (extensionLoop languagesFile (extractExtensions paths)
            o1).totalProgrammingOccurrences : ℕ) : ℚ) ≤ ((10000 * entry.2.weight : ℕ) : ℚ) := by
          exact_mod_cast h
        push_cast at this
        push_cast
        linarith
      have h2 := Int.le_floor.mpr h1
      have h3 : ((201 : ℤ) : ℚ) ≤ ((⌊(10000 * (entry.2.weight : ℚ)) /
          ((extensionLoop languagesFile (extractExtensions paths)
            o1).totalProgrammingOccurrences : ℚ)⌋ : ℤ) : ℚ) := by exact_mod_cast h2
      push_cast at h3
      linarith
    · intro h
      have h1 : ((200 : ℤ) : ℚ) < ((⌊(10000 * (entry.2.weight : ℚ)) /
          ((extensionLoop languagesFile (extractExtensions paths)
            o1).totalProgrammingOccurrences : ℚ)⌋ : ℤ) : ℚ) := by
        push_cast
        linarith
      have h2 : (200 : ℤ) < ⌊(10000 * (entry.2.weight : ℚ)) /
          ((extensionLoop languagesFile (extractExtensions paths)
            o1).totalProgrammingOccurrences : ℚ)⌋ := by exact_mod_cast h1
      have h3 : (201 : ℤ) ≤ ⌊(10000 * (entry.2.weight : ℚ)) /
          ((extensionLoop languagesFile (extractExtensions paths)
            o1).totalProgrammingOccurrences : ℚ)⌋ := by omega
      have h4 := Int.le_floor.mp h3
      rw [le_div_iff₀ hTq] at h4
      have h5 : ((201 * (extensionLoop languagesFile (extractExtensions paths)
          o1).totalProgrammingOccurrences : ℕ) : ℚ) ≤ ((10000 * entry.2.weight : ℕ) : ℚ) := by
        push_cast
        push_cast at h4
        linarith
      exact_mod_cast h5

/-- C5, witness: among 99 `.go` files and one `.py` file, Go has 99 of 100 and
is reported with weight 99, Python has 1 of 100 and is not reported. -/
theorem C5_significance_witness :
    (((∃ l ∈ analyzePaths sampleKB noEnricher
          (sampleFiles 99 "src/" ".go" ++ sampleFiles 1 "tools/" ".py") [] [],
        l.Name = "Go") ↔
      2 < percentage 99
        (extensionLoop sampleKB (extractExtensions
          (sampleFiles 99 "src/" ".go" ++ sampleFiles 1 "tools/" ".py"))
          []).totalProgrammingOccurrences) ∧
    (∀ l ∈ analyzePaths sampleKB noEnricher
        (sampleFiles 99 "src/" ".go" ++ sampleFiles 1 "tools/" ".py") [] [],
      l.Name = "Go" →
      l.Weight = percentage 99
        (extensionLoop sampleKB (extractExtensions
          (sampleFiles 99 "src/" ".go" ++ sampleFiles 1 "tools/" ".py"))
          []).totalProgrammingOccurrences ∧ 2 < l.Weight) ∧
    (99 < 2 ^ 37 →
      (extensionLoop sampleKB (extractExtensions
        (sampleFiles 99 "src/" ".go" ++ sampleFiles 1 "tools/" ".py"))
        []).totalProgrammingOccurrences < 2 ^ 53 →
      ((∃ l ∈ analyzePaths sampleKB noEnricher
          (sampleFiles 99 "src/" ".go" ++ sampleFiles 1 "tools/" ".py") [] [],
        l.Name = "Go") ↔
        201 * (extensionLoop sampleKB (extractExtensions
          (sampleFiles 99 "src/" ".go" ++ sampleFiles 1 "tools/" ".py"))
          []).totalProgrammingOccurrences ≤ 10000 * 99) ∧
      ((∃ l ∈ analyzePaths sampleKB noEnricher
          (sampleFiles 99 "src/" ".go" ++ sampleFiles 1 "tools/" ".py") [] [],
        l.Name = "Go") ↔
        2 < ((⌊(10000 * ((99 : ℕ) : ℚ)) /
          ((extensionLoop sampleKB (extractExtensions
            (sampleFiles 99 "src/" ".go" ++ sampleFiles 1 "tools/" ".py"))
            []).totalProgrammingOccurrences : ℚ)⌋ : ℤ) : ℚ) / 10000 * 100))) ∧
    (extensionLoop sampleKB (extractExtensions
      (sampleFiles 99 "src/" ".go" ++ sampleFiles 1 "tools/" ".py"))
      []).totalProgrammingOccurrences = 100 ∧
    (analyzePaths sampleKB noEnricher
      (sampleFiles 99 "src/" ".go" ++ sampleFiles 1 "tools/" ".py") [] []).map nameWeight =
      [("Go", 99)] :=
  ⟨C5_significance sampleKB noEnricher
    (sampleFiles 99 "src/" ".go" ++ sampleFiles 1 "tools/" ".py") [] []
    ("Go", ⟨programmingItem "Go", 99⟩) (by decide!), by decide!, by decide!⟩

/-- C6, counterexample: a language with weight 20001 out of a total of 1000000,
a share of 2.0001%, is truncated to 200 ten-thousandths and is not included. -/
theorem C6_counterexample :
    (20001 : ℚ) / 1000000 * 100 = 20001 / 10000 ∧
    truncUnits 20001 1000000 = 200 ∧
    languageOf noEnricher [] 1000000 ("Go", ⟨programmingItem "Go", 20001⟩) = none := by
  decide!

/-- C6, amended: a language whose share is exactly 2% is excluded, and so is
every language whose share is below 2.01% (weights below `2 ^ 37`), among them
the share 2.0001%; a language whose share is 2.01% or more is included
(counters below `2 ^ 53`). -/
theorem C6_threshold_boundary (enr : String → Option Enricher) (paths : List String)
    (name : String) (item : LanguageItem) :
    (∀ w : Nat, 0 < w → languageOf enr paths (50 * w) (name, ⟨item, w⟩) = none) ∧
    (∀ w T : Nat, 0 < T → w < 2 ^ 37 → 10000 * w < 201 * T →
      languageOf enr paths T (name, ⟨item, w⟩) = none) ∧
    (∀ w T : Nat, 0 < T → T < 2 ^ 53 → w < 2 ^ 53 → 201 * T ≤ 10000 * w →
      ∃ l, languageOf enr paths T (name, ⟨item, w⟩) = some l ∧ l.Name = name) := by
  refine ⟨?_, ?_, ?_⟩
  · intro w hw
    rw [languageOf_eq_none_iff]
    exact truncUnits_two_percent w hw
  · intro w T hT hw h
    rw [languageOf_eq_none_iff]
    have h1 := truncUnits_le_floor w T hT hw
    have hTq : (0 : ℚ) < (T : ℚ) := by exact_mod_cast hT
    have h2 : (10000 * (w : ℚ)) / (T : ℚ) < ((201 : ℤ) : ℚ) := by
      rw [div_lt_iff₀ hTq]
      have : (10000 : ℚ) * (w : ℚ) < 201 * (T : ℚ) := by exact_mod_cast h
      push_cast
      linarith
    have h3 := Int.floor_lt.mpr h2
    show truncUnits w T ≤ 200
    omega
  · intro w T hT hT2 hw h
    obtain ⟨l, hl⟩ := languageOf_isSome enr paths T (name, ⟨item, w⟩)
      ((keep_iff _ _).mpr (le_truncUnits_of_share w T hT hT2 hw h))
    exact ⟨l, hl, (languageOf_some _ _ _ _ _ hl).1⟩

/-- C6, witness: the shares 2 of 100, 20001 of 1000000 and 201 of 10000. -/
theorem C6_threshold_boundary_witness :
    languageOf noEnricher [] (50 * 2) ("Go", ⟨programmingItem "Go", 2⟩) = none ∧
    languageOf noEnricher [] 1000000 ("Go", ⟨programmingItem "Go", 20001⟩) = none ∧
    (∃ l, languageOf noEnricher [] 10000 ("Go", ⟨programmingItem "Go", 201⟩) = some l ∧
      l.Name = "Go") :=
  ⟨(C6_threshold_boundary noEnricher [] "Go" (programmingItem "Go")).1 2 (by decide),
   (C6_threshold_boundary noEnricher [] "Go" (programmingItem "Go")).2.1 20001 1000000
     (by decide) (by decide) (by decide),
   (C6_threshold_boundary noEnricher [] "Go" (programmingItem "Go")).2.2 201 10000
     (by decide) (by decide) (by decide) (by decide)⟩


/-- C7: a programming-kind candidate with a non-empty group that
`GetLanguageByName` resolves adds the occurrence count of its extension to the
entry keyed by the name of the canonical descriptor and touches no other key,
so no entry appears under the name of the dialect; and 97 `.ts` files
(TypeScript, group JavaScript) with 3 `.js` files (JavaScript) yield exactly
one result, JavaScript with weight 100, for every visiting order and
enricher. -/
theorem C7_dialect_collapse :
    (∀ (languagesFile : LanguageFile) (count : Nat) (d : List (String × languageItem))
        (flag : Bool) (language canonical : LanguageItem),
      language.Kind = "programming" → language.Group.length ≠ 0 →
      languagesFile.GetLanguageByName language.Group = some canonical →
      weightOf (candidateStep languagesFile count (d, flag) language).1 canonical.Name =
        weightOf d canonical.Name + count ∧
      (∀ k, k ≠ canonical.Name →
        mapLookup (candidateStep languagesFile count (d, flag) language).1 k = mapLookup d k) ∧
      (language.Name ≠ canonical.Name →
        mapLookup (candidateStep languagesFile count (d, flag) language).1 language.Name =
          mapLookup d language.Name)) ∧
    (∀ (enr : String → Option Enricher) (o1 o2 : List Nat),
      (analyzePaths sampleKB enr (sampleFiles 97 "src/" ".ts" ++ sampleFiles 3 "lib/" ".js")
        o1 o2).map nameWeight = [("JavaScript", 100)]) := by
  constructor
  · intro languagesFile count d flag language canonical hkind hgroup hres
    have hstep : candidateStep languagesFile count (d, flag) language =
        (mapSet d canonical.Name ⟨canonical, weightOf d canonical.Name + count⟩, true) := by
      rw [candidateStep_eq]
      have hr : resolve languagesFile language = some canonical := by
        unfold resolve
        rw [if_pos hkind, if_neg hgroup, hres]
      rw [hr]
    rw [hstep]
    refine ⟨?_, ?_, ?_⟩
    · rw [weightOf_mapSet_self]
    · intro k hk
      exact mapLookup_mapSet_ne _ _ _ _ hk
    · intro hk
      exact mapLookup_mapSet_ne _ _ _ _ hk
  · intro enr o1 o2
    have hp := analyzePaths_nameWeight sampleKB enr
      (sampleFiles 97 "src/" ".ts" ++ sampleFiles 3 "lib/" ".js") o1 o2
    rw [scenario_dialect_state o1] at hp
    have hv : List.filterMap (reported 100)
        [("JavaScript", (⟨programmingItem "JavaScript", 100⟩ : languageItem))] =
        [("JavaScript", 100)] := by decide!
    simp only at hp
    rw [hv] at hp
    exact List.perm_singleton.mp hp

/-- C7, witness: the dialect TypeScript of the sample knowledge base, with 97
occurrences of `.ts`, on an empty map. -/
theorem C7_dialect_collapse_witness :
    weightOf (candidateStep sampleKB 97 ([], false)
        (dialectItem "TypeScript" "JavaScript")).1 (programmingItem "JavaScript").Name =
      weightOf [] (programmingItem "JavaScript").Name + 97 ∧
    mapLookup (candidateStep sampleKB 97 ([], false)
        (dialectItem "TypeScript" "JavaScript")).1 (dialectItem "TypeScript" "JavaScript").Name =
      mapLookup ([] : List (String × languageItem)) (dialectItem "TypeScript" "JavaScript").Name :=
  ⟨(C7_dialect_collapse.1 sampleKB 97 [] false (dialectItem "TypeScript" "JavaScript")
      (programmingItem "JavaScript") (by decide) (by decide) (by decide)).1,
   (C7_dialect_collapse.1 sampleKB 97 [] false (dialectItem "TypeScript" "JavaScript")
      (programmingItem "JavaScript") (by decide) (by decide) (by decide)).2.2 (by decide)⟩

/-- C8: a path whose extension has no candidate of kind programming
contributes to no weight and not to the denominator: with or without it,
wherever it stands in the path list and whatever the visiting orders, every
accumulated weight and the denominator are the same, and so are the names and
weights returned by `Analyze`; and 80 `.go` files with 20 `.md` files yield
exactly one result, Go with weight 100. -/
theorem C8_frame :
    (∀ (languagesFile : LanguageFile) (enr : String → Option Enricher)
        (before after : List String) (p : String) (o1 o2 o3 o4 : List Nat),
      (∀ language ∈ languagesFile.GetLanguagesByExtension (Ext p),
        language.Kind ≠ "programming") →
      (∀ n, weightOf (extensionLoop languagesFile (extractExtensions (before ++ p :: after))
          o1).languagesDetected n =
        weightOf (extensionLoop languagesFile (extractExtensions (before ++ after))
          o3).languagesDetected n) ∧
      (extensionLoop languagesFile (extractExtensions (before ++ p :: after))
          o1).totalProgrammingOccurrences =
        (extensionLoop languagesFile (extractExtensions (before ++ after))
          o3).totalProgrammingOccurrences ∧
      List.Perm
        ((analyzePaths languagesFile enr (before ++ p :: after) o1 o2).map nameWeight)
        ((analyzePaths languagesFile enr (before ++ after) o3 o4).map nameWeight)) ∧
    (∀ (enr : String → Option Enricher) (o1 o2 : List Nat),
      (analyzePaths sampleKB enr (sampleFiles 80 "cmd/" ".go" ++ sampleFiles 20 "docs/" ".md")
        o1 o2).map nameWeight = [("Go", 100)]) := by
  constructor
  · intro languagesFile enr before after p o1 o2 o3 o4 hp
    have hnil := resolvedNames_eq_nil_of_no_programming languagesFile (Ext p) hp
    obtain ⟨a1, a2, a3, a4⟩ := extensionLoop_by_paths languagesFile (before ++ p :: after) o1
    obtain ⟨b1, b2, b3, b4⟩ := extensionLoop_by_paths languagesFile (before ++ after) o3
    have hw : ∀ n, weightOf (extensionLoop languagesFile
          (extractExtensions (before ++ p :: after)) o1).languagesDetected n =
        weightOf (extensionLoop languagesFile (extractExtensions (before ++ after))
          o3).languagesDetected n := by
      intro n
      rw [a1 n, b1 n]
      simp [hnil]
    have hT : (extensionLoop languagesFile (extractExtensions (before ++ p :: after))
          o1).totalProgrammingOccurrences =
        (extensionLoop languagesFile (extractExtensions (before ++ after))
          o3).totalProgrammingOccurrences := by
      rw [a2, b2]
      simp [hnil]
    refine ⟨hw, hT, ?_⟩
    refine (analyzePaths_nameWeight languagesFile enr _ o1 o2).trans
      (List.Perm.trans ?_ (analyzePaths_nameWeight languagesFile enr _ o3 o4).symm)
    apply reported_perm _ _ _ _ a3 b3 _ hw hT
    · intro n
      rw [a4 n, b4 n]
      constructor
      · rintro ⟨q, hq, hq1, hq2⟩
        rw [List.mem_append, List.mem_cons] at hq
        rcases hq with hq | hq | hq
        · exact ⟨q, List.mem_append_left _ hq, hq1, hq2⟩
        · subst hq
          rw [hnil] at hq2
          simp at hq2
        · exact ⟨q, List.mem_append_right _ hq, hq1, hq2⟩
      · rintro ⟨q, hq, hq1, hq2⟩
        rw [List.mem_append] at hq
        rcases hq with hq | hq
        · exact ⟨q, List.mem_append_left _ hq, hq1, hq2⟩
        · exact ⟨q, List.mem_append_right _ (List.mem_cons_of_mem _ hq), hq1, hq2⟩
  · intro enr o1 o2
    have hp := analyzePaths_nameWeight sampleKB enr
      (sampleFiles 80 "cmd/" ".go" ++ sampleFiles 20 "docs/" ".md") o1 o2
    rw [scenario_prose_state o1] at hp
    have hv : List.filterMap (reported 80)
        [("Go", (⟨programmingItem "Go", 80⟩ : languageItem))] = [("Go", 100)] := by decide!
    simp only at hp
    rw [hv] at hp
    exact List.perm_singleton.mp hp

/-- C8, witness: a README added in the middle of 9 `.go` files. -/
theorem C8_frame_witness :
    (∀ language ∈ sampleKB.GetLanguagesByExtension (Ext "README.md"),
      language.Kind ≠ "programming") ∧
    List.Perm
      ((analyzePaths sampleKB noEnricher
        (sampleFiles 4 "cmd/" ".go" ++ "README.md" :: sampleFiles 5 "pkg/" ".go") [] []).map
        nameWeight)
      ((analyzePaths sampleKB noEnricher
        (sampleFiles 4 "cmd/" ".go" ++ sampleFiles 5 "pkg/" ".go") [] []).map nameWeight) :=
  ⟨by decide!,
   (C8_frame.1 sampleKB noEnricher (sampleFiles 4 "cmd/" ".go") (sampleFiles 5 "pkg/" ".go")
     "README.md" [] [] [] [] (by decide!)).2.2⟩

/-- C9, counterexample: three `.vy` files, whose only candidate is of kind
programming with a group that `GetLanguageByName` does not find: the extension
has a programming-kind candidate and 3 occurrences, and
`totalProgrammingOccurrences` is 0 after the loop. -/
theorem C9_counterexample :
    extractExtensions (sampleFiles 3 "contracts/" ".vy") = [(".vy", 3)] ∧
    hasProgrammingCandidate sampleKB ".vy" = true ∧
    (extensionLoop sampleKB (extractExtensions (sampleFiles 3 "contracts/" ".vy"))
      []).totalProgrammingOccurrences = 0 ∧
    (extensionLoop sampleKB (extractExtensions (sampleFiles 3 "contracts/" ".vy"))
      []).totalProgrammingOccurrences ≠
      ((extractExtensions (sampleFiles 3 "contracts/" ".vy")).map
        (fun en => if hasProgrammingCandidate sampleKB en.1 then en.2 else 0)).sum := by
  decide!

/-- C9, amended: after the extension loop, `totalProgrammingOccurrences` is the
sum of the occurrence counts of exactly those extensions that have at least one
candidate of kind programming without group or with a group that
`GetLanguageByName` finds, each extension counted once (the keys of the tally
are distinct) however many such candidates it has. -/
theorem C9_total (languagesFile : LanguageFile) (paths : List String) (o1 : List Nat) :
    (extensionLoop languagesFile (extractExtensions paths) o1).totalProgrammingOccurrences =
      ((extractExtensions paths).map
        (fun en => if (resolvedNames languagesFile en.1).isEmpty then 0 else en.2)).sum ∧
    (keys (extractExtensions paths)).Nodup ∧
    (∀ extension, (resolvedNames languagesFile extension).isEmpty = false ↔
      ∃ language ∈ languagesFile.GetLanguagesByExtension extension,
        language.Kind = "programming" ∧
        (language.Group.length = 0 ∨
          ∃ canonical, languagesFile.GetLanguageByName language.Group = some canonical)) := by
  obtain ⟨x1, _, _, _⟩ := extractExtensions_spec (fun _ => 0) paths
  obtain ⟨_, _, s3, _, _, _⟩ := extensionLoop_spec languagesFile (extractExtensions paths) x1 o1
  refine ⟨s3, x1, ?_⟩
  intro extension
  have hres : ∀ language : LanguageItem, (∃ c, resolve languagesFile language = some c) ↔
      (language.Kind = "programming" ∧ (language.Group.length = 0 ∨
        ∃ canonical, languagesFile.GetLanguageByName language.Group = some canonical)) := by
    intro language
    unfold resolve
    by_cases hk : language.Kind = "programming"
    · by_cases hg : language.Group.length = 0
      · simp [hk, hg]
      · simp [hk, hg]
    · simp [hk]
  unfold resolvedNames
  constructor
  · intro h
    cases hl : (languagesFile.GetLanguagesByExtension extension).filterMap
        (resolve languagesFile) with
    | nil => rw [hl] at h; simp at h
    | cons c rest =>
      have hc : c ∈ (languagesFile.GetLanguagesByExtension extension).filterMap
          (resolve languagesFile) := by rw [hl]; exact List.mem_cons_self _ _
      obtain ⟨language, hmem, hr⟩ := List.mem_filterMap.mp hc
      exact ⟨language, hmem, (hres language).mp ⟨c, hr⟩⟩
  · rintro ⟨language, hmem, hk⟩
    obtain ⟨c, hc⟩ := (hres language).mpr hk
    have hc2 : c ∈ (languagesFile.GetLanguagesByExtension extension).filterMap
        (resolve languagesFile) := List.mem_filterMap.mpr ⟨language, hmem, hc⟩
    cases hl : (languagesFile.GetLanguagesByExtension extension).filterMap
        (resolve languagesFile) with
    | nil => rw [hl] at hc2; simp at hc2
    | cons c rest => rfl

/-- C10: the sequence returned by `Analyze` is sorted by weight in
non-increasing order. -/
theorem C10_sorted (languagesFile : LanguageFile) (enr : String → Option Enricher)
    (paths : List String) (o1 o2 : List Nat) (i j : Nat) (hij : i < j)
    (hj : j < (analyzePaths languagesFile enr paths o1 o2).length) :
    ((analyzePaths languagesFile enr paths o1 o2).get ⟨j, hj⟩).Weight ≤
      ((analyzePaths languagesFile enr paths o1 o2).get ⟨i, lt_trans hij hj⟩).Weight := by
  have hs : (analyzePaths languagesFile enr paths o1 o2).Pairwise
      (fun x y => y.Weight ≤ x.Weight) := by
    unfold analyzePaths
    exact sortByWeight_sorted _
  exact List.pairwise_iff_get.mp hs ⟨i, lt_trans hij hj⟩ ⟨j, hj⟩ hij

/-- C10, witness: 43 `.go` files and 57 `.py` files, found in this order and
returned with Python first. -/
theorem C10_sorted_witness :
    ∃ h : 1 < (analyzePaths sampleKB noEnricher
        (sampleFiles 43 "src/" ".go" ++ sampleFiles 57 "tools/" ".py") [] []).length,
      ((analyzePaths sampleKB noEnricher
        (sampleFiles 43 "src/" ".go" ++ sampleFiles 57 "tools/" ".py") [] []).get ⟨1, h⟩).Weight ≤
      ((analyzePaths sampleKB noEnricher
        (sampleFiles 43 "src/" ".go" ++ sampleFiles 57 "tools/" ".py") [] []).get
          ⟨0, lt_trans Nat.zero_lt_one h⟩).Weight :=
  ⟨by decide!, C10_sorted sampleKB noEnricher
    (sampleFiles 43 "src/" ".go" ++ sampleFiles 57 "tools/" ".py") [] [] 0 1
    Nat.zero_lt_one (by decide!)⟩

/-- C11, counterexample: with 5 `.go` files and 5 `.py` files Go is added to
`languagesDetected` first and both weights are 50, yet when the range over
`languagesDetected` visits Python first the result lists Python before Go. -/
theorem C11_counterexample :
    keys (extensionLoop sampleKB (extractExtensions
        (sampleFiles 5 "src/" ".go" ++ sampleFiles 5 "tools/" ".py")) []).languagesDetected =
      ["Go", "Python"] ∧
    (analyzePaths sampleKB noEnricher
        (sampleFiles 5 "src/" ".go" ++ sampleFiles 5 "tools/" ".py") [] [1]).map nameWeight =
      [("Python", 50), ("Go", 50)] := by
  decide!

/-- C11, amended: languages with equal weight appear in the result in the
relative order in which the range over `languagesDetected` visited them: the
languages of any given weight are, in the result, the same sequence as in
`languagesFound` before the sort. -/
theorem C11_ties (languagesFile : LanguageFile) (enr : String → Option Enricher)
    (paths : List String) (o1 o2 : List Nat) (w : ℚ) :
    (analyzePaths languagesFile enr paths o1 o2).filter (fun l => decide (l.Weight = w)) =
      ((rangeOrder o2
          (extensionLoop languagesFile (extractExtensions paths) o1).languagesDetected).filterMap
        (languageOf enr paths
          (extensionLoop languagesFile (extractExtensions paths)
            o1).totalProgrammingOccurrences)).filter (fun l => decide (l.Weight = w)) := by
  unfold analyzePaths languagesFound
  exact filter_sortByWeight w _

/-- C12, counterexample: for the same 5 `.go` files and 5 `.py` files two
visiting orders of `languagesDetected` return different sequences. -/
theorem C12_counterexample :
    analyzePaths sampleKB noEnricher
        (sampleFiles 5 "src/" ".go" ++ sampleFiles 5 "tools/" ".py") [] [] ≠
      analyzePaths sampleKB noEnricher
        (sampleFiles 5 "src/" ".go" ++ sampleFiles 5 "tools/" ".py") [] [1] := by
  decide!

/-- C12, amended: for a fixed path list and knowledge base, two runs return the
same names with the same weights whatever the visiting orders of the two maps,
and in the same order whenever no two reported weights are equal. -/
theorem C12_determinism (languagesFile : LanguageFile) (enr : String → Option Enricher)
    (paths : List String) (o1 o2 o3 o4 : List Nat) :
    List.Perm ((analyzePaths languagesFile enr paths o1 o2).map nameWeight)
      ((analyzePaths languagesFile enr paths o3 o4).map nameWeight) ∧
    (((analyzePaths languagesFile enr paths o1 o2).map Language.Weight).Nodup →
      (analyzePaths languagesFile enr paths o1 o2).map nameWeight =
        (analyzePaths languagesFile enr paths o3 o4).map nameWeight) := by
  have hp := nameWeight_perm languagesFile enr paths o1 o2 o3 o4
  refine ⟨hp, ?_⟩
  intro hd
  apply eq_of_perm_sorted_distinct _ _ hp
  · exact List.pairwise_map.mpr (analyzePaths_sorted languagesFile enr paths o1 o2)
  · exact List.pairwise_map.mpr (analyzePaths_sorted languagesFile enr paths o3 o4)
  · rw [List.map_map]
    exact hd

/-- C12, witness: 57 `.go` files and 43 `.py` files under two pairs of
visiting orders. -/
theorem C12_determinism_witness :
    ((analyzePaths sampleKB noEnricher
        (sampleFiles 57 "src/" ".go" ++ sampleFiles 43 "tools/" ".py") [] []).map
        Language.Weight).Nodup ∧
    (analyzePaths sampleKB noEnricher
        (sampleFiles 57 "src/" ".go" ++ sampleFiles 43 "tools/" ".py") [] []).map nameWeight =
      (analyzePaths sampleKB noEnricher
        (sampleFiles 57 "src/" ".go" ++ sampleFiles 43 "tools/" ".py") [1] [1]).map nameWeight :=
  ⟨by decide!,
   (C12_determinism sampleKB noEnricher
      (sampleFiles 57 "src/" ".go" ++ sampleFiles 43 "tools/" ".py") [] [] [1] [1]).2
      (by decide!)⟩

/-- C13: when `os.Stat` fails on the root, `GetFilePathsFromRoot` returns that
error and no paths, and `Analyze` returns the same error with an empty sequence
of languages; when `GetFilePathsFromRoot` returns no error, which it does
whenever `os.Stat` succeeds on the root, `Analyze` returns no error. -/
theorem C13_errors (fs : FileSystem) (compile : String → Except String (String → Bool))
    (languagesFile : LanguageFile) (enr : String → Option Enricher) (root : String)
    (o1 o2 : List Nat) :
    (∀ err, fs.stat root = .error err →
      GetFilePathsFromRoot fs compile root = ([], some err) ∧
        Analyze fs compile languagesFile enr root o1 o2 = ([], some err)) ∧
    ((GetFilePathsFromRoot fs compile root).2 = none →
      (Analyze fs compile languagesFile enr root o1 o2).2 = none) ∧
    (∀ node, fs.stat root = .ok node → (GetFilePathsFromRoot fs compile root).2 = none) := by
  refine ⟨?_, ?_, ?_⟩
  · intro err h
    simp [Analyze, GetFilePathsFromRoot, h]
  · intro h
    unfold Analyze
    cases hg : GetFilePathsFromRoot fs compile root with
    | mk paths e =>
      rw [hg] at h
      simp only at h
      subst h
      rfl
  · intro node h
    simp [GetFilePathsFromRoot, h]

/-- C14: when `getIgnoreFile` loaded a matcher, no path the matcher matches is
in the sequence `GetFilePathsFromRoot` returns; the sequence is the one the
walk without matcher gives on the tree pruned of every matched entry, a matched
directory with its whole subtree; every extension `extractExtensions` counts is
that of a recorded path the matcher does not match; and `Analyze` returns what
the paths of the pruned tree give. -/
theorem C14_ignored (fs : FileSystem) (compile : String → Except String (String → Bool))
    (languagesFile : LanguageFile) (enr : String → Option Enricher) (root : String)
    (o1 o2 : List Nat) (m : String → Bool) (node : Node)
    (hm : getIgnoreFile fs compile root = .ok m) (hs : fs.stat root = .ok node) :
    (∀ p ∈ (GetFilePathsFromRoot fs compile root).1, m p = false) ∧
    (GetFilePathsFromRoot fs compile root).1 =
      (if m root then [] else Walk root none (pruneNode m root node)) ∧
    (∀ en ∈ extractExtensions (GetFilePathsFromRoot fs compile root).1,
      ∃ p ∈ (GetFilePathsFromRoot fs compile root).1,
        m p = false ∧ (Ext p).length ≠ 0 ∧ Ext p = en.1) ∧
    extractExtensions (GetFilePathsFromRoot fs compile root).1 =
      extractExtensions (if m root then [] else Walk root none (pruneNode m root node)) ∧
    Analyze fs compile languagesFile enr root o1 o2 =
      (analyzePaths languagesFile enr
        (if m root then [] else Walk root none (pruneNode m root node)) o1 o2, none) := by
  have hp : GetFilePathsFromRoot fs compile root = (Walk root (some m) node, none) := by
    simp [GetFilePathsFromRoot, hs, hm, Except.toOption]
  have ha : ∀ p ∈ (GetFilePathsFromRoot fs compile root).1, m p = false := by
    rw [hp]
    exact Walk_not_ignored root m node
  have hb : (GetFilePathsFromRoot fs compile root).1 =
      (if m root then [] else Walk root none (pruneNode m root node)) := by
    rw [hp]
    exact Walk_prune root m node
  refine ⟨ha, hb, ?_, ?_, ?_⟩
  · intro en hen
    obtain ⟨p, hp1, hp2, hp3⟩ := mem_tally_iff _ en hen
    exact ⟨p, hp1, ha p hp1, hp2, hp3⟩
  · rw [hb]
  · unfold Analyze
    rw [hp]
    simp only
    rw [Walk_prune root m node]

/-- C14, witness: the sample project, whose ignore file matches itself and the
directory `vendor`. -/
theorem C14_ignored_witness :
    getIgnoreFile sampleFS sampleCompile "proj" = .ok sampleMatcher ∧
    sampleFS.stat "proj" = .ok (.dir sampleTree) ∧
    ((∀ p ∈ (GetFilePathsFromRoot sampleFS sampleCompile "proj").1, sampleMatcher p = false) ∧
    (GetFilePathsFromRoot sampleFS sampleCompile "proj").1 =
      (if sampleMatcher "proj" then []
        else Walk "proj" none (pruneNode sampleMatcher "proj" (.dir sampleTree))) ∧
    (∀ en ∈ extractExtensions (GetFilePathsFromRoot sampleFS sampleCompile "proj").1,
      ∃ p ∈ (GetFilePathsFromRoot sampleFS sampleCompile "proj").1,
        sampleMatcher p = false ∧ (Ext p).length ≠ 0 ∧ Ext p = en.1) ∧
    extractExtensions (GetFilePathsFromRoot sampleFS sampleCompile "proj").1 =
      extractExtensions (if sampleMatcher "proj" then []
        else Walk "proj" none (pruneNode sampleMatcher "proj" (.dir sampleTree))) ∧
    Analyze sampleFS sampleCompile sampleKB noEnricher "proj" [] [] =
      (analyzePaths sampleKB noEnricher
        (if sampleMatcher "proj" then []
          else Walk "proj" none (pruneNode sampleMatcher "proj" (.dir sampleTree))) [] [],
        none)) :=
  ⟨rfl, rfl,
   C14_ignored sampleFS sampleCompile sampleKB noEnricher "proj" [] [] sampleMatcher
     (.dir sampleTree) rfl rfl⟩

/-- C15, counterexample: the root `repo.go` names an empty directory; the walk
records the root itself, and its extension `.go` makes `Analyze` report Go with
weight 100. -/
theorem C15_counterexample :
    (emptyDirAt "repo.go").stat "repo.go" = .ok (.dir .nil) ∧
    GetFilePathsFromRoot (emptyDirAt "repo.go") noCompile "repo.go" = (["repo.go"], none) ∧
    (Analyze (emptyDirAt "repo.go") noCompile sampleKB noEnricher "repo.go" [] []).1.map
      nameWeight = [("Go", 100)] ∧
    (Analyze (emptyDirAt "repo.go") noCompile sampleKB noEnricher "repo.go" [] []).2 = none := by
  refine ⟨rfl, ?_, ?_, ?_⟩ <;> decide!

/-- C15, amended: for a root naming an existing directory without entries,
`Analyze` returns no error; the only path that can be recorded is the root
itself; and the result is empty whenever the root has no extension or its
extension has no programming-kind candidate that resolves to a canonical
language. -/
theorem C15_empty_directory (fs : FileSystem)
    (compile : String → Except String (String → Bool)) (languagesFile : LanguageFile)
    (enr : String → Option Enricher) (root : String) (o1 o2 : List Nat)
    (hs : fs.stat root = .ok (.dir .nil)) :
    (Analyze fs compile languagesFile enr root o1 o2).2 = none ∧
    ((GetFilePathsFromRoot fs compile root).1 = [root] ∨
      (GetFilePathsFromRoot fs compile root).1 = []) ∧
    ((Ext root).length = 0 ∨ resolvedNames languagesFile (Ext root) = [] →
      (Analyze fs compile languagesFile enr root o1 o2).1 = []) := by
  have hp : GetFilePathsFromRoot fs compile root =
      (if isIgnored (getIgnoreFile fs compile root).toOption root then [] else [root], none) := by
    simp only [GetFilePathsFromRoot, hs, Walk, walkFn_dir, walkEntries]
    by_cases hi : isIgnored (getIgnoreFile fs compile root).toOption root = true
    · simp [hi]
    · simp [hi]
  have ha : Analyze fs compile languagesFile enr root o1 o2 =
      (analyzePaths languagesFile enr
        (if isIgnored (getIgnoreFile fs compile root).toOption root then [] else [root])
        o1 o2, none) := by
    unfold Analyze
    rw [hp]
  refine ⟨?_, ?_, ?_⟩
  · rw [ha]
  · rw [hp]
    by_cases hi : isIgnored (getIgnoreFile fs compile root).toOption root = true
    · right; simp [hi]
    · left; simp [hi]
  · intro h
    rw [ha]
    apply analyzePaths_eq_nil
    intro p hp1
    by_cases hi : isIgnored (getIgnoreFile fs compile root).toOption root = true
    · simp [hi] at hp1
    · simp [hi] at hp1
      rw [hp1]
      exact h

/-- C15, witness: the root `empty` names an empty directory. -/
theorem C15_empty_directory_witness :
    (emptyDirAt "empty").stat "empty" = .ok (.dir .nil) ∧
    ((Analyze (emptyDirAt "empty") noCompile sampleKB noEnricher "empty" [] []).2 = none ∧
    ((GetFilePathsFromRoot (emptyDirAt "empty") noCompile "empty").1 = ["empty"] ∨
      (GetFilePathsFromRoot (emptyDirAt "empty") noCompile "empty").1 = []) ∧
    ((Ext "empty").length = 0 ∨ resolvedNames sampleKB (Ext "empty") = [] →
      (Analyze (emptyDirAt "empty") noCompile sampleKB noEnricher "empty" [] []).1 = [])) :=
  ⟨rfl, C15_empty_directory (emptyDirAt "empty") noCompile sampleKB noEnricher "empty" [] [] rfl⟩

/-- C16: in a tree whose entries have names a directory entry can have, the
sequence `GetFilePathsFromRoot` returns is the recorded non-directory entries
located directly inside the root, in reverse order of discovery, followed by
every other recorded entry (the root, the directories, the deeper files) in
traversal order. -/
theorem C16_order (fs : FileSystem) (compile : String → Except String (String → Bool))
    (root : String) (node : Node)
    (hs : fs.stat root = .ok node) (hv : validNode node = true) :
    (GetFilePathsFromRoot fs compile root).1 =
      (((visited (getIgnoreFile fs compile root).toOption root node).filter
          isRootFile).map Visit.path).reverse ++
        ((visited (getIgnoreFile fs compile root).toOption root node).filter
          (fun v => !isRootFile v)).map Visit.path := by
  have hp : GetFilePathsFromRoot fs compile root =
      (Walk root (getIgnoreFile fs compile root).toOption node, none) := by
    simp [GetFilePathsFromRoot, hs]
  rw [hp]
  exact Walk_visited root _ node hv

/-- C16, witness: the sample project. -/
theorem C16_order_witness :
    sampleFS.stat "proj" = .ok (.dir sampleTree) ∧
    validNode (.dir sampleTree) = true ∧
    (GetFilePathsFromRoot sampleFS sampleCompile "proj").1 =
      (((visited (getIgnoreFile sampleFS sampleCompile "proj").toOption "proj"
          (.dir sampleTree)).filter isRootFile).map Visit.path).reverse ++
        ((visited (getIgnoreFile sampleFS sampleCompile "proj").toOption "proj"
          (.dir sampleTree)).filter (fun v => !isRootFile v)).map Visit.path :=
  ⟨rfl, by decide!,
   C16_order sampleFS sampleCompile "proj" (.dir sampleTree) rfl (by decide!)⟩

/-- C17, counterexample: `.asm` has two candidates, Assembly and a dialect of
the group Assembly; with 4 `.asm` files the weight of Assembly is 8, twice the
count of the only extension that contributes to it. -/
theorem C17_counterexample :
    extractExtensions (sampleFiles 4 "src/" ".asm") = [(".asm", 4)] ∧
    weightOf (extensionLoop sampleKB (extractExtensions (sampleFiles 4 "src/" ".asm"))
      []).languagesDetected "Assembly" = 8 ∧
    ¬ (weightOf (extensionLoop sampleKB (extractExtensions (sampleFiles 4 "src/" ".asm"))
        []).languagesDetected "Assembly" ≤
      ((extractExtensions (sampleFiles 4 "src/" ".asm")).map
        (fun en => if "Assembly" ∈ resolvedNames sampleKB en.1 then en.2 else 0)).sum) := by
  decide!

/-- C17, amended: in the extension loop an extension adds its occurrence count
to the weight of a canonical language once for each of its candidates that
contributes to that language, so the accumulated weight is the sum over the
extensions of count times number of such candidates; when no extension has
two candidates contributing to the same language, it is at most the sum of the
counts of the extensions that contribute to it. -/
theorem C17_weight (languagesFile : LanguageFile) (paths : List String) (o1 : List Nat)
    (n : String) :
    weightOf (extensionLoop languagesFile (extractExtensions paths) o1).languagesDetected n =
      ((extractExtensions paths).map
        (fun en => en.2 * (resolvedNames languagesFile en.1).count n)).sum ∧
    ((∀ en ∈ extractExtensions paths, (resolvedNames languagesFile en.1).Nodup) →
      weightOf (extensionLoop languagesFile (extractExtensions paths) o1).languagesDetected n ≤
        ((extractExtensions paths).map
          (fun en => if n ∈ resolvedNames languagesFile en.1 then en.2 else 0)).sum) := by
  obtain ⟨x1, _, _, _⟩ := extractExtensions_spec (fun _ => 0) paths
  obtain ⟨_, s2, _, _, _, _⟩ := extensionLoop_spec languagesFile (extractExtensions paths) x1 o1
  refine ⟨s2 n, ?_⟩
  intro hH
  rw [s2 n]
  apply List.sum_le_sum
  intro en hen
  have hc := List.nodup_iff_count_le_one.mp (hH en hen) n
  by_cases hm : n ∈ resolvedNames languagesFile en.1
  · rw [if_pos hm]
    calc en.2 * List.count n (resolvedNames languagesFile en.1) ≤ en.2 * 1 :=
          Nat.mul_le_mul_left _ hc
      _ = en.2 := Nat.mul_one _
  · rw [if_neg hm, List.count_eq_zero_of_not_mem hm]
    simp

/-- C17, witness: 97 `.ts` files and 3 `.js` files, both contributing to
JavaScript. -/
theorem C17_weight_witness :
    (∀ en ∈ extractExtensions (sampleFiles 97 "src/" ".ts" ++ sampleFiles 3 "lib/" ".js"),
      (resolvedNames sampleKB en.1).Nodup) ∧
    weightOf (extensionLoop sampleKB
        (extractExtensions (sampleFiles 97 "src/" ".ts" ++ sampleFiles 3 "lib/" ".js"))
        []).languagesDetected "JavaScript" ≤
      ((extractExtensions (sampleFiles 97 "src/" ".ts" ++ sampleFiles 3 "lib/" ".js")).map
        (fun en => if "JavaScript" ∈ resolvedNames sampleKB en.1 then en.2 else 0)).sum :=
  ⟨by decide!,
   (C17_weight sampleKB (sampleFiles 97 "src/" ".ts" ++ sampleFiles 3 "lib/" ".js") []
      "JavaScript").2 (by decide!)⟩

/-- C18, counterexample: 11 `.py` files and 9 `.js` files, one candidate per
extension, are reported as 55.00000000000001 and 45, in sum above 100. -/
theorem C18_counterexample :
    (∀ en ∈ extractExtensions (sampleFiles 11 "src/" ".py" ++ sampleFiles 9 "web/" ".js"),
      (resolvedNames sampleKB en.1).length ≤ 1) ∧
    ¬ (((analyzePaths sampleKB noEnricher
        (sampleFiles 11 "src/" ".py" ++ sampleFiles 9 "web/" ".js") [] []).map
        Language.Weight).sum ≤ 100) := by
  decide!

/-- C18, amended: if every extension in the tally has at most one
programming-kind candidate that resolves to a canonical language, then every
reported weight is at most 100, and the reported weights add up to at most 100
up to the binary64 rounding of each weight, a factor `(1 + 2 ^ (-53)) ^ 3`. -/
theorem C18_bounds (languagesFile : LanguageFile) (enr : String → Option Enricher)
    (paths : List String) (o1 o2 : List Nat)
    (hH : ∀ en ∈ extractExtensions paths, (resolvedNames languagesFile en.1).length ≤ 1) :
    (∀ l ∈ analyzePaths languagesFile enr paths o1 o2, l.Weight ≤ 100) ∧
    ((analyzePaths languagesFile enr paths o1 o2).map Language.Weight).sum ≤
      100 * (1 + 1 / 2 ^ 53) ^ 3 := by
  have hlen : ∀ p ∈ paths, (Ext p).length ≠ 0 →
      (resolvedNames languagesFile (Ext p)).length ≤ 1 :=
    tally_hyp_to_paths paths (fun e => (resolvedNames languagesFile e).length ≤ 1) hH
  have hnd : ∀ p ∈ paths, (Ext p).length ≠ 0 → (resolvedNames languagesFile (Ext p)).Nodup := by
    intro p hp hp1
    have h1 := hlen p hp hp1
    cases hr : resolvedNames languagesFile (Ext p) with
    | nil => simp
    | cons a rest =>
      rw [hr] at h1
      have : rest = [] := by
        cases rest with
        | nil => rfl
        | cons b t => simp at h1
      rw [this]
      simp
  constructor
  · intro l hl
    obtain ⟨entry, hentry, he⟩ := (mem_analyzePaths languagesFile enr paths o1 o2 l).mp hl
    obtain ⟨_, hw, _⟩ := languageOf_some _ _ _ _ _ he
    rw [hw]
    exact percentage_le_hundred (weight_le_total languagesFile paths o1 hnd entry hentry)
  · exact weights_sum_le languagesFile enr paths o1 o2 hlen

/-- C18, witness: 11 `.py` files and 9 `.js` files. -/
theorem C18_bounds_witness :
    (∀ en ∈ extractExtensions (sampleFiles 11 "src/" ".py" ++ sampleFiles 9 "web/" ".js"),
      (resolvedNames sampleKB en.1).length ≤ 1) ∧
    ((∀ l ∈ analyzePaths sampleKB noEnricher
        (sampleFiles 11 "src/" ".py" ++ sampleFiles 9 "web/" ".js") [] [], l.Weight ≤ 100) ∧
      ((analyzePaths sampleKB noEnricher
        (sampleFiles 11 "src/" ".py" ++ sampleFiles 9 "web/" ".js") [] []).map
        Language.Weight).sum ≤ 100 * (1 + 1 / 2 ^ 53) ^ 3) :=
  ⟨by decide!,
   C18_bounds sampleKB noEnricher
     (sampleFiles 11 "src/" ".py" ++ sampleFiles 9 "web/" ".js") [] [] (by decide!)⟩

/-- C19: the accumulated weight of every language, the denominator, and the
names and weights returned by `Analyze` as a collection do not depend on the
order in which the extensions are processed nor on the order in which the
detected languages are visited. -/
theorem C19_order_independence (languagesFile : LanguageFile)
    (enr : String → Option Enricher) (paths : List String) (o1 o2 o3 o4 : List Nat) :
    (∀ n, weightOf (extensionLoop languagesFile (extractExtensions paths) o1).languagesDetected n =
      weightOf (extensionLoop languagesFile (extractExtensions paths) o3).languagesDetected n) ∧
    (extensionLoop languagesFile (extractExtensions paths) o1).totalProgrammingOccurrences =
      (extensionLoop languagesFile (extractExtensions paths) o3).totalProgrammingOccurrences ∧
    List.Perm ((analyzePaths languagesFile enr paths o1 o2).map nameWeight)
      ((analyzePaths languagesFile enr paths o3 o4).map nameWeight) ∧
    (∀ x, x ∈ (analyzePaths languagesFile enr paths o1 o2).map nameWeight ↔
      x ∈ (analyzePaths languagesFile enr paths o3 o4).map nameWeight) := by
  obtain ⟨a1, a2, _, _⟩ := extensionLoop_by_paths languagesFile paths o1
  obtain ⟨b1, b2, _, _⟩ := extensionLoop_by_paths languagesFile paths o3
  have hp := nameWeight_perm languagesFile enr paths o1 o2 o3 o4
  refine ⟨?_, ?_, hp, fun x => hp.mem_iff⟩
  · intro n; rw [a1 n, b1 n]
  · rw [a2, b2]

/-- C20: no two entries of the sequence returned by `Analyze` have the same
name. -/
theorem C20_distinct_names (languagesFile : LanguageFile) (enr : String → Option Enricher)
    (paths : List String) (o1 o2 : List Nat) :
    ((analyzePaths languagesFile enr paths o1 o2).map Language.Name).Nodup ∧
    (∀ (i j : Fin (analyzePaths languagesFile enr paths o1 o2).length),
      ((analyzePaths languagesFile enr paths o1 o2).get i).Name =
        ((analyzePaths languagesFile enr paths o1 o2).get j).Name → i = j) := by
  have h := names_nodup languagesFile enr paths o1 o2
  refine ⟨h, ?_⟩
  intro i j hij
  have hinj := List.nodup_iff_injective_get.mp h
  have hi : i.1 < ((analyzePaths languagesFile enr paths o1 o2).map Language.Name).length := by
    rw [List.length_map]; exact i.2
  have hj : j.1 < ((analyzePaths languagesFile enr paths o1 o2).map Language.Name).length := by
    rw [List.length_map]; exact j.2
  have e : ((analyzePaths languagesFile enr paths o1 o2).map Language.Name).get ⟨i.1, hi⟩ =
      ((analyzePaths languagesFile enr paths o1 o2).map Language.Name).get ⟨j.1, hj⟩ := by
    simp only [List.get_eq_getElem, List.getElem_map]
    simpa [List.get_eq_getElem] using hij
  have := hinj e
  exact Fin.ext (by simpa using congrArg Fin.val this)

end Alizer
